import Mathlib

/-!
# LPPolynomial: content, unit part, normalisation and coefficient extraction

A shallow embedding of `carl::LPPolynomial`
(`src/carl-arith/poly/libpoly/LPPolynomial.{h,cpp}`).

The class wraps a libpoly polynomial handle.  The libpoly primitives it calls
(`lp_polynomial_traverse`, `lp_polynomial_add_monomial`, `lp_polynomial_mul`,
`lp_polynomial_div`, `lp_polynomial_lc_sgn`, ...) are not part of the sources;
they are modelled on the data model of the specification: a polynomial is the
list of its monomials in canonical order, a monomial is an integer coefficient
together with a list of (variable, exponent) powers.
-/

namespace carl

/-! ## Data model -/

/-- A symbolic variable, identified by the number the variable registry gave it. -/
abbrev Variable := Nat

/-- Modelled from the spec: the Context (`LPContext.h` is not among the sources).
An immutable ordered sequence of variables; the internal index of a variable is
its position in the sequence, and a later position is a higher variable. -/
structure LPContext where
  variable_ordering : List Variable
deriving DecidableEq, Repr

/-- Position of `v` in an ordering, if it is tracked. -/
def ordering_index : List Variable → Variable → Option Nat
  | [], _ => none
  | w :: ws, v => if w = v then some 0 else (ordering_index ws v).map (· + 1)

/-- Modelled from the spec: `lookup(variable) -> index | absent`. -/
def LPContext.lp_variable_opt (c : LPContext) (v : Variable) : Option Nat :=
  ordering_index c.variable_ordering v

/-- Modelled from the spec: `LPContext::lp_variable`, the lookup that asserts
the variable is tracked; `none` is the failed assertion. -/
def LPContext.lp_variable (c : LPContext) (v : Variable) : Option Nat :=
  c.lp_variable_opt v

/-- The libpoly `power_t`: variable `x` raised to the exponent `d`. -/
structure power_t where
  x : Nat
  d : Nat
deriving DecidableEq, Repr

/-- The libpoly `lp_monomial_t`: coefficient `a` and the powers `p`
(the field `n` is the length of `p`). -/
structure lp_monomial_t where
  a : Int
  p : List power_t
deriving DecidableEq, Repr

/-- Modelled from the spec: the libpoly polynomial handle, the monomials of the
polynomial in canonical (traversal) order, lowest first. -/
abbrev lp_polynomial_t := List lp_monomial_t

/-- The class `LPPolynomial`: the libpoly polynomial and its context. -/
structure LPPolynomial where
  m_internal : lp_polynomial_t
  m_context : LPContext
deriving DecidableEq, Repr

/-! ## The libpoly primitives used by the class -/

/-- Modelled from the spec: the canonical order on power products, the
lexicographic order induced by the context.  Power lists carry the highest
variable first; a power product lacking a variable the other has is smaller. -/
def power_cmp : List power_t → List power_t → Ordering
  | [], [] => Ordering.eq
  | [], _ :: _ => Ordering.lt
  | _ :: _, [] => Ordering.gt
  | a :: as, b :: bs =>
    if a.x < b.x then Ordering.lt
    else if b.x < a.x then Ordering.gt
    else if a.d < b.d then Ordering.lt
    else if b.d < a.d then Ordering.gt
    else power_cmp as bs

/-- Insert one power into a power list kept with the highest variable first. -/
def power_insert (pw : power_t) : List power_t → List power_t
  | [] => [pw]
  | q :: qs => if q.x < pw.x then pw :: q :: qs else q :: power_insert pw qs

/-- Modelled from the spec: `lp_monomial_order`, sorting the powers of a
monomial consistently with the ordering of the context. -/
def lp_monomial_order (p : List power_t) : List power_t :=
  p.foldr power_insert []

/-- Insert a monomial with ordered powers into a canonical monomial list:
equal power products are merged by summing the coefficients, and a monomial
whose coefficient becomes zero is discarded. -/
def coefficient_add_ordered_monomial (m : lp_monomial_t) : lp_polynomial_t → lp_polynomial_t
  | [] => if m.a = 0 then [] else [m]
  | h :: t =>
    match power_cmp m.p h.p with
    | Ordering.lt => if m.a = 0 then h :: t else m :: h :: t
    | Ordering.eq => if h.a + m.a = 0 then t else { a := h.a + m.a, p := h.p } :: t
    | Ordering.gt => h :: coefficient_add_ordered_monomial m t

/-- Modelled from the spec: `lp_polynomial_add_monomial`, which orders the
powers of the monomial and merges it into the polynomial. -/
def lp_polynomial_add_monomial (A : lp_polynomial_t) (m : lp_monomial_t) : lp_polynomial_t :=
  coefficient_add_ordered_monomial { a := m.a, p := lp_monomial_order m.p } A

/-- Modelled from the spec: `lp_polynomial_traverse`, the traversal primitive.
It visits every monomial exactly once, in canonical order, threading the
accumulator `d` through the visitor `f`. -/
def lp_polynomial_traverse {δ : Type} (A : lp_polynomial_t) (f : lp_monomial_t → δ → δ) (d : δ) : δ :=
  A.foldl (fun acc m => f m acc) d

/-- Modelled from the spec: `lp_polynomial_new`, the zero polynomial. -/
def lp_polynomial_new : lp_polynomial_t := []

/-- Modelled from the spec: `lp_polynomial_is_zero`; the zero polynomial has an
empty monomial set. -/
def lp_polynomial_is_zero (A : lp_polynomial_t) : Bool :=
  A.isEmpty

/-- Modelled from the spec: `lp_polynomial_eq`, exact equality of the canonical
monomial lists. -/
def lp_polynomial_eq (A B : lp_polynomial_t) : Bool :=
  decide (A = B)

/-- Modelled from the spec: `lp_polynomial_construct_simple` with the null
variable, as used by `poly_helper::construct_lp_poly`: the constant polynomial
`val` (the zero polynomial when `val` is zero). -/
def construct_lp_poly (val : Int) : lp_polynomial_t :=
  if val = 0 then [] else [{ a := val, p := [] }]

/-- Product of two monomials: coefficients multiply, the powers of the second
are merged into the first. -/
def lp_monomial_mul (m1 m2 : lp_monomial_t) : lp_monomial_t :=
  { a := m1.a * m2.a, p := m2.p.foldl (fun acc pw =>
      if acc.any (fun q => q.x == pw.x)
      then acc.map (fun q => if q.x = pw.x then { x := q.x, d := q.d + pw.d } else q)
      else power_insert pw acc) m1.p }

/-- Modelled from the spec: `lp_polynomial_mul`.  Every monomial of `A` is
multiplied with every monomial of `B` and the products are re-merged, so that
equal power products are summed and zero results discarded. -/
def lp_polynomial_mul (A B : lp_polynomial_t) : lp_polynomial_t :=
  A.foldl (fun acc m1 => B.foldl (fun acc2 m2 =>
    lp_polynomial_add_monomial acc2 (lp_monomial_mul m1 m2)) acc) []

/-- Modelled from the spec: `lp_polynomial_div` for the divisors this class
passes to it, the constant polynomials built by `construct_lp_poly`.  The
division must be exact: dividing by the zero polynomial, or a coefficient that
leaves a remainder, has no result.  Non-constant divisors are never passed and
are left without a result. -/
def lp_polynomial_div (A B : lp_polynomial_t) : Option lp_polynomial_t :=
  match B with
  | [{ a := g, p := [] }] =>
    if g ≠ 0 ∧ ∀ m ∈ A, m.a % g = 0
    then some (A.map (fun m => { a := m.a / g, p := m.p }))
    else none
  | _ => none

/-- Modelled from the spec: `lp_polynomial_lc_sgn`, the sign of the leading
coefficient, the coefficient of the highest monomial in canonical order. -/
def lp_polynomial_lc_sgn (A : lp_polynomial_t) : Int :=
  match A.getLast? with
  | none => 0
  | some m => Int.sign m.a

/-- Strictly decreasing variables and positive exponents: the powers of a
well-formed monomial. -/
def powers_ordered (p : List power_t) : Prop :=
  p.Pairwise (fun q r => r.x < q.x) ∧ ∀ q ∈ p, 0 < q.d

instance (p : List power_t) : Decidable (powers_ordered p) := by
  unfold powers_ordered; infer_instance

/-- Modelled from the spec: `lp_polynomial_check_order`, the order-validation
invariant of a canonical polynomial: monomials strictly increasing in the
canonical order (so no power product occurs twice), no zero coefficient, and
every monomial well-formed. -/
def lp_polynomial_check_order (A : lp_polynomial_t) : Prop :=
  A.Pairwise (fun m n => power_cmp m.p n.p = Ordering.lt)
    ∧ ∀ m ∈ A, m.a ≠ 0 ∧ powers_ordered m.p

instance (A : lp_polynomial_t) : Decidable (lp_polynomial_check_order A) := by
  unfold lp_polynomial_check_order; infer_instance

/-! ## LPPolynomial -/

namespace LPPolynomial

/-- The constructor `LPPolynomial(const LPContext&)`: the zero polynomial. -/
def zero (context : LPContext) : LPPolynomial :=
  { m_internal := lp_polynomial_new, m_context := context }

/-- The constructor `LPPolynomial(const LPContext&, const mpz_class&)`. -/
def of_mpz (context : LPContext) (val : Int) : LPPolynomial :=
  { m_internal := construct_lp_poly val, m_context := context }

/-- The accessor `get_internal`. -/
def get_internal (p : LPPolynomial) : lp_polynomial_t := p.m_internal

/-- The accessor `context`. -/
def context (p : LPPolynomial) : LPContext := p.m_context

/-- The class invariant asserted by every constructor: the handle is in
canonical order and mentions only variables of the context. -/
def well_formed (p : LPPolynomial) : Prop :=
  lp_polynomial_check_order p.m_internal
    ∧ ∀ m ∈ p.m_internal, ∀ q ∈ m.p, q.x < p.m_context.variable_ordering.length

instance (p : LPPolynomial) : Decidable (well_formed p) := by
  unfold well_formed; infer_instance

end LPPolynomial

/-- The function `is_zero(const LPPolynomial&)`. -/
def is_zero (p : LPPolynomial) : Bool :=
  lp_polynomial_is_zero p.get_internal

/-- The operator `operator==(const LPPolynomial&, const LPPolynomial&)`. -/
def LPPolynomial.eq (lhs rhs : LPPolynomial) : Bool :=
  lp_polynomial_eq lhs.get_internal rhs.get_internal

/-- The operator `operator*(const LPPolynomial&, const LPPolynomial&)`;
`none` is the failed assertion that both contexts agree. -/
def LPPolynomial.mul (lhs rhs : LPPolynomial) : Option LPPolynomial :=
  if lhs.context = rhs.context then
    some { m_internal := lp_polynomial_mul lhs.get_internal rhs.get_internal,
           m_context := lhs.context }
  else none

/-- The operator `operator*(const LPPolynomial&, const mpz_class&)`. -/
def LPPolynomial.mul_mpz (lhs : LPPolynomial) (rhs : Int) : Option LPPolynomial :=
  lhs.mul (LPPolynomial.of_mpz lhs.context rhs)

/-- The operator `operator*(const mpz_class&, const LPPolynomial&)`. -/
def LPPolynomial.mpz_mul (lhs : Int) (rhs : LPPolynomial) : Option LPPolynomial :=
  rhs.mul_mpz lhs

/-- The greatest common divisor of two integers, never negative. -/
def mpz_gcd (a b : Int) : Int := (Int.gcd a b : Int)

namespace LPPolynomial

/-- The visitor `getCoeffs` of `coprime_factor`: push the coefficient. -/
def getCoeffs (m : lp_monomial_t) (v : List Int) : List Int :=
  v ++ [m.a]

/-- The method `coprime_factor`. -/
def coprime_factor (p : LPPolynomial) : Int :=
  match lp_polynomial_traverse p.get_internal getCoeffs [] with
  | [] => 0
  | c :: rest => rest.foldl (fun res ci => mpz_gcd res ci) c

/-- The method `coprime_coefficients`; `none` when the division has no result. -/
def coprime_coefficients (p : LPPolynomial) : Option LPPolynomial :=
  let g := p.coprime_factor
  if g = 1 then some p
  else
    match lp_polynomial_div p.get_internal (construct_lp_poly g) with
    | none => none
    | some res => some { m_internal := res, m_context := p.context }

/-- The method `unit_part`. -/
def unit_part (p : LPPolynomial) : Int :=
  if is_zero p then 1 else lp_polynomial_lc_sgn p.get_internal

/-- The method `normalized`; the assertion `!is_zero(unit)` fails with `none`. -/
def normalized (p : LPPolynomial) : Option LPPolynomial :=
  match p.coprime_coefficients with
  | none => none
  | some res =>
    let unit := res.unit_part
    if unit = 0 then none else res.mul_mpz unit

/-- The method `is_normal`. -/
def is_normal (p : LPPolynomial) : Bool :=
  decide (p.unit_part = 1)

/-- The loop of `getCoeff` looking for the power `var^exp`. -/
def found (var exp : Nat) (m : lp_monomial_t) : Bool :=
  m.p.any (fun q => q.x == var && q.d == exp)

/-- The visitor `getCoeff` of `coeff`: a monomial containing `var^exp` is
copied without that power and pushed; the assertion that exactly one power was
left out fails with `none`. -/
def getCoeff (var exp : Nat) (m : lp_monomial_t) (v : Option (List lp_monomial_t)) :
    Option (List lp_monomial_t) :=
  match v with
  | none => none
  | some coeff =>
    if found var exp m then
      let new_p := m.p.filter (fun q => !(q.x == var && q.d == exp))
      if new_p.length = m.p.length - 1 then some (coeff ++ [{ a := m.a, p := new_p }])
      else none
    else some coeff

/-- The method `coeff(Variable::Arg, std::size_t)`. -/
def coeff (p : LPPolynomial) (var : Variable) (exp : Nat) : Option LPPolynomial :=
  match p.context.lp_variable var with
  | none => none
  | some x =>
    match lp_polynomial_traverse p.get_internal (getCoeff x exp) (some []) with
    | none => none
    | some travers =>
      some { m_internal := travers.foldl lp_polynomial_add_monomial lp_polynomial_new,
             m_context := p.context }

end LPPolynomial

end carl

namespace carl

/-! ## Auxiliary notions used in the statements -/

/-- The coefficients of the monomials, in traversal order. -/
def coefficients (A : lp_polynomial_t) : List Int :=
  A.map (fun m => m.a)

/-- The non-negative greatest common divisor of a list of integers
(0 for the empty list). -/
def content (l : List Int) : Nat :=
  l.foldr (fun c g => Int.gcd c g) 0

/-- The polynomial with every coefficient replaced by its image under `f`. -/
def map_coefficients (f : Int → Int) (A : lp_polynomial_t) : lp_polynomial_t :=
  A.map (fun m => { a := f m.a, p := m.p })

end carl

namespace carl

/-- The leading coefficient: the coefficient of the last, that is highest,
monomial in canonical order (0 for the zero polynomial). -/
def leading_coefficient (A : lp_polynomial_t) : Int :=
  match A.getLast? with
  | none => 0
  | some m => m.a

end carl

namespace carl

/-! ## Sample polynomials -/

/-- The context with two variables, `x` (variable 0) below `y` (variable 1). -/
def context_xy : LPContext :=
  { variable_ordering := [0, 1] }

/-- The polynomial `x + 5` over `context_xy`. -/
def poly_x_plus_5 : LPPolynomial :=
  { m_internal := [{ a := 5, p := [] }, { a := 1, p := [{ x := 0, d := 1 }] }],
    m_context := context_xy }

/-- The polynomial `-6 - 3x` over `context_xy`. -/
def poly_neg_3x_minus_6 : LPPolynomial :=
  { m_internal := [{ a := -6, p := [] }, { a := -3, p := [{ x := 0, d := 1 }] }],
    m_context := context_xy }

/-- The polynomial `4x^2 - 6xy + 10y^2` over `context_xy`. -/
def poly_quadratic : LPPolynomial :=
  { m_internal := [{ a := 4, p := [{ x := 0, d := 2 }] },
                   { a := -6, p := [{ x := 1, d := 1 }, { x := 0, d := 1 }] },
                   { a := 10, p := [{ x := 1, d := 2 }] }],
    m_context := context_xy }

end carl

namespace carl

/-! ## Further libpoly primitives: addition, subtraction, variables -/

/-- Modelled from the spec: `lp_polynomial_add`.  The monomials of `B` are
merged into `A`; equal power products are summed and results that become zero
are discarded. -/
def lp_polynomial_add (A B : lp_polynomial_t) : lp_polynomial_t :=
  B.foldl lp_polynomial_add_monomial A

/-- Modelled from the spec: `lp_polynomial_sub`, the merge of the negated
monomials of `B` into `A`. -/
def lp_polynomial_sub (A B : lp_polynomial_t) : lp_polynomial_t :=
  B.foldl (fun acc m => lp_polynomial_add_monomial acc { a := -m.a, p := m.p }) A

/-- Modelled from the spec: `lp_polynomial_is_constant`, no monomial carries a
variable. -/
def lp_polynomial_is_constant (A : lp_polynomial_t) : Bool :=
  A.all (fun m => m.p.isEmpty)

/-- Modelled from the spec: `lp_polynomial_get_variables`, the internal
variables occurring in some monomial. -/
def lp_polynomial_get_variables (A : lp_polynomial_t) : List Nat :=
  A.foldr (fun m acc => m.p.map (fun q => q.x) ++ acc) []

/-- Modelled from the spec: `lp_variable_list_contains`. -/
def lp_variable_list_contains (l : List Nat) (x : Nat) : Bool :=
  l.contains x

/-! ## LPPolynomial: queries and arithmetic -/

/-- The function `is_constant(const LPPolynomial&)`. -/
def is_constant (p : LPPolynomial) : Bool :=
  lp_polynomial_is_constant p.get_internal

/-- The function `is_number(const LPPolynomial&)`. -/
def is_number (p : LPPolynomial) : Bool :=
  is_constant p

namespace LPPolynomial

/-- The inner loop of the `getDegree` visitors of `total_degree` and
`monomial_total_degrees`: the exponents of the monomial added up.  Exponents
are natural numbers: libpoly keeps one coefficient per degree, so the sum of
the exponents of a stored monomial stays far below the range of `size_t`. -/
def current_total_degree (m : lp_monomial_t) : Nat :=
  m.p.foldl (fun current_degree q => current_degree + q.d) 0

/-- The inner loop of the `getDegree` visitors of `degree` and
`monomial_degrees`: the exponent of the first power of `var`, else 0. -/
def current_degree_of (var : Nat) : List power_t → Nat
  | [] => 0
  | q :: qs => if q.x = var then q.d else current_degree_of var qs

/-- The method `total_degree`. -/
def total_degree (p : LPPolynomial) : Nat :=
  lp_polynomial_traverse p.get_internal
    (fun m degree => max degree (current_total_degree m)) 0

/-- The method `degree(Variable::Arg)`; `none` when the variable is not in the
context. -/
def degree (p : LPPolynomial) (var : Variable) : Option Nat :=
  match p.context.lp_variable var with
  | none => none
  | some x =>
    some (lp_polynomial_traverse p.get_internal
      (fun m degree => max degree (current_degree_of x m.p)) 0)

/-- The method `monomial_total_degrees`. -/
def monomial_total_degrees (p : LPPolynomial) : List Nat :=
  lp_polynomial_traverse p.get_internal
    (fun m degree => degree ++ [current_total_degree m]) []

/-- The method `monomial_degrees(Variable::Arg)`; `none` when the variable is
not in the context. -/
def monomial_degrees (p : LPPolynomial) (var : Variable) : Option (List Nat) :=
  match p.context.lp_variable var with
  | none => none
  | some x =>
    some (lp_polynomial_traverse p.get_internal
      (fun m degree => degree ++ [current_degree_of x m.p]) [])

/-- The method `degree_all_variables`. -/
def degree_all_variables (p : LPPolynomial) : Nat :=
  lp_polynomial_traverse p.get_internal
    (fun m degree => m.p.foldl (fun deg q => if deg < q.d then q.d else deg) degree) 0

/-- The method `constant_part`. -/
def constant_part (p : LPPolynomial) : Int :=
  lp_polynomial_traverse p.get_internal
    (fun m part => if m.p.length = 0 then part + m.a else part) 0

/-- The method `has`. -/
def has (p : LPPolynomial) (var : Variable) : Bool :=
  let varList := lp_polynomial_get_variables p.get_internal
  match p.context.lp_variable_opt var with
  | none => false
  | some lp_variable => lp_variable_list_contains varList lp_variable

/-- The operator `operator==(const LPPolynomial&, const mpz_class&)`. -/
def eq_mpz (lhs : LPPolynomial) (rhs : Int) : Bool :=
  if !is_number lhs then false else decide (lhs.constant_part = rhs)

/-- The operator `operator==(const mpz_class&, const LPPolynomial&)`. -/
def mpz_eq (lhs : Int) (rhs : LPPolynomial) : Bool :=
  rhs.eq_mpz lhs

/-- The operator `operator+(const LPPolynomial&, const LPPolynomial&)`;
`none` is the failed assertion that both contexts agree. -/
def add (lhs rhs : LPPolynomial) : Option LPPolynomial :=
  if rhs.context = lhs.context then
    some { m_internal := lp_polynomial_add lhs.get_internal rhs.get_internal,
           m_context := lhs.context }
  else none

/-- The operator `operator+(const LPPolynomial&, const mpz_class&)`. -/
def add_mpz (lhs : LPPolynomial) (rhs : Int) : Option LPPolynomial :=
  lhs.add (of_mpz lhs.context rhs)

/-- The operator `operator+(const mpz_class&, const LPPolynomial&)`. -/
def mpz_add (lhs : Int) (rhs : LPPolynomial) : Option LPPolynomial :=
  rhs.add_mpz lhs

/-- The operator `operator-(const LPPolynomial&, const LPPolynomial&)`;
`none` is the failed assertion that both contexts agree. -/
def sub (lhs rhs : LPPolynomial) : Option LPPolynomial :=
  if rhs.context = lhs.context then
    some { m_internal := lp_polynomial_sub lhs.get_internal rhs.get_internal,
           m_context := lhs.context }
  else none

/-- The operator `operator-(const LPPolynomial&, const mpz_class&)`. -/
def sub_mpz (lhs : LPPolynomial) (rhs : Int) : Option LPPolynomial :=
  lhs.sub (of_mpz lhs.context rhs)

/-- The operator `operator-(const mpz_class&, const LPPolynomial&)`. -/
def mpz_sub (lhs : Int) (rhs : LPPolynomial) : Option LPPolynomial :=
  (of_mpz rhs.context lhs).sub rhs

/-- The operator `operator+=(LPPolynomial&, const LPPolynomial&)`: the new
value of `lhs`; `none` is the failed assertion that both contexts agree. -/
def add_assign (lhs rhs : LPPolynomial) : Option LPPolynomial :=
  if rhs.context = lhs.context then
    some { m_internal := lp_polynomial_add lhs.get_internal rhs.get_internal,
           m_context := lhs.m_context }
  else none

/-- The operator `operator+=(LPPolynomial&, const mpz_class&)`: the new value
of `lhs`. -/
def add_assign_mpz (lhs : LPPolynomial) (rhs : Int) : LPPolynomial :=
  { m_internal := lp_polynomial_add lhs.get_internal (construct_lp_poly rhs),
    m_context := lhs.m_context }

/-- The operator `operator-=(LPPolynomial&, const LPPolynomial&)`: the new
value of `lhs`; `none` is the failed assertion that both contexts agree. -/
def sub_assign (lhs rhs : LPPolynomial) : Option LPPolynomial :=
  if rhs.context = lhs.context then
    some { m_internal := lp_polynomial_sub lhs.get_internal rhs.get_internal,
           m_context := lhs.m_context }
  else none

/-- The operator `operator-=(LPPolynomial&, const mpz_class&)`: the new value
of `lhs`. -/
def sub_assign_mpz (lhs : LPPolynomial) (rhs : Int) : LPPolynomial :=
  { m_internal := lp_polynomial_sub lhs.get_internal (construct_lp_poly rhs),
    m_context := lhs.m_context }

/-- The operator `operator*=(LPPolynomial&, const LPPolynomial&)`: the new
value of `lhs`; `none` is the failed assertion that both contexts agree. -/
def mul_assign (lhs rhs : LPPolynomial) : Option LPPolynomial :=
  if rhs.context = lhs.context then
    some { m_internal := lp_polynomial_mul lhs.get_internal rhs.get_internal,
           m_context := lhs.m_context }
  else none

/-- The operator `operator*=(LPPolynomial&, const mpz_class&)`: the new value
of `lhs`. -/
def mul_assign_mpz (lhs : LPPolynomial) (rhs : Int) : LPPolynomial :=
  { m_internal := lp_polynomial_mul lhs.get_internal (construct_lp_poly rhs),
    m_context := lhs.m_context }

end LPPolynomial

/-! ## Auxiliary notions for the arithmetic statements -/

/-- The coefficient a monomial list gives to the power product `k`: the sum of
the coefficients of the monomials whose powers are `k`. -/
def coeff_at (A : lp_polynomial_t) (k : List power_t) : Int :=
  (A.map (fun m => if m.p = k then m.a else 0)).sum

/-- The exponent a power list gives to the variable `x`: the sum of the
exponents of the powers of `x`. -/
def exponent_of (x : Nat) (p : List power_t) : Nat :=
  (p.map (fun q => if q.x = x then q.d else 0)).sum

/-- The polynomial `3 + 2y - x*y` over `context_xy`. -/
def poly_mixed : LPPolynomial :=
  { m_internal := [{ a := 3, p := [] },
                   { a := 2, p := [{ x := 1, d := 1 }] },
                   { a := -1, p := [{ x := 1, d := 1 }, { x := 0, d := 1 }] }],
    m_context := context_xy }

end carl

namespace carl

/-- One step of `lp_monomial_mul`: the power `pw` merged into the powers `acc`. -/
def merge_power (acc : List power_t) (pw : power_t) : List power_t :=
  if acc.any (fun q => q.x == pw.x)
  then acc.map (fun q => if q.x = pw.x then { x := q.x, d := q.d + pw.d } else q)
  else power_insert pw acc

/-- All products of a monomial of `A` with a monomial of `B`, in the order in
which `lp_polynomial_mul` merges them. -/
def monomial_products (A B : lp_polynomial_t) : lp_polynomial_t :=
  A.flatMap (fun m1 => B.map (fun m2 => lp_monomial_mul m1 m2))

end carl

namespace carl

/-! ## Comparison of polynomials -/

/-- Lexicographic comparison of two lists by the comparison `c` of their
elements; a proper initial segment is smaller. -/
def lex_cmp {α : Type} (c : α → α → Ordering) : List α → List α → Ordering
  | [], [] => Ordering.eq
  | [], _ :: _ => Ordering.lt
  | _ :: _, [] => Ordering.gt
  | a :: as, b :: bs =>
    match c a b with
    | Ordering.lt => Ordering.lt
    | Ordering.gt => Ordering.gt
    | Ordering.eq => lex_cmp c as bs

/-- Comparison of two monomials: first the power products in the canonical
order, then the coefficients. -/
def monomial_cmp (m n : lp_monomial_t) : Ordering :=
  match power_cmp m.p n.p with
  | Ordering.lt => Ordering.lt
  | Ordering.gt => Ordering.gt
  | Ordering.eq =>
    if m.a < n.a then Ordering.lt
    else if n.a < m.a then Ordering.gt
    else Ordering.eq

/-- Modelled from the spec: `lp_polynomial_cmp`, a total order over canonical
forms: the monomials are compared from the highest to the lowest in canonical
order, lexicographically.  The result is negative, zero or positive. -/
def lp_polynomial_cmp (A B : lp_polynomial_t) : Int :=
  match lex_cmp monomial_cmp A.reverse B.reverse with
  | Ordering.lt => -1
  | Ordering.eq => 0
  | Ordering.gt => 1

/-- The helper `cmp_util`: compare with the constant polynomial `rhs`. -/
def cmp_util (lhs : LPPolynomial) (rhs : Int) : Int :=
  lp_polynomial_cmp lhs.get_internal (construct_lp_poly rhs)

namespace LPPolynomial

/-- The operator `operator<(const LPPolynomial&, const LPPolynomial&)`. -/
def lt (lhs rhs : LPPolynomial) : Bool :=
  decide (lp_polynomial_cmp lhs.get_internal rhs.get_internal < 0)

/-- The operator `operator<(const LPPolynomial&, const mpz_class&)`. -/
def lt_mpz (lhs : LPPolynomial) (rhs : Int) : Bool :=
  decide (cmp_util lhs rhs < 0)

/-- The operator `operator<(const mpz_class&, const LPPolynomial&)`. -/
def mpz_lt (lhs : Int) (rhs : LPPolynomial) : Bool :=
  decide (cmp_util rhs lhs > 0)

/-- The operator `operator<=(const LPPolynomial&, const LPPolynomial&)`. -/
def le (lhs rhs : LPPolynomial) : Bool :=
  decide (lp_polynomial_cmp lhs.get_internal rhs.get_internal ≤ 0)

/-- The operator `operator<=(const LPPolynomial&, const mpz_class&)`. -/
def le_mpz (lhs : LPPolynomial) (rhs : Int) : Bool :=
  decide (cmp_util lhs rhs ≤ 0)

/-- The operator `operator<=(const mpz_class&, const LPPolynomial&)`. -/
def mpz_le (lhs : Int) (rhs : LPPolynomial) : Bool :=
  decide (cmp_util rhs lhs ≥ 0)

/-- The operator `operator>(const LPPolynomial&, const LPPolynomial&)`. -/
def gt (lhs rhs : LPPolynomial) : Bool :=
  decide (lp_polynomial_cmp lhs.get_internal rhs.get_internal > 0)

/-- The operator `operator>(const LPPolynomial&, const mpz_class&)`. -/
def gt_mpz (lhs : LPPolynomial) (rhs : Int) : Bool :=
  decide (cmp_util lhs rhs > 0)

/-- The operator `operator>(const mpz_class&, const LPPolynomial&)`. -/
def mpz_gt (lhs : Int) (rhs : LPPolynomial) : Bool :=
  decide (cmp_util rhs lhs < 0)

/-- The operator `operator>=(const LPPolynomial&, const LPPolynomial&)`. -/
def ge (lhs rhs : LPPolynomial) : Bool :=
  decide (lp_polynomial_cmp lhs.get_internal rhs.get_internal ≥ 0)

/-- The operator `operator>=(const LPPolynomial&, const mpz_class&)`. -/
def ge_mpz (lhs : LPPolynomial) (rhs : Int) : Bool :=
  decide (cmp_util lhs rhs ≥ 0)

/-- The operator `operator>=(const mpz_class&, const LPPolynomial&)`. -/
def mpz_ge (lhs : Int) (rhs : LPPolynomial) : Bool :=
  decide (cmp_util rhs lhs ≤ 0)

end LPPolynomial

/-- The two operands of an in-place operator: `lhs` is taken by reference and
written, `rhs` by const reference. -/
structure Operands where
  lhs : LPPolynomial
  rhs : LPPolynomial

/-- The effect of `lhs += rhs` on both operands. -/
def Operands.add_assign (s : Operands) : Option Operands :=
  (s.lhs.add_assign s.rhs).map (fun r => { lhs := r, rhs := s.rhs })

/-- The effect of `lhs -= rhs` on both operands. -/
def Operands.sub_assign (s : Operands) : Option Operands :=
  (s.lhs.sub_assign s.rhs).map (fun r => { lhs := r, rhs := s.rhs })

/-- The effect of `lhs *= rhs` on both operands. -/
def Operands.mul_assign (s : Operands) : Option Operands :=
  (s.lhs.mul_assign s.rhs).map (fun r => { lhs := r, rhs := s.rhs })

/-! ## Contexts and the change of context -/

/-- The variable at a position of an ordering, if the position exists. -/
def variable_at : List Variable → Nat → Option Variable
  | [], _ => none
  | v :: _, 0 => some v
  | _ :: vs, n + 1 => variable_at vs n

/-- Modelled from the spec: `LPContext::carl_variable`, the reverse mapping
from an internal index to the variable. -/
def LPContext.carl_variable (c : LPContext) (x : Nat) : Option Variable :=
  variable_at c.variable_ordering x

/-- Modelled from the spec: `LPContext::has`, whether the variable is tracked. -/
def LPContext.has (c : LPContext) (v : Variable) : Bool :=
  (c.lp_variable_opt v).isSome

/-- Modelled from the spec: `is_extension_of(other)`, true iff the ordering of
`other` is order-embeddable into this one: every variable of `other` appears
here, in the same relative order. -/
def LPContext.is_extension_of (c other : LPContext) : Bool :=
  other.variable_ordering.isSublist c.variable_ordering

/-- A context is a total order over a set of variables: no variable twice. -/
def LPContext.valid (c : LPContext) : Prop :=
  c.variable_ordering.Nodup

instance (c : LPContext) : Decidable c.valid := by
  unfold LPContext.valid; infer_instance

/-- The function `variables(const LPPolynomial&, carlVariables&)` with the
visitor `collectVars`: the variables of all powers, looked up in the context;
`none` is the failed assertion that a variable has a value. -/
def variables_of (p : LPPolynomial) : Option (List Variable) :=
  lp_polynomial_traverse p.get_internal
    (fun m d => m.p.foldl
      (fun vars q =>
        match vars, p.context.carl_variable q.x with
        | some l, some v => some (l ++ [v])
        | _, _ => none) d)
    (some [])

/-- The internal index a power gets in the context `new`, given its index in
the context `old`.  Indices that have no variable in `new` are kept; the
method asserts there are none before it changes the context. -/
def relabel_index (old new : LPContext) (x : Nat) : Nat :=
  match old.carl_variable x with
  | none => x
  | some v =>
    match new.lp_variable_opt v with
    | none => x
    | some y => y

/-- Modelled from the spec: `lp_polynomial_set_context`, the pure relabeling of
the polynomial to the new context; the monomials and their powers stay where
they are. -/
def lp_polynomial_set_context (A : lp_polynomial_t) (old new : LPContext) : lp_polynomial_t :=
  A.map (fun m =>
    { a := m.a, p := m.p.map (fun q => { x := relabel_index old new q.x, d := q.d }) })

/-- Modelled from the spec: `lp_polynomial_ensure_order`, the full
re-canonicalization pass: the powers of every monomial and the monomials are
put in the order of the current context. -/
def lp_polynomial_ensure_order (A : lp_polynomial_t) : lp_polynomial_t :=
  A.foldl lp_polynomial_add_monomial lp_polynomial_new

/-- The method `set_context`: the new value of the polynomial; `none` is a
failed assertion (an unknown variable, or the final order validation). -/
def LPPolynomial.set_context (p : LPPolynomial) (c : LPContext) : Option LPPolynomial :=
  match variables_of p with
  | none => none
  | some vars =>
    if vars.all (fun v => c.has v) then
      if p.context = c then some p
      else
        let reorder := !(c.is_extension_of p.context || p.context.is_extension_of c)
        let relabeled := lp_polynomial_set_context p.get_internal p.context c
        let internal := if reorder then lp_polynomial_ensure_order relabeled else relabeled
        if lp_polynomial_check_order internal then
          some { m_internal := internal, m_context := c }
        else none
    else none

/-- The exponent of the variable `v` in the monomial `m` of a polynomial over
the context `c` (0 when the variable is not in the context). -/
def external_exponent (c : LPContext) (m : lp_monomial_t) (v : Variable) : Nat :=
  match c.lp_variable_opt v with
  | none => 0
  | some x => exponent_of x m.p

/-- The monomials of a polynomial as seen from outside: the coefficient and,
for every variable, its exponent. -/
def external_monomials (p : LPPolynomial) : List (Int × (Variable → Nat)) :=
  p.m_internal.map (fun m => (m.a, external_exponent p.m_context m))

/-! ## Construction from coefficient lists -/

/-- The number of values of `unsigned int` (32 bits). -/
def unsigned_int_range : Nat := 2 ^ 32

/-- The cast `(unsigned int)pow` of a `size_t`. -/
def to_unsigned_int (pow : Nat) : Nat :=
  pow % unsigned_int_range

/-- The loop of the dense constructors.  After `pow--` the power of the
current coefficient is the number of coefficients still to come; a zero
coefficient is skipped, the power 0 gives a monomial without powers. -/
def dense_loop (var : Nat) : List Int → lp_polynomial_t → lp_polynomial_t
  | [], internal => internal
  | coeff :: rest, internal =>
    if coeff = 0 then dense_loop var rest internal
    else
      dense_loop var rest
        (lp_polynomial_add_monomial internal
          { a := coeff,
            p := if rest.length > 0 then [{ x := var, d := to_unsigned_int rest.length }]
                 else [] })

/-- The loop of the sparse constructor over the entries of the map, in
increasing order of the keys. -/
def sparse_loop (var : Nat) : List (Nat × Int) → lp_polynomial_t → lp_polynomial_t
  | [], internal => internal
  | coeff :: rest, internal =>
    if coeff.2 = 0 then sparse_loop var rest internal
    else
      sparse_loop var rest
        (lp_polynomial_add_monomial internal
          { a := coeff.2,
            p := if coeff.1 > 0 then [{ x := var, d := to_unsigned_int coeff.1 }] else [] })

namespace LPPolynomial

/-- The constructor from a context, a main variable and an
`std::initializer_list<mpz_class>` of coefficients; `none` when the variable
is not in the context. -/
def mk_initializer_list (context : LPContext) (mainVar : Variable) (coefficients : List Int) :
    Option LPPolynomial :=
  match context.lp_variable mainVar with
  | none => none
  | some var => some { m_internal := dense_loop var coefficients lp_polynomial_new,
                       m_context := context }

/-- The constructor from a context, a main variable and a
`const std::vector<mpz_class>&` of coefficients. -/
def mk_vector (context : LPContext) (mainVar : Variable) (coefficients : List Int) :
    Option LPPolynomial :=
  match context.lp_variable mainVar with
  | none => none
  | some var => some { m_internal := dense_loop var coefficients lp_polynomial_new,
                       m_context := context }

/-- The constructor from a context, a main variable and a moved
`std::vector<mpz_class>&&` of coefficients. -/
def mk_vector_moved (context : LPContext) (mainVar : Variable) (coefficients : List Int) :
    Option LPPolynomial :=
  match context.lp_variable mainVar with
  | none => none
  | some var => some { m_internal := dense_loop var coefficients lp_polynomial_new,
                       m_context := context }

/-- The constructor from a context, a main variable and a
`std::map<unsigned int, mpz_class>`, given as its entries in increasing order
of the keys. -/
def mk_map (context : LPContext) (mainVar : Variable) (coefficients : List (Nat × Int)) :
    Option LPPolynomial :=
  match context.lp_variable mainVar with
  | none => none
  | some var => some { m_internal := sparse_loop var coefficients lp_polynomial_new,
                       m_context := context }

end LPPolynomial

/-- An `std::map<unsigned int, mpz_class>`: strictly increasing keys, each in
the range of `unsigned int`. -/
def map_entries_valid (coefficients : List (Nat × Int)) : Prop :=
  coefficients.Pairwise (fun e f => e.1 < f.1) ∧ ∀ e ∈ coefficients, e.1 < unsigned_int_range

instance (coefficients : List (Nat × Int)) : Decidable (map_entries_valid coefficients) := by
  unfold map_entries_valid; infer_instance

/-- The power product `x^k` (no power when `k` is 0). -/
def variable_power (x k : Nat) : List power_t :=
  if k = 0 then [] else [{ x := x, d := k }]

/-- The monomials of the sum of `c_k * x^k` for a coefficient list given
highest power first, lowest power first in the result, zero coefficients left
out. -/
def dense_terms (x : Nat) : List Int → lp_polynomial_t
  | [] => []
  | c :: rest =>
    dense_terms x rest ++ (if c = 0 then [] else [{ a := c, p := variable_power x rest.length }])

/-- The map sending the exponent `n - 1 - i` to `cs[i]`, as entries in
increasing order of the exponent. -/
def dense_entries : List Int → List (Nat × Int)
  | [] => []
  | c :: rest => dense_entries rest ++ [(rest.length, c)]

/-! ## The main variable: degree, leading coefficient, truncate -/

/-- Modelled from the spec: `lp_polynomial_top_variable`, the highest variable
of the polynomial, which is the first power of its highest monomial. -/
def lp_polynomial_top_variable (A : lp_polynomial_t) : Option Nat :=
  match A.getLast? with
  | none => none
  | some m =>
    match m.p with
    | [] => none
    | q :: _ => some q.x

/-- Modelled from the spec: `lp_polynomial_degree`, the degree in the top
variable (0 for a constant). -/
def lp_polynomial_degree (A : lp_polynomial_t) : Nat :=
  match A.getLast? with
  | none => 0
  | some m =>
    match m.p with
    | [] => 0
    | q :: _ => q.d

/-- Modelled from the spec: `lp_polynomial_get_coefficient`, the coefficient of
the `k`-th power of the top variable: the monomials in which the top variable
has the exponent `k`, without that power. -/
def lp_polynomial_get_coefficient (A : lp_polynomial_t) (k : Nat) : lp_polynomial_t :=
  match lp_polynomial_top_variable A with
  | none => if k = 0 then A else []
  | some x =>
    (A.filter (fun m => LPPolynomial.current_degree_of x m.p == k)).map
      (fun m => { a := m.a, p := m.p.filter (fun q => !(q.x == x)) })

namespace LPPolynomial

/-- The method `coeff(std::size_t k)`. -/
def coeff_top (p : LPPolynomial) (k : Nat) : LPPolynomial :=
  { m_internal := lp_polynomial_get_coefficient p.get_internal k, m_context := p.m_context }

/-- The method `degree()`, the degree in the main variable. -/
def degree_top (p : LPPolynomial) : Nat :=
  lp_polynomial_degree p.get_internal

/-- The method `lcoeff`. -/
def lcoeff (p : LPPolynomial) : LPPolynomial :=
  p.coeff_top p.degree_top

/-- The method `truncate`: the new value of the polynomial. -/
def truncate (p : LPPolynomial) : LPPolynomial :=
  { m_internal := lp_polynomial_sub p.get_internal
      (lp_polynomial_get_coefficient p.get_internal (lp_polynomial_degree p.get_internal)),
    m_context := p.m_context }

end LPPolynomial

/-! ## Further sample polynomials -/

/-- The context with `y` (variable 1) below `x` (variable 0): `x` is the main
variable. -/
def context_yx : LPContext :=
  { variable_ordering := [1, 0] }

/-- The polynomial `6x^2y - 9xy^2` over `context_xy`, where `y` is the main
variable. -/
def poly_example_xy : LPPolynomial :=
  { m_internal := [{ a := 6, p := [{ x := 1, d := 1 }, { x := 0, d := 2 }] },
                   { a := -9, p := [{ x := 1, d := 2 }, { x := 0, d := 1 }] }],
    m_context := context_xy }

/-- The polynomial `6x^2y - 9xy^2` over `context_yx`, where `x` is the main
variable. -/
def poly_example_yx : LPPolynomial :=
  { m_internal := [{ a := -9, p := [{ x := 1, d := 1 }, { x := 0, d := 2 }] },
                   { a := 6, p := [{ x := 1, d := 2 }, { x := 0, d := 1 }] }],
    m_context := context_yx }

/-- The polynomial `x^2 + 3` over `context_xy`. -/
def poly_x2_plus_3 : LPPolynomial :=
  { m_internal := [{ a := 3, p := [] }, { a := 1, p := [{ x := 0, d := 2 }] }],
    m_context := context_xy }

/-- The polynomial `2x` over `context_xy`. -/
def poly_2x : LPPolynomial :=
  { m_internal := [{ a := 2, p := [{ x := 0, d := 1 }] }], m_context := context_xy }

/-- The polynomial `-x` over `context_xy`. -/
def poly_neg_x : LPPolynomial :=
  { m_internal := [{ a := -1, p := [{ x := 0, d := 1 }] }], m_context := context_xy }

end carl

namespace carl

/-- The polynomial `6x^2y - 9xy^2` over a context in which `x` has the internal
index `i` and `y` the lower index `j`, so that `x` is the main variable. -/
def poly_example (c : LPContext) (i j : Nat) : LPPolynomial :=
  { m_internal := [{ a := -9, p := [{ x := i, d := 1 }, { x := j, d := 2 }] },
                   { a := 6, p := [{ x := i, d := 2 }, { x := j, d := 1 }] }],
    m_context := c }

/-- The polynomial `2x^2y - 3xy^2` over the same context. -/
def poly_example_coprime (c : LPContext) (i j : Nat) : LPPolynomial :=
  { m_internal := [{ a := -3, p := [{ x := i, d := 1 }, { x := j, d := 2 }] },
                   { a := 2, p := [{ x := i, d := 2 }, { x := j, d := 1 }] }],
    m_context := c }

end carl

namespace carl

/-- The coefficient `c_k` of the power `k` in a coefficient list given highest
power first (0 beyond the list). -/
def coefficient_of_power (cs : List Int) (k : Nat) : Int :=
  if k < cs.length then cs.getD (cs.length - 1 - k) 0 else 0

/-- The monomial the sparse constructor builds for an entry of the map. -/
def sparse_monomial (var : Nat) (coeff : Nat × Int) : lp_monomial_t :=
  { a := coeff.2,
    p := if coeff.1 > 0 then [{ x := var, d := to_unsigned_int coeff.1 }] else [] }

end carl

namespace carl

/-- Whether the index `x` of the context `old` stands for a variable that the
context `new` knows. -/
def index_known (old new : LPContext) (x : Nat) : Bool :=
  match old.carl_variable x with
  | none => false
  | some v => new.has v

/-- The monomial with its powers put in the order of the context, as
`lp_polynomial_add_monomial` does before it merges it. -/
def ordered_monomial (m : lp_monomial_t) : lp_monomial_t :=
  { a := m.a, p := lp_monomial_order m.p }

end carl

namespace carl

/-- The powers of a monomial with the variable indices mapped by `f`. -/
def map_indices (f : Nat → Nat) (p : List power_t) : List power_t :=
  p.map (fun q => { x := f q.x, d := q.d })

end carl

namespace carl

/-! ## Construction from a rational -/

/-- Modelled from the spec: `carl::get_num` on `mpq_class`, the numerator of
the rational (rationals are kept in lowest terms with a positive
denominator). -/
def get_num (val : Rat) : Int := val.num

/-- The constructor `LPPolynomial(const LPContext&, const mpq_class&)`, which
delegates to the constructor from `mpz_class` with the numerator. -/
def LPPolynomial.of_mpq (context : LPContext) (val : Rat) : LPPolynomial :=
  LPPolynomial.of_mpz context (get_num val)

end carl

/-! ## The CLN adaption: integer division -/

namespace cln

/-- Modelled from the spec: `cln::rem`, the remainder of the division that
truncates towards zero (it has the sign of the dividend); dividing by zero
raises an exception. -/
def rem (a b : Int) : Option Int :=
  if b = 0 then none else some (a.tmod b)

/-- Modelled from the spec: `cln::mod`, the remainder of the division that
rounds towards minus infinity (it has the sign of the divisor); dividing by
zero raises an exception. -/
def mod (a b : Int) : Option Int :=
  if b = 0 then none else some (a.fmod b)

/-- Modelled from the spec: `cln::exquo`, the exact quotient; it raises an
exception when the divisor is zero or does not divide the dividend. -/
def exquo (a b : Int) : Option Int :=
  if b ≠ 0 ∧ b ∣ a then some (a / b) else none

end cln

namespace carl

/-- The function `mod(const cln::cl_I&, const cln::cl_I&)`. -/
def mod (a b : Int) : Option Int :=
  cln.rem a b

/-- The function `div(const cln::cl_I&, const cln::cl_I&)`; the assertion that
the remainder is zero fails with `none`. -/
def div (a b : Int) : Option Int :=
  match cln.mod a b with
  | none => none
  | some r => if r = 0 then cln.exquo a b else none

/-- The function `quotient(const cln::cl_I&, const cln::cl_I&)`. -/
def quotient (a b : Int) : Option Int :=
  match cln.rem a b with
  | none => none
  | some r => cln.exquo (a - r) b

/-- The function `remainder(const cln::cl_I&, const cln::cl_I&)`. -/
def remainder (a b : Int) : Option Int :=
  cln.rem a b

/-- The operator `operator/(const cln::cl_I&, const cln::cl_I&)`. -/
def operator_div (a b : Int) : Option Int :=
  quotient a b

/-! ## The CLN adaption: rationals from decimal strings -/

/-- Modelled from the spec: `boost::split` with `boost::is_any_of(sep)` and no
token compression: the pieces between the separators, empty pieces kept, one
piece for a string without separator. -/
def split_on (sep : Char) : List Char → List (List Char)
  | [] => [[]]
  | c :: cs =>
    if c = sep then [] :: split_on sep cs
    else
      match split_on sep cs with
      | [] => [[c]]
      | piece :: pieces => (c :: piece) :: pieces

/-- The value of a decimal digit, if the character is one. -/
def digit_value (c : Char) : Option Nat :=
  if c.isDigit then some (c.toNat - 48) else none

/-- The number written by a list of decimal digits read after the value
`acc`; `none` when a character is not a digit. -/
def read_digits : List Char → Nat → Option Nat
  | [], acc => some acc
  | c :: cs, acc =>
    match digit_value c with
    | none => none
    | some d => read_digits cs (10 * acc + d)

/-- The number written by a nonempty list of decimal digits. -/
def read_unsigned (s : List Char) : Option Nat :=
  if s = [] then none else read_digits s 0

/-- Modelled from the spec: the constructor `cln::cl_RA(const char*)` on the
integer syntax, an optional sign followed by decimal digits.  Every other
string is left without a result. -/
def cl_RA_of_string (s : List Char) : Option Int :=
  match s with
  | '-' :: rest => (read_unsigned rest).map (fun (n : Nat) => -(n : Int))
  | '+' :: rest => (read_unsigned rest).map (fun (n : Nat) => (n : Int))
  | _ => (read_unsigned s).map (fun (n : Nat) => (n : Int))

/-- The cast `(int)e` of an `unsigned` value: values from `2^31` on wrap to
negative numbers. -/
def to_signed_int (e : Nat) : Int :=
  if e % unsigned_int_range < 2 ^ 31 then ((e % unsigned_int_range : Nat) : Int)
  else ((e % unsigned_int_range : Nat) : Int) - (unsigned_int_range : Int)

/-- The function `pow(const cln::cl_RA&, unsigned)`, which calls `cln::expt`
with the exponent cast to `int`. -/
def pow (n : Rat) (e : Nat) : Rat :=
  n ^ to_signed_int e

/-- The ways in which `rationalize<cln::cl_RA>(const std::string&)` ends
without a value: the `std::invalid_argument` it throws itself, and a string
the reader of CLN has no value for. -/
inductive rationalize_error where
  | invalid_argument
  | read_error
deriving DecidableEq, Repr

/-- The function `rationalize<cln::cl_RA>(const std::string&)`: the string is
split at the points, the first piece is added when it is not empty, and, when
there is a last piece after a point, that piece divided by 10 to the power of
its length (cast to `unsigned`) is added. -/
def rationalize_string (inputstring : List Char) : Except rationalize_error Rat :=
  let strs := split_on '.' inputstring
  if strs.length > 2 then Except.error rationalize_error.invalid_argument
  else
    match strs.head? with
    | none => Except.error rationalize_error.read_error
    | some front =>
      let first : Option Rat :=
        if front ≠ [] then (cl_RA_of_string front).map (fun (i : Int) => (0 : Rat) + (i : Rat))
        else some 0
      match first with
      | none => Except.error rationalize_error.read_error
      | some result =>
        if strs.length > 1 then
          match strs.getLast? with
          | none => Except.error rationalize_error.read_error
          | some back =>
            match cl_RA_of_string back with
            | none => Except.error rationalize_error.read_error
            | some f =>
              Except.ok (result + (f : Rat) / pow 10 (to_unsigned_int back.length))
        else Except.ok result

/-- The rational a decimal string `[sign]digits[.digits]` denotes: the integer
part plus the fractional digits over 10 to the power of their number, the
sign applied to the whole. -/
def decimal_value (negative : Bool) (digits fraction : Nat) (places : Nat) : Rat :=
  let magnitude : Rat := (digits : Rat) + (fraction : Rat) / ((10 ^ places : Nat) : Rat)
  if negative then -magnitude else magnitude

end carl

namespace carl

/-! ## The canonical order -/

theorem power_cmp_self (a : List power_t) : power_cmp a a = Ordering.eq := by
  induction a with
  | nil => rfl
  | cons h t ih => simp [power_cmp, ih]

theorem power_cmp_swap (a b : List power_t) (h : power_cmp a b = Ordering.lt) :
    power_cmp b a = Ordering.gt := by
  induction a generalizing b with
  | nil =>
    cases b with
    | nil => simp [power_cmp] at h
    | cons _ _ => rfl
  | cons q qs ih =>
    cases b with
    | nil => simp [power_cmp] at h
    | cons r rs =>
      simp only [power_cmp] at h ⊢
      split_ifs at h ⊢ <;> first | rfl | omega | exact ih _ h

theorem power_insert_of_lt (pw : power_t) (qs : List power_t)
    (h : ∀ q ∈ qs, q.x < pw.x) : power_insert pw qs = pw :: qs := by
  cases qs with
  | nil => rfl
  | cons q t => simp [power_insert, h q (by simp)]

theorem lp_monomial_order_of_ordered (p : List power_t)
    (h : p.Pairwise (fun q r => r.x < q.x)) : lp_monomial_order p = p := by
  induction p with
  | nil => rfl
  | cons q t ih =>
    rw [List.pairwise_cons] at h
    have ht : lp_monomial_order t = t := ih h.2
    show power_insert q (lp_monomial_order t) = q :: t
    rw [ht]
    exact power_insert_of_lt q t h.1

theorem coefficient_add_ordered_monomial_append (m : lp_monomial_t) (A : lp_polynomial_t)
    (hm : m.a ≠ 0) (h : ∀ n ∈ A, power_cmp n.p m.p = Ordering.lt) :
    coefficient_add_ordered_monomial m A = A ++ [m] := by
  induction A with
  | nil => simp [coefficient_add_ordered_monomial, hm]
  | cons n t ih =>
    have h1 := power_cmp_swap _ _ (h n (by simp))
    simp only [coefficient_add_ordered_monomial, h1, List.cons_append]
    rw [ih (fun k hk => h k (by simp [hk]))]

theorem lp_polynomial_add_monomial_append (m : lp_monomial_t) (A : lp_polynomial_t)
    (hm : m.a ≠ 0) (hp : m.p.Pairwise (fun q r => r.x < q.x))
    (h : ∀ n ∈ A, power_cmp n.p m.p = Ordering.lt) :
    lp_polynomial_add_monomial A m = A ++ [m] := by
  unfold lp_polynomial_add_monomial
  rw [lp_monomial_order_of_ordered m.p hp]
  exact coefficient_add_ordered_monomial_append m A hm h

theorem foldl_add_monomial_of_check_order (L acc : lp_polynomial_t)
    (h : lp_polynomial_check_order (acc ++ L)) :
    L.foldl lp_polynomial_add_monomial acc = acc ++ L := by
  induction L generalizing acc with
  | nil => simp
  | cons m t ih =>
    have hm : m.a ≠ 0 ∧ powers_ordered m.p := h.2 m (by simp)
    have hlt : ∀ n ∈ acc, power_cmp n.p m.p = Ordering.lt := by
      intro n hn
      have := List.pairwise_append.1 h.1
      exact this.2.2 n hn m (by simp)
    rw [List.foldl_cons, lp_polynomial_add_monomial_append m acc hm.1 hm.2.1 hlt]
    rw [ih (acc ++ [m]) (by simpa using h)]
    simp

/-! ## Scaling: multiplication and division by a constant polynomial -/

theorem lp_monomial_mul_const (m : lp_monomial_t) (k : Int) :
    lp_monomial_mul m { a := k, p := [] } = { a := m.a * k, p := m.p } := rfl

theorem check_order_map_coeff (A : lp_polynomial_t) (f : Int → Int)
    (h : lp_polynomial_check_order A) (hf : ∀ m ∈ A, f m.a ≠ 0) :
    lp_polynomial_check_order (map_coefficients f A) := by
  unfold map_coefficients
  refine ⟨?_, ?_⟩
  · rw [List.pairwise_map]
    exact h.1
  · intro m hm
    rw [List.mem_map] at hm
    obtain ⟨n, hn, rfl⟩ := hm
    exact ⟨hf n hn, (h.2 n hn).2⟩

theorem lp_polynomial_mul_const (A : lp_polynomial_t) (k : Int) (hk : k ≠ 0)
    (h : lp_polynomial_check_order A) :
    lp_polynomial_mul A (construct_lp_poly k)
      = map_coefficients (fun a => a * k) A := by
  have hc : construct_lp_poly k = [{ a := k, p := [] }] := by simp [construct_lp_poly, hk]
  unfold lp_polynomial_mul
  rw [hc]
  simp only [List.foldl_cons, List.foldl_nil, lp_monomial_mul_const]
  have := foldl_add_monomial_of_check_order (map_coefficients (fun a => a * k) A) []
    (by
      simpa using check_order_map_coeff A (fun c => c * k) h
        (fun m hm => mul_ne_zero (h.2 m hm).1 hk))
  unfold map_coefficients at this
  rw [List.foldl_map] at this
  simpa [map_coefficients] using this

end carl

namespace carl

/-! ## The content -/

theorem traverse_getCoeffs (A : lp_polynomial_t) (v : List Int) :
    lp_polynomial_traverse A LPPolynomial.getCoeffs v = v ++ coefficients A := by
  unfold lp_polynomial_traverse coefficients
  induction A generalizing v with
  | nil => simp
  | cons m t ih =>
    rw [List.foldl_cons, ih]
    simp [LPPolynomial.getCoeffs]

theorem foldl_mpz_gcd (rest : List Int) (n : Nat) :
    rest.foldl (fun res ci => mpz_gcd res ci) (n : Int) = ((Nat.gcd n (content rest) : Nat) : Int) := by
  induction rest generalizing n with
  | nil => simp [content]
  | cons c t ih =>
    rw [List.foldl_cons]
    show List.foldl _ ((Int.gcd n c : Nat) : Int) t = _
    rw [ih]
    have : content (c :: t) = Int.gcd c (content t) := rfl
    rw [this]
    simp only [Int.gcd, Int.natAbs_ofNat, Nat.gcd_assoc]

theorem coprime_factor_nil (c : LPContext) :
    LPPolynomial.coprime_factor { m_internal := [], m_context := c } = 0 := rfl

theorem coprime_factor_single (m : lp_monomial_t) (c : LPContext) :
    LPPolynomial.coprime_factor { m_internal := [m], m_context := c } = m.a := rfl

theorem coprime_factor_many (m n : lp_monomial_t) (t : lp_polynomial_t) (c : LPContext) :
    LPPolynomial.coprime_factor { m_internal := m :: n :: t, m_context := c }
      = (content (coefficients (m :: n :: t)) : Int) := by
  unfold LPPolynomial.coprime_factor LPPolynomial.get_internal
  rw [traverse_getCoeffs]
  simp only [List.nil_append, coefficients, List.map_cons, List.foldl_cons]
  show List.foldl _ ((Int.gcd m.a n.a : Nat) : Int) _ = _
  rw [foldl_mpz_gcd]
  simp only [content, List.foldr_cons, Int.gcd, Int.natAbs_ofNat, Nat.gcd_assoc]

theorem content_dvd (l : List Int) : ∀ c ∈ l, (content l : Int) ∣ c := by
  induction l with
  | nil => simp
  | cons d t ih =>
    intro c hc
    have hd : content (d :: t) = Int.gcd d (content t) := rfl
    rw [hd]
    rcases List.mem_cons.1 hc with rfl | hc
    · exact Int.gcd_dvd_left
    · exact dvd_trans Int.gcd_dvd_right (ih c hc)

theorem content_cons_ne_zero (d : Int) (t : List Int) (hd : d ≠ 0) :
    content (d :: t) ≠ 0 := by
  have : content (d :: t) = Int.gcd d (content t) := rfl
  rw [this]
  intro h
  exact hd (Int.gcd_eq_zero_iff.1 h).1

theorem coprime_factor_dvd (p : LPPolynomial) :
    ∀ m ∈ p.m_internal, p.coprime_factor ∣ m.a := by
  obtain ⟨A, c⟩ := p
  intro m hm
  match A, hm with
  | [m0], hm =>
    rw [coprime_factor_single]
    simp at hm
    rw [hm]
  | m0 :: n :: t, hm =>
    rw [coprime_factor_many]
    exact content_dvd _ m.a (List.mem_map_of_mem (fun k => k.a) hm)

theorem coprime_factor_ne_zero (p : LPPolynomial) (hp : lp_polynomial_check_order p.m_internal)
    (hz : is_zero p = false) : p.coprime_factor ≠ 0 := by
  obtain ⟨A, c⟩ := p
  match A, hp, hz with
  | [], _, hz => simp [is_zero, LPPolynomial.get_internal, lp_polynomial_is_zero] at hz
  | [m0], hp, _ =>
    rw [coprime_factor_single]
    exact (hp.2 m0 (by simp)).1
  | m0 :: n :: t, hp, _ =>
    rw [coprime_factor_many]
    have := content_cons_ne_zero m0.a (coefficients (n :: t)) (hp.2 m0 (by simp)).1
    exact_mod_cast this

theorem coprime_coefficients_eq (p : LPPolynomial) (hp : lp_polynomial_check_order p.m_internal)
    (hz : is_zero p = false) :
    p.coprime_coefficients
      = some { m_internal := map_coefficients (fun a => a / p.coprime_factor) p.m_internal,
               m_context := p.m_context } := by
  have hg := coprime_factor_ne_zero p hp hz
  have hdvd := coprime_factor_dvd p
  unfold LPPolynomial.coprime_coefficients
  by_cases h1 : p.coprime_factor = 1
  · simp only [h1, if_true]
    congr 1
    obtain ⟨A, c⟩ := p
    simp [map_coefficients]
  · simp only [h1, if_false]
    have hc : construct_lp_poly p.coprime_factor = [{ a := p.coprime_factor, p := [] }] := by
      simp [construct_lp_poly, hg]
    have hex : ∀ m ∈ p.get_internal, m.a % p.coprime_factor = 0 :=
      fun m hm => Int.emod_eq_zero_of_dvd (hdvd m hm)
    rw [hc]
    simp only [lp_polynomial_div]
    rw [if_pos ⟨hg, hex⟩]
    rfl

end carl

namespace carl

/-! ## The unit part -/

theorem is_zero_eq_false_iff (p : LPPolynomial) : is_zero p = false ↔ p.m_internal ≠ [] := by
  obtain ⟨A, c⟩ := p
  cases A <;> simp [is_zero, LPPolynomial.get_internal, lp_polynomial_is_zero]

theorem lp_polynomial_lc_sgn_eq (A : lp_polynomial_t) :
    lp_polynomial_lc_sgn A = Int.sign (leading_coefficient A) := by
  unfold lp_polynomial_lc_sgn leading_coefficient
  cases A.getLast? <;> simp

theorem unit_part_of_ne_nil (p : LPPolynomial) (h : p.m_internal ≠ []) :
    p.unit_part = Int.sign (leading_coefficient p.m_internal) := by
  unfold LPPolynomial.unit_part
  rw [(is_zero_eq_false_iff p).2 h, ← lp_polynomial_lc_sgn_eq]
  rfl

theorem leading_coefficient_map (f : Int → Int) (A : lp_polynomial_t) (h : A ≠ []) :
    leading_coefficient (map_coefficients f A) = f (leading_coefficient A) := by
  unfold leading_coefficient map_coefficients
  rw [List.getLast?_map]
  cases hl : A.getLast? with
  | none => exact absurd (List.getLast?_eq_none_iff.1 hl) h
  | some m => rfl

theorem leading_coefficient_mem (A : lp_polynomial_t) (h : A ≠ []) :
    ∃ m ∈ A, A.getLast? = some m ∧ m.a = leading_coefficient A := by
  unfold leading_coefficient
  cases hl : A.getLast? with
  | none => exact absurd (List.getLast?_eq_none_iff.1 hl) h
  | some m => exact ⟨m, List.mem_of_getLast?_eq_some hl, rfl, rfl⟩

theorem leading_coefficient_ne_zero (A : lp_polynomial_t) (hA : lp_polynomial_check_order A)
    (h : A ≠ []) : leading_coefficient A ≠ 0 := by
  obtain ⟨m, hm, _, hlead⟩ := leading_coefficient_mem A h
  rw [← hlead]
  exact (hA.2 m hm).1

theorem map_coefficients_ne_nil (f : Int → Int) (A : lp_polynomial_t) (h : A ≠ []) :
    map_coefficients f A ≠ [] := by
  cases A with
  | nil => exact absurd rfl h
  | cons m t => simp [map_coefficients]

theorem map_coefficients_comp (f k : Int → Int) (A : lp_polynomial_t) :
    map_coefficients f (map_coefficients k A) = map_coefficients (fun a => f (k a)) A := by
  simp [map_coefficients, List.map_map, Function.comp_def]

theorem map_coefficients_congr (f k : Int → Int) (A : lp_polynomial_t)
    (h : ∀ m ∈ A, f m.a = k m.a) : map_coefficients f A = map_coefficients k A := by
  unfold map_coefficients
  apply List.map_congr_left
  intro m hm
  rw [h m hm]

theorem map_coefficients_id (A : lp_polynomial_t) (f : Int → Int)
    (h : ∀ m ∈ A, f m.a = m.a) : map_coefficients f A = A := by
  unfold map_coefficients
  conv_rhs => rw [← List.map_id A]
  apply List.map_congr_left
  intro m hm
  rw [h m hm]
  rfl

theorem ediv_ne_zero_of_dvd (a g : Int) (ha : a ≠ 0) (hd : g ∣ a) : a / g ≠ 0 := by
  intro h
  obtain ⟨k, rfl⟩ := hd
  by_cases hg : g = 0
  · simp [hg] at ha
  · rw [Int.mul_ediv_cancel_left _ hg] at h
    simp [h] at ha

theorem mul_mpz_eq (q : LPPolynomial) (k : Int) (hk : k ≠ 0)
    (hq : lp_polynomial_check_order q.m_internal) :
    q.mul_mpz k = some { m_internal := map_coefficients (fun a => a * k) q.m_internal,
                         m_context := q.m_context } := by
  unfold LPPolynomial.mul_mpz LPPolynomial.mul LPPolynomial.of_mpz LPPolynomial.context
    LPPolynomial.get_internal
  simp only [if_true]
  rw [lp_polynomial_mul_const _ k hk hq]

/-! ## The normal form -/

theorem check_order_coprime (p : LPPolynomial) (hp : lp_polynomial_check_order p.m_internal) :
    lp_polynomial_check_order (map_coefficients (fun a => a / p.coprime_factor) p.m_internal) :=
  check_order_map_coeff p.m_internal (fun a => a / p.coprime_factor) hp
    (fun m hm => ediv_ne_zero_of_dvd m.a _ (hp.2 m hm).1 (coprime_factor_dvd p m hm))

theorem sign_ne_zero_of_ne_zero (a : Int) (h : a ≠ 0) : Int.sign a ≠ 0 := by
  intro hs
  exact h (Int.sign_eq_zero_iff_zero.1 hs)

theorem normalized_eq (p : LPPolynomial) (hp : lp_polynomial_check_order p.m_internal)
    (hz : is_zero p = false) :
    p.normalized
      = some { m_internal := map_coefficients
                 (fun a => a / p.coprime_factor
                   * Int.sign (leading_coefficient p.m_internal / p.coprime_factor))
                 p.m_internal,
               m_context := p.m_context } := by
  have hne := (is_zero_eq_false_iff p).1 hz
  have hlead := leading_coefficient_ne_zero p.m_internal hp hne
  obtain ⟨m, hm, _, hma⟩ := leading_coefficient_mem p.m_internal hne
  have hdvd : p.coprime_factor ∣ leading_coefficient p.m_internal := by
    rw [← hma]; exact coprime_factor_dvd p m hm
  have hq := ediv_ne_zero_of_dvd _ _ hlead hdvd
  unfold LPPolynomial.normalized
  rw [coprime_coefficients_eq p hp hz]
  simp only
  rw [unit_part_of_ne_nil _ (map_coefficients_ne_nil (fun a => a / p.coprime_factor) _ hne)]
  simp only
  rw [leading_coefficient_map _ _ hne]
  rw [if_neg (sign_ne_zero_of_ne_zero _ hq)]
  rw [mul_mpz_eq _ _ (sign_ne_zero_of_ne_zero _ hq) (check_order_coprime p hp)]
  simp only [map_coefficients_comp]

end carl

namespace carl

/-! ## The content of a scaled coefficient list -/

theorem content_cons (c : Int) (t : List Int) :
    content (c :: t) = Nat.gcd c.natAbs (content t) := by
  show Int.gcd c (content t) = _
  simp [Int.gcd]

theorem content_map_mul_left (n : Int) (l : List Int) :
    content (l.map (fun a => n * a)) = n.natAbs * content l := by
  induction l with
  | nil => simp [content]
  | cons c t ih =>
    rw [List.map_cons, content_cons, content_cons, ih, Int.natAbs_mul, Nat.gcd_mul_left]

theorem content_map_mul_unit (u : Int) (l : List Int) (hu : u.natAbs = 1) :
    content (l.map (fun a => a * u)) = content l := by
  have h := content_map_mul_left u l
  rw [hu, one_mul] at h
  rw [← h]
  congr 1
  apply List.map_congr_left
  intro a _
  exact mul_comm a u

theorem content_map_ediv (l : List Int) (h : content l ≠ 0) :
    content (l.map (fun a => a / (content l : Int))) = 1 := by
  have hback : (l.map (fun a => a / (content l : Int))).map (fun a => (content l : Int) * a) = l := by
    rw [List.map_map]
    conv_rhs => rw [← List.map_id l]
    apply List.map_congr_left
    intro a ha
    simp only [Function.comp_apply, id_eq]
    exact Int.mul_ediv_cancel' (content_dvd l a ha)
  have hc := content_map_mul_left (content l : Int) (l.map (fun a => a / (content l : Int)))
  rw [hback, Int.natAbs_ofNat] at hc
  have hpos : 0 < content l := Nat.pos_of_ne_zero h
  exact (Nat.eq_of_mul_eq_mul_left hpos (by rw [mul_one]; exact hc)).symm

theorem coefficients_map_coefficients (f : Int → Int) (A : lp_polynomial_t) :
    coefficients (map_coefficients f A) = (coefficients A).map f := by
  simp [coefficients, map_coefficients, List.map_map, Function.comp_def]

theorem natAbs_sign_eq_one (a : Int) (h : a ≠ 0) : (Int.sign a).natAbs = 1 :=
  Int.natAbs_sign_of_nonzero h

/-! ## Properties of the normal form -/

theorem leading_quotient_ne_zero (p : LPPolynomial) (hp : lp_polynomial_check_order p.m_internal)
    (hne : p.m_internal ≠ []) :
    leading_coefficient p.m_internal / p.coprime_factor ≠ 0 := by
  have hlead := leading_coefficient_ne_zero p.m_internal hp hne
  obtain ⟨m, hm, _, hma⟩ := leading_coefficient_mem p.m_internal hne
  have hdvd : p.coprime_factor ∣ leading_coefficient p.m_internal := by
    rw [← hma]; exact coprime_factor_dvd p m hm
  exact ediv_ne_zero_of_dvd _ _ hlead hdvd

theorem check_order_normal_form (p : LPPolynomial) (hp : lp_polynomial_check_order p.m_internal)
    (hne : p.m_internal ≠ []) :
    lp_polynomial_check_order (map_coefficients
      (fun a => a / p.coprime_factor
        * Int.sign (leading_coefficient p.m_internal / p.coprime_factor)) p.m_internal) := by
  apply check_order_map_coeff p.m_internal _ hp
  intro m hm
  exact mul_ne_zero (ediv_ne_zero_of_dvd m.a _ (hp.2 m hm).1 (coprime_factor_dvd p m hm))
    (sign_ne_zero_of_ne_zero _ (leading_quotient_ne_zero p hp hne))

theorem leading_coefficient_normal_form_pos (p : LPPolynomial)
    (hp : lp_polynomial_check_order p.m_internal) (hne : p.m_internal ≠ []) :
    0 < leading_coefficient (map_coefficients
      (fun a => a / p.coprime_factor
        * Int.sign (leading_coefficient p.m_internal / p.coprime_factor)) p.m_internal) := by
  rw [leading_coefficient_map _ _ hne, Int.mul_sign]
  have := Int.natAbs_pos.2 (leading_quotient_ne_zero p hp hne)
  exact_mod_cast this

theorem coprime_factor_normal_form (p : LPPolynomial)
    (hp : lp_polynomial_check_order p.m_internal) (hne : p.m_internal ≠ []) :
    LPPolynomial.coprime_factor
      { m_internal := map_coefficients
          (fun a => a / p.coprime_factor
            * Int.sign (leading_coefficient p.m_internal / p.coprime_factor)) p.m_internal,
        m_context := p.m_context } = 1 := by
  have hq := leading_quotient_ne_zero p hp hne
  obtain ⟨A, c⟩ := p
  match A, hp, hne, hq with
  | [], _, hne, _ => exact absurd rfl hne
  | [m], hp, _, _ =>
    have hm : m.a ≠ 0 := (hp.2 m (by simp)).1
    simp only [map_coefficients, List.map_cons, List.map_nil, coprime_factor_single]
    have hl : leading_coefficient [m] = m.a := rfl
    rw [hl, Int.ediv_self hm]
    rfl
  | m :: n :: t, hp, _, hq =>
    have hg := coprime_factor_many m n t c
    have hm : m.a ≠ 0 := (hp.2 m (by simp)).1
    have hcont : content (coefficients (m :: n :: t)) ≠ 0 :=
      content_cons_ne_zero m.a (coefficients (n :: t)) hm
    simp only at hq ⊢
    rw [hg] at hq ⊢
    generalize hu : Int.sign (leading_coefficient (m :: n :: t)
      / (content (coefficients (m :: n :: t)) : Int)) = u
    have hu1 : u.natAbs = 1 := by
      rw [← hu]; exact natAbs_sign_eq_one _ hq
    have hshape : map_coefficients
        (fun a => a / (content (coefficients (m :: n :: t)) : Int) * u) (m :: n :: t)
        = { a := m.a / (content (coefficients (m :: n :: t)) : Int) * u, p := m.p }
          :: { a := n.a / (content (coefficients (m :: n :: t)) : Int) * u, p := n.p }
          :: map_coefficients
              (fun a => a / (content (coefficients (m :: n :: t)) : Int) * u) t := rfl
    rw [hshape, coprime_factor_many, ← hshape, coefficients_map_coefficients]
    have hsplit : (coefficients (m :: n :: t)).map
        (fun a => a / (content (coefficients (m :: n :: t)) : Int) * u)
        = ((coefficients (m :: n :: t)).map
            (fun a => a / (content (coefficients (m :: n :: t)) : Int))).map
            (fun a => a * u) := by
      rw [List.map_map]; rfl
    rw [hsplit, content_map_mul_unit _ _ hu1, content_map_ediv _ hcont]
    rfl

end carl

namespace carl

/-! ## Content extraction: `coprime_factor` and `coprime_coefficients` -/

theorem dvd_content (l : List Int) (d : Int) (h : ∀ c ∈ l, d ∣ c) : d ∣ (content l : Int) := by
  induction l with
  | nil => exact dvd_zero d
  | cons c t ih =>
    have hc : content (c :: t) = Int.gcd c (content t) := rfl
    rw [hc]
    exact Int.dvd_gcd (h c (by simp)) (ih (fun k hk => h k (by simp [hk])))

theorem dvd_coprime_factor (p : LPPolynomial) (d : Int) (h : ∀ m ∈ p.m_internal, d ∣ m.a) :
    d ∣ p.coprime_factor := by
  obtain ⟨A, c⟩ := p
  match A, h with
  | [], _ => rw [coprime_factor_nil]; exact dvd_zero d
  | [m], h => rw [coprime_factor_single]; exact h m (by simp)
  | m :: n :: t, h =>
    rw [coprime_factor_many]
    apply dvd_content
    intro k hk
    simp only [coefficients, List.mem_map] at hk
    obtain ⟨m2, hm2, rfl⟩ := hk
    exact h m2 hm2

/-- C3, as stated, fails at the constant polynomial `-3`: `coprime_factor`
returns the single coefficient `-3` with its sign, which is negative, while the
greatest common divisor of the coefficients is `3`. -/
theorem coprime_factor_negative_constant :
    (LPPolynomial.of_mpz context_xy (-3)).coprime_factor = -3
      ∧ content (coefficients (LPPolynomial.of_mpz context_xy (-3)).m_internal) = 3
      ∧ ¬ 0 ≤ (LPPolynomial.of_mpz context_xy (-3)).coprime_factor := by
  decide

/-- C3, amended: for every polynomial `p`, `coprime_factor(p)` is a greatest
common divisor of the coefficients of `p` up to sign: it divides every
coefficient, every common divisor of the coefficients divides it, and its
absolute value is the non-negative gcd of the coefficients; it is non-negative
when `p` has at least two monomials, and it is 0 when `p` is the zero
polynomial. -/
theorem coprime_factor_gcd_up_to_sign (p : LPPolynomial) :
    (∀ m ∈ p.m_internal, p.coprime_factor ∣ m.a)
      ∧ (∀ d : Int, (∀ m ∈ p.m_internal, d ∣ m.a) → d ∣ p.coprime_factor)
      ∧ p.coprime_factor.natAbs = content (coefficients p.m_internal)
      ∧ (2 ≤ p.m_internal.length → 0 ≤ p.coprime_factor)
      ∧ (is_zero p = true → p.coprime_factor = 0) := by
  refine ⟨coprime_factor_dvd p, dvd_coprime_factor p, ?_, ?_, ?_⟩
  · obtain ⟨A, c⟩ := p
    match A with
    | [] => rfl
    | [m] =>
      rw [coprime_factor_single]
      simp [coefficients, content_cons, content]
    | m :: n :: t =>
      rw [coprime_factor_many]
      exact Int.natAbs_ofNat _
  · intro hlen
    obtain ⟨A, c⟩ := p
    match A, hlen with
    | [], hlen => simp at hlen
    | [m], hlen => simp at hlen
    | m :: n :: t, _ =>
      rw [coprime_factor_many]
      exact Int.ofNat_nonneg _
  · intro hz
    obtain ⟨A, c⟩ := p
    match A, hz with
    | [], _ => rfl
    | m :: t, hz => simp [is_zero, LPPolynomial.get_internal, lp_polynomial_is_zero] at hz

/-- Witness for C3 (amended) at `4x^2 - 6xy + 10y^2`, whose content is 2. -/
theorem coprime_factor_gcd_up_to_sign_witness :
    poly_quadratic.coprime_factor = 2
      ∧ (∀ m ∈ poly_quadratic.m_internal, poly_quadratic.coprime_factor ∣ m.a)
      ∧ (∀ d : Int, (∀ m ∈ poly_quadratic.m_internal, d ∣ m.a) →
            d ∣ poly_quadratic.coprime_factor)
      ∧ poly_quadratic.coprime_factor.natAbs = content (coefficients poly_quadratic.m_internal)
      ∧ (2 ≤ poly_quadratic.m_internal.length → 0 ≤ poly_quadratic.coprime_factor)
      ∧ (is_zero poly_quadratic = true → poly_quadratic.coprime_factor = 0) :=
  ⟨by decide, coprime_factor_gcd_up_to_sign poly_quadratic⟩

/-- C4: for every nonzero polynomial `p`, the scalar product
`coprime_factor(p) * coprime_coefficients(p)` is defined and structurally
equal to `p`. -/
theorem coprime_factor_mul_coprime_coefficients (p : LPPolynomial) (hp : p.well_formed)
    (hz : is_zero p = false) :
    ∃ q r, p.coprime_coefficients = some q
      ∧ LPPolynomial.mpz_mul p.coprime_factor q = some r
      ∧ r.eq p = true := by
  have hg := coprime_factor_ne_zero p hp.1 hz
  refine ⟨_, _, coprime_coefficients_eq p hp.1 hz,
    mul_mpz_eq _ _ hg (check_order_coprime p hp.1), ?_⟩
  simp only [LPPolynomial.eq, lp_polynomial_eq, LPPolynomial.get_internal,
    map_coefficients_comp, decide_eq_true_eq]
  apply map_coefficients_id
  intro m hm
  exact Int.ediv_mul_cancel (coprime_factor_dvd p m hm)

/-- Witness for C4 at `4x^2 - 6xy + 10y^2`. -/
theorem coprime_factor_mul_coprime_coefficients_witness :
    poly_quadratic.well_formed ∧ is_zero poly_quadratic = false
      ∧ ∃ q r, poly_quadratic.coprime_coefficients = some q
          ∧ LPPolynomial.mpz_mul poly_quadratic.coprime_factor q = some r
          ∧ r.eq poly_quadratic = true :=
  ⟨by decide, by decide,
    coprime_factor_mul_coprime_coefficients poly_quadratic (by decide) (by decide)⟩

/-- C5: for every nonzero polynomial `p`, `coprime_coefficients(p)` is defined,
has the power products of `p` in the same order, each coefficient being the
coefficient of `p` divided by `coprime_factor(p)`, with remainder zero; and when
`coprime_factor(p) = 1` the result is structurally equal to `p`. -/
theorem coprime_coefficients_exact (p : LPPolynomial) (hp : p.well_formed)
    (hz : is_zero p = false) :
    ∃ q, p.coprime_coefficients = some q
      ∧ q.m_internal.map (fun m => m.p) = p.m_internal.map (fun m => m.p)
      ∧ coefficients q.m_internal
          = (coefficients p.m_internal).map (fun a => a / p.coprime_factor)
      ∧ (∀ m ∈ p.m_internal, m.a % p.coprime_factor = 0)
      ∧ (p.coprime_factor = 1 → q.eq p = true) := by
  refine ⟨_, coprime_coefficients_eq p hp.1 hz, ?_, ?_, ?_, ?_⟩
  · simp [map_coefficients, List.map_map, Function.comp_def]
  · exact coefficients_map_coefficients (fun a => a / p.coprime_factor) p.m_internal
  · exact fun m hm => Int.emod_eq_zero_of_dvd (coprime_factor_dvd p m hm)
  · intro h1
    simp only [LPPolynomial.eq, lp_polynomial_eq, LPPolynomial.get_internal,
      decide_eq_true_eq, h1]
    exact map_coefficients_id _ _ (fun m _ => Int.ediv_one m.a)

/-- Witness for C5 at `4x^2 - 6xy + 10y^2`. -/
theorem coprime_coefficients_exact_witness :
    poly_quadratic.well_formed ∧ is_zero poly_quadratic = false
      ∧ ∃ q, poly_quadratic.coprime_coefficients = some q
          ∧ q.m_internal.map (fun m => m.p) = poly_quadratic.m_internal.map (fun m => m.p)
          ∧ coefficients q.m_internal
              = (coefficients poly_quadratic.m_internal).map
                  (fun a => a / poly_quadratic.coprime_factor)
          ∧ (∀ m ∈ poly_quadratic.m_internal, m.a % poly_quadratic.coprime_factor = 0)
          ∧ (poly_quadratic.coprime_factor = 1 → q.eq poly_quadratic = true) :=
  ⟨by decide, by decide, coprime_coefficients_exact poly_quadratic (by decide) (by decide)⟩

end carl

namespace carl

/-! ## Unit part and normalisation -/

theorem last_is_highest (A : lp_polynomial_t) (lead : lp_monomial_t)
    (hA : lp_polynomial_check_order A) (hl : A.getLast? = some lead) :
    ∀ m ∈ A, m ≠ lead → power_cmp m.p lead.p = Ordering.lt := by
  obtain ⟨ys, rfl⟩ := List.getLast?_eq_some_iff.1 hl
  intro m hm hne
  have hpw := List.pairwise_append.1 hA.1
  rcases List.mem_append.1 hm with h | h
  · exact hpw.2.2 m h lead (by simp)
  · simp at h
    exact absurd h hne

theorem sign_eq_one_or_neg_one (a : Int) (h : a ≠ 0) : Int.sign a = 1 ∨ Int.sign a = -1 := by
  rcases lt_or_gt_of_ne h with h | h
  · exact Or.inr (Int.sign_eq_neg_one_of_neg h)
  · exact Or.inl (Int.sign_eq_one_of_pos h)

theorem normalized_nil (c : LPContext) :
    LPPolynomial.normalized { m_internal := [], m_context := c } = none := by
  rfl

/-- C6: `unit_part(p)` is `+1` for the zero polynomial; for a nonzero `p` it is
the sign of the coefficient of the highest monomial in canonical order, which
is `+1` or `-1`; it is never `0`. -/
theorem unit_part_sign (p : LPPolynomial) (hp : p.well_formed) :
    (is_zero p = true → p.unit_part = 1)
      ∧ (is_zero p = false → ∃ lead ∈ p.m_internal,
          (∀ m ∈ p.m_internal, m ≠ lead → power_cmp m.p lead.p = Ordering.lt)
            ∧ p.unit_part = Int.sign lead.a
            ∧ (p.unit_part = 1 ∨ p.unit_part = -1))
      ∧ p.unit_part ≠ 0 := by
  have hzero : is_zero p = true → p.unit_part = 1 := by
    intro hz
    simp [LPPolynomial.unit_part, hz]
  have hnonzero : is_zero p = false → ∃ lead ∈ p.m_internal,
      (∀ m ∈ p.m_internal, m ≠ lead → power_cmp m.p lead.p = Ordering.lt)
        ∧ p.unit_part = Int.sign lead.a
        ∧ (p.unit_part = 1 ∨ p.unit_part = -1) := by
    intro hz
    have hne := (is_zero_eq_false_iff p).1 hz
    obtain ⟨lead, hmem, hlast, hlead⟩ := leading_coefficient_mem p.m_internal hne
    have hu : p.unit_part = Int.sign lead.a := by
      rw [unit_part_of_ne_nil p hne, hlead]
    refine ⟨lead, hmem, last_is_highest p.m_internal lead hp.1 hlast, hu, ?_⟩
    rw [hu]
    exact sign_eq_one_or_neg_one lead.a (hp.1.2 lead hmem).1
  refine ⟨hzero, hnonzero, ?_⟩
  cases hz : is_zero p with
  | true => rw [hzero hz]; decide
  | false =>
    obtain ⟨_, _, _, _, h | h⟩ := hnonzero hz <;> rw [h] <;> decide

/-- Witness for C6 at `-6 - 3x`. -/
theorem unit_part_sign_witness :
    poly_neg_3x_minus_6.well_formed
      ∧ (is_zero poly_neg_3x_minus_6 = true → poly_neg_3x_minus_6.unit_part = 1)
      ∧ (is_zero poly_neg_3x_minus_6 = false → ∃ lead ∈ poly_neg_3x_minus_6.m_internal,
          (∀ m ∈ poly_neg_3x_minus_6.m_internal, m ≠ lead →
              power_cmp m.p lead.p = Ordering.lt)
            ∧ poly_neg_3x_minus_6.unit_part = Int.sign lead.a
            ∧ (poly_neg_3x_minus_6.unit_part = 1 ∨ poly_neg_3x_minus_6.unit_part = -1))
      ∧ poly_neg_3x_minus_6.unit_part ≠ 0 :=
  ⟨by decide, unit_part_sign poly_neg_3x_minus_6 (by decide)⟩

/-- C7, as stated, fails at the constant polynomial `-3`: `normalized` returns
the constant `1`, while `coprime_coefficients(p) * unit_part(p)` is the
constant `-1`. -/
theorem normalized_ne_coprime_coefficients_mul_unit_part :
    (LPPolynomial.of_mpz context_xy (-3)).normalized = some (LPPolynomial.of_mpz context_xy 1)
      ∧ (LPPolynomial.of_mpz context_xy (-3)).coprime_coefficients.bind
          (fun res => res.mul_mpz (LPPolynomial.of_mpz context_xy (-3)).unit_part)
          = some (LPPolynomial.of_mpz context_xy (-1))
      ∧ (LPPolynomial.of_mpz context_xy 1).eq (LPPolynomial.of_mpz context_xy (-1)) = false := by
  decide

theorem sign_ediv_of_pos (a g : Int) (hg : 0 < g) (hd : g ∣ a) :
    Int.sign (a / g) = Int.sign a := by
  obtain ⟨k, rfl⟩ := hd
  rw [Int.mul_ediv_cancel_left _ (ne_of_gt hg), Int.sign_mul, Int.sign_eq_one_of_pos hg, one_mul]

/-- C7, amended: for every nonzero polynomial `p`, `normalized(p)` is
`coprime_coefficients(p)` multiplied by the unit part of that
`coprime_coefficients(p)` result, and this unit part is `unit_part(p)` whenever
`coprime_factor(p)` is positive. -/
theorem normalized_eq_coprime_coefficients_mul_unit_part (p : LPPolynomial)
    (hp : p.well_formed) (hz : is_zero p = false) :
    ∃ res q, p.coprime_coefficients = some res
      ∧ res.mul_mpz res.unit_part = some q
      ∧ p.normalized = some q
      ∧ (0 < p.coprime_factor → res.unit_part = p.unit_part) := by
  have hne := (is_zero_eq_false_iff p).1 hz
  have hq := leading_quotient_ne_zero p hp.1 hne
  have hres : LPPolynomial.unit_part
      { m_internal := map_coefficients (fun a => a / p.coprime_factor) p.m_internal,
        m_context := p.m_context }
      = Int.sign (leading_coefficient p.m_internal / p.coprime_factor) := by
    rw [unit_part_of_ne_nil _
      (map_coefficients_ne_nil (fun a => a / p.coprime_factor) _ hne)]
    simp only
    rw [leading_coefficient_map _ _ hne]
  refine ⟨_, LPPolynomial.mk (map_coefficients
      (fun a => a / p.coprime_factor
        * Int.sign (leading_coefficient p.m_internal / p.coprime_factor)) p.m_internal)
    p.m_context, coprime_coefficients_eq p hp.1 hz, ?_, ?_, ?_⟩
  · rw [hres, mul_mpz_eq _ _ (sign_ne_zero_of_ne_zero _ hq) (check_order_coprime p hp.1)]
    simp only [map_coefficients_comp]
  · exact normalized_eq p hp.1 hz
  · intro hg
    rw [hres, unit_part_of_ne_nil p hne]
    obtain ⟨m, hm, _, hma⟩ := leading_coefficient_mem p.m_internal hne
    rw [← hma]
    exact sign_ediv_of_pos _ _ hg (coprime_factor_dvd p m hm)

/-- Witness for C7 (amended) at `-6 - 3x`. -/
theorem normalized_eq_coprime_coefficients_mul_unit_part_witness :
    poly_neg_3x_minus_6.well_formed ∧ is_zero poly_neg_3x_minus_6 = false
      ∧ ∃ res q, poly_neg_3x_minus_6.coprime_coefficients = some res
          ∧ res.mul_mpz res.unit_part = some q
          ∧ poly_neg_3x_minus_6.normalized = some q
          ∧ (0 < poly_neg_3x_minus_6.coprime_factor →
              res.unit_part = poly_neg_3x_minus_6.unit_part) :=
  ⟨by decide, by decide,
    normalized_eq_coprime_coefficients_mul_unit_part poly_neg_3x_minus_6 (by decide) (by decide)⟩

end carl

namespace carl

theorem is_zero_eq_false_of_normalized (p q : LPPolynomial) (h : p.normalized = some q) :
    is_zero p = false := by
  rw [is_zero_eq_false_iff]
  intro hnil
  obtain ⟨A, c⟩ := p
  simp only at hnil
  subst hnil
  rw [normalized_nil] at h
  exact absurd h (by simp)

theorem unit_part_normal_form (p : LPPolynomial)
    (hp : lp_polynomial_check_order p.m_internal) (hne : p.m_internal ≠ []) :
    LPPolynomial.unit_part
      { m_internal := map_coefficients
          (fun a => a / p.coprime_factor
            * Int.sign (leading_coefficient p.m_internal / p.coprime_factor)) p.m_internal,
        m_context := p.m_context } = 1 := by
  rw [unit_part_of_ne_nil _ (map_coefficients_ne_nil
    (fun a => a / p.coprime_factor
      * Int.sign (leading_coefficient p.m_internal / p.coprime_factor)) _ hne)]
  exact Int.sign_eq_one_of_pos (leading_coefficient_normal_form_pos p hp hne)

/-- C8: whenever `normalized(p)` is defined, `unit_part(normalized(p)) = 1` and
`is_normal(normalized(p))` holds, where `is_normal(r)` holds iff `unit_part(r)`
is exactly `+1`. -/
theorem unit_part_normalized (p q : LPPolynomial) (hp : p.well_formed)
    (h : p.normalized = some q) :
    q.unit_part = 1 ∧ q.is_normal = true
      ∧ ∀ r : LPPolynomial, r.is_normal = true ↔ r.unit_part = 1 := by
  have hz := is_zero_eq_false_of_normalized p q h
  have hne := (is_zero_eq_false_iff p).1 hz
  rw [normalized_eq p hp.1 hz] at h
  have hq := Option.some.inj h
  have hu : q.unit_part = 1 := by
    rw [← hq]
    exact unit_part_normal_form p hp.1 hne
  refine ⟨hu, ?_, ?_⟩
  · simp [LPPolynomial.is_normal, hu]
  · intro r
    simp [LPPolynomial.is_normal]

/-- Witness for C8 at `-6 - 3x`, whose normal form is `2 + x`. -/
theorem unit_part_normalized_witness :
    poly_neg_3x_minus_6.well_formed
      ∧ poly_neg_3x_minus_6.normalized
          = some { m_internal := [{ a := 2, p := [] }, { a := 1, p := [{ x := 0, d := 1 }] }],
                   m_context := context_xy }
      ∧ (LPPolynomial.unit_part
          { m_internal := [{ a := 2, p := [] }, { a := 1, p := [{ x := 0, d := 1 }] }],
            m_context := context_xy } = 1
        ∧ LPPolynomial.is_normal
          { m_internal := [{ a := 2, p := [] }, { a := 1, p := [{ x := 0, d := 1 }] }],
            m_context := context_xy } = true
        ∧ ∀ r : LPPolynomial, r.is_normal = true ↔ r.unit_part = 1) :=
  ⟨by decide, by decide,
    unit_part_normalized poly_neg_3x_minus_6 _ (by decide) (by decide)⟩

/-- C9: for every nonzero polynomial `p`, `normalized(p)` is defined, has
coprime coefficients (`coprime_factor` 1) and a positive leading coefficient,
and `coprime_factor(p) * unit * normalized(p)` is structurally equal to `p` for
a unit in `{+1, -1}`. -/
theorem normalized_coprime_positive (p : LPPolynomial) (hp : p.well_formed)
    (hz : is_zero p = false) :
    ∃ q, p.normalized = some q
      ∧ q.coprime_factor = 1
      ∧ 0 < leading_coefficient q.m_internal
      ∧ ∃ unit : Int, (unit = 1 ∨ unit = -1)
          ∧ ∃ r, LPPolynomial.mpz_mul (p.coprime_factor * unit) q = some r ∧ r.eq p = true := by
  have hne := (is_zero_eq_false_iff p).1 hz
  have hq := leading_quotient_ne_zero p hp.1 hne
  have hg := coprime_factor_ne_zero p hp.1 hz
  have hu := sign_eq_one_or_neg_one _ hq
  refine ⟨_, normalized_eq p hp.1 hz, coprime_factor_normal_form p hp.1 hne,
    leading_coefficient_normal_form_pos p hp.1 hne,
    Int.sign (leading_coefficient p.m_internal / p.coprime_factor), hu, ?_⟩
  have hk : p.coprime_factor
      * Int.sign (leading_coefficient p.m_internal / p.coprime_factor) ≠ 0 :=
    mul_ne_zero hg (sign_ne_zero_of_ne_zero _ hq)
  refine ⟨_, mul_mpz_eq _ _ hk (check_order_normal_form p hp.1 hne), ?_⟩
  simp only [LPPolynomial.eq, lp_polynomial_eq, LPPolynomial.get_internal,
    map_coefficients_comp, decide_eq_true_eq]
  apply map_coefficients_id
  intro m hm
  have hd := Int.ediv_mul_cancel (coprime_factor_dvd p m hm)
  have huu : Int.sign (leading_coefficient p.m_internal / p.coprime_factor)
      * Int.sign (leading_coefficient p.m_internal / p.coprime_factor) = 1 := by
    rcases hu with h | h <;> rw [h] <;> decide
  calc m.a / p.coprime_factor
          * Int.sign (leading_coefficient p.m_internal / p.coprime_factor)
          * (p.coprime_factor
              * Int.sign (leading_coefficient p.m_internal / p.coprime_factor))
      = (m.a / p.coprime_factor * p.coprime_factor)
          * (Int.sign (leading_coefficient p.m_internal / p.coprime_factor)
              * Int.sign (leading_coefficient p.m_internal / p.coprime_factor)) := by ring
    _ = m.a := by rw [hd, huu, mul_one]

/-- Witness for C9 at `4x^2 - 6xy + 10y^2`. -/
theorem normalized_coprime_positive_witness :
    poly_quadratic.well_formed ∧ is_zero poly_quadratic = false
      ∧ ∃ q, poly_quadratic.normalized = some q
          ∧ q.coprime_factor = 1
          ∧ 0 < leading_coefficient q.m_internal
          ∧ ∃ unit : Int, (unit = 1 ∨ unit = -1)
              ∧ ∃ r, LPPolynomial.mpz_mul (poly_quadratic.coprime_factor * unit) q = some r
                  ∧ r.eq poly_quadratic = true :=
  ⟨by decide, by decide, normalized_coprime_positive poly_quadratic (by decide) (by decide)⟩

/-- C10: at the zero polynomial `normalized` has no result, so
`normalized(normalized(p)) == normalized(p)` does not hold there.  The content
of the zero polynomial is 0, `coprime_coefficients` takes no shortcut for it
and divides by the constant polynomial 0, although `unit_part` of the zero
polynomial is 1 and dividing the zero polynomial by its unit part would give
the zero polynomial back. -/
theorem normalized_zero_undefined :
    is_zero (LPPolynomial.zero context_xy) = true
      ∧ (LPPolynomial.zero context_xy).well_formed
      ∧ (LPPolynomial.zero context_xy).coprime_factor = 0
      ∧ (LPPolynomial.zero context_xy).unit_part = 1
      ∧ (LPPolynomial.zero context_xy).mul_mpz (LPPolynomial.zero context_xy).unit_part
          = some (LPPolynomial.zero context_xy)
      ∧ (LPPolynomial.zero context_xy).coprime_coefficients = none
      ∧ (LPPolynomial.zero context_xy).normalized = none
      ∧ ¬ ∃ q r, (LPPolynomial.zero context_xy).normalized = some q
            ∧ q.normalized = some r ∧ r.eq q = true := by
  refine ⟨rfl, by decide, rfl, rfl, by decide, rfl, rfl, ?_⟩
  rintro ⟨q, r, h, _⟩
  have h0 : (LPPolynomial.zero context_xy).normalized = none := rfl
  rw [h0] at h
  exact Option.noConfusion h

/-- On every nonzero polynomial `p` the method `normalized` is idempotent:
`normalized(p)` is defined, `normalized(normalized(p))` is defined and
structurally equal to `normalized(p)`. -/
theorem normalized_idempotent (p : LPPolynomial) (hp : p.well_formed)
    (hz : is_zero p = false) :
    ∃ q, p.normalized = some q ∧ ∃ r, q.normalized = some r ∧ r.eq q = true := by
  have hne := (is_zero_eq_false_iff p).1 hz
  have hnf := check_order_normal_form p hp.1 hne
  have hnz := map_coefficients_ne_nil
    (fun a => a / p.coprime_factor
      * Int.sign (leading_coefficient p.m_internal / p.coprime_factor)) _ hne
  refine ⟨_, normalized_eq p hp.1 hz, _,
    normalized_eq _ hnf ((is_zero_eq_false_iff _).2 hnz), ?_⟩
  simp only [LPPolynomial.eq, lp_polynomial_eq, LPPolynomial.get_internal, decide_eq_true_eq]
  rw [coprime_factor_normal_form p hp.1 hne]
  apply map_coefficients_id
  intro m _
  rw [Int.ediv_one, Int.ediv_one,
    Int.sign_eq_one_of_pos (leading_coefficient_normal_form_pos p hp.1 hne), mul_one]

/-- The idempotence of `normalized` at `-6 - 3x`. -/
theorem normalized_idempotent_witness :
    poly_neg_3x_minus_6.well_formed ∧ is_zero poly_neg_3x_minus_6 = false
      ∧ ∃ q, poly_neg_3x_minus_6.normalized = some q
          ∧ ∃ r, q.normalized = some r ∧ r.eq q = true :=
  ⟨by decide, by decide, normalized_idempotent poly_neg_3x_minus_6 (by decide) (by decide)⟩

end carl

namespace carl

/-! ## Coefficient extraction: `coeff` -/

theorem found_iff (x e : Nat) (m : lp_monomial_t) :
    LPPolynomial.found x e m = true ↔ ({ x := x, d := e } : power_t) ∈ m.p := by
  unfold LPPolynomial.found
  rw [List.any_eq_true]
  constructor
  · rintro ⟨q, hq, h⟩
    simp only [Bool.and_eq_true, beq_iff_eq] at h
    obtain ⟨qx, qd⟩ := q
    simp only at h
    rw [← h.1, ← h.2]
    exact hq
  · intro h
    exact ⟨_, h, by simp⟩

theorem nodup_of_decreasing (l : List power_t) (h : l.Pairwise (fun q r => r.x < q.x)) :
    l.Nodup := by
  unfold List.Nodup
  apply List.Pairwise.imp _ h
  intro a b hab heq
  rw [heq] at hab
  exact Nat.lt_irrefl _ hab

theorem filter_eq_erase (x e : Nat) (l : List power_t)
    (h : l.Pairwise (fun q r => r.x < q.x)) :
    l.filter (fun q => !(q.x == x && q.d == e)) = l.erase { x := x, d := e } := by
  rw [(nodup_of_decreasing l h).erase_eq_filter]
  apply List.filter_congr
  intro q _
  obtain ⟨qx, qd⟩ := q
  rw [Bool.eq_iff_iff]
  simp only [Bool.not_eq_true', Bool.and_eq_false_iff, beq_eq_false_iff_ne, bne_iff_ne, ne_eq,
    power_t.mk.injEq, not_and]
  tauto

theorem getCoeff_of_mem (x e : Nat) (m : lp_monomial_t) (acc : List lp_monomial_t)
    (hm : m.p.Pairwise (fun q r => r.x < q.x)) (hmem : ({ x := x, d := e } : power_t) ∈ m.p) :
    LPPolynomial.getCoeff x e m (some acc)
      = some (acc ++ [{ a := m.a, p := m.p.erase { x := x, d := e } }]) := by
  unfold LPPolynomial.getCoeff
  simp only [(found_iff x e m).2 hmem, if_true]
  rw [filter_eq_erase x e m.p hm, List.length_erase_of_mem hmem]
  simp

theorem getCoeff_of_not_mem (x e : Nat) (m : lp_monomial_t) (acc : List lp_monomial_t)
    (hmem : ({ x := x, d := e } : power_t) ∉ m.p) :
    LPPolynomial.getCoeff x e m (some acc) = some acc := by
  unfold LPPolynomial.getCoeff
  have : LPPolynomial.found x e m = false := by
    rw [← Bool.not_eq_true, found_iff]
    exact hmem
  simp [this]

theorem traverse_getCoeff (x e : Nat) (A : lp_polynomial_t) (acc : List lp_monomial_t)
    (hA : ∀ m ∈ A, m.p.Pairwise (fun q r => r.x < q.x)) :
    lp_polynomial_traverse A (LPPolynomial.getCoeff x e) (some acc)
      = some (acc ++ (A.filter (fun m => decide (({ x := x, d := e } : power_t) ∈ m.p))).map
          (fun m => { a := m.a, p := m.p.erase { x := x, d := e } })) := by
  unfold lp_polynomial_traverse
  induction A generalizing acc with
  | nil => simp
  | cons m t ih =>
    rw [List.foldl_cons]
    by_cases hmem : ({ x := x, d := e } : power_t) ∈ m.p
    · rw [getCoeff_of_mem x e m acc (hA m (by simp)) hmem,
        ih _ (fun k hk => hA k (by simp [hk]))]
      simp [List.filter_cons, hmem]
    · rw [getCoeff_of_not_mem x e m acc hmem, ih _ (fun k hk => hA k (by simp [hk]))]
      simp [List.filter_cons, hmem]

theorem power_cmp_erase (pw : power_t) (a b : List power_t)
    (ha : a.Pairwise (fun q r => r.x < q.x)) (hb : b.Pairwise (fun q r => r.x < q.x))
    (hma : pw ∈ a) (hmb : pw ∈ b) (h : power_cmp a b = Ordering.lt) :
    power_cmp (a.erase pw) (b.erase pw) = Ordering.lt := by
  induction a generalizing b with
  | nil => simp at hma
  | cons q qs ih =>
    cases b with
    | nil => simp at hmb
    | cons r rs =>
      rw [List.pairwise_cons] at ha hb
      by_cases hq : q = pw
      · subst hq
        by_cases hr : r = q
        · subst hr
          rw [List.erase_cons_head, List.erase_cons_head]
          simpa [power_cmp] using h
        · have hmem : q ∈ rs := by
            rcases List.mem_cons.1 hmb with h1 | h1
            · exact absurd h1.symm hr
            · exact h1
          have hlt := hb.1 q hmem
          rw [List.erase_cons_head, List.erase_cons_tail (by simpa using hr)]
          cases qs with
          | nil => rfl
          | cons q2 qs2 =>
            have := ha.1 q2 (by simp)
            simp only [power_cmp]
            rw [if_pos (by omega)]
      · have hmemq : pw ∈ qs := by
          rcases List.mem_cons.1 hma with h1 | h1
          · exact absurd h1.symm hq
          · exact h1
        have hltq := ha.1 pw hmemq
        by_cases hr : r = pw
        · subst hr
          simp only [power_cmp] at h
          rw [if_neg (by omega), if_pos hltq] at h
          exact absurd h (by decide)
        · have hmemr : pw ∈ rs := by
            rcases List.mem_cons.1 hmb with h1 | h1
            · exact absurd h1.symm hr
            · exact h1
          rw [List.erase_cons_tail (by simpa using hq), List.erase_cons_tail (by simpa using hr)]
          simp only [power_cmp] at h ⊢
          split_ifs at h ⊢ <;> first | rfl | exact ih rs ha.2 hb.2 hmemq hmemr h

end carl

namespace carl

theorem check_order_coeff (x e : Nat) (A : lp_polynomial_t) (hA : lp_polynomial_check_order A) :
    lp_polynomial_check_order
      ((A.filter (fun m => decide (({ x := x, d := e } : power_t) ∈ m.p))).map
        (fun m => { a := m.a, p := m.p.erase { x := x, d := e } })) := by
  refine ⟨?_, ?_⟩
  · rw [List.pairwise_map]
    apply List.Pairwise.imp_of_mem _ (List.Pairwise.filter _ hA.1)
    intro m n hm hn hlt
    rw [List.mem_filter, decide_eq_true_eq] at hm hn
    exact power_cmp_erase _ m.p n.p (hA.2 m hm.1).2.1 (hA.2 n hn.1).2.1 hm.2 hn.2 hlt
  · intro m hm
    rw [List.mem_map] at hm
    obtain ⟨n, hn, rfl⟩ := hm
    rw [List.mem_filter] at hn
    obtain ⟨hna, hnp⟩ := hA.2 n hn.1
    exact ⟨hna, List.Pairwise.erase _ hnp.1,
      fun q hq => hnp.2 q (List.mem_of_mem_erase hq)⟩

/-- C1: for every polynomial `p`, variable of its context (with internal index
`x`) and exponent `exp` (every exponent, so in particular every `exp >= 1`),
`coeff` is defined and its monomials are exactly the monomials of `p` that
contain the power `x^exp`, in the same order, each with the same coefficient
and with that power removed from its power list; the other monomials
contribute nothing.  The result is again a well-formed polynomial of the same
context. -/
theorem coeff_monomials (p : LPPolynomial) (var : Variable) (x exp : Nat)
    (hp : p.well_formed) (hv : p.context.lp_variable var = some x) :
    ∃ q, p.coeff var exp = some q
      ∧ q.m_internal
          = (p.m_internal.filter
              (fun m => decide (({ x := x, d := exp } : power_t) ∈ m.p))).map
              (fun m => { a := m.a, p := m.p.erase { x := x, d := exp } })
      ∧ q.m_context = p.m_context
      ∧ q.well_formed := by
  have hco := check_order_coeff x exp p.m_internal hp.1
  have htr := traverse_getCoeff x exp p.m_internal [] (fun m hm => (hp.1.2 m hm).2.1)
  have hfold := foldl_add_monomial_of_check_order _ [] (by simpa using hco)
  refine ⟨LPPolynomial.mk ((p.m_internal.filter
      (fun m => decide (({ x := x, d := exp } : power_t) ∈ m.p))).map
      (fun m => { a := m.a, p := m.p.erase { x := x, d := exp } })) p.m_context,
    ?_, rfl, rfl, hco, ?_⟩
  · unfold LPPolynomial.coeff
    rw [hv]
    simp only [LPPolynomial.get_internal]
    rw [htr]
    simp only [List.nil_append, lp_polynomial_new]
    rw [hfold]
    rfl
  · intro m hm q hq
    simp only [List.mem_map, List.mem_filter] at hm
    obtain ⟨n, hn, rfl⟩ := hm
    exact hp.2 n hn.1 q (List.mem_of_mem_erase hq)

/-- Witness for C1: `coeff(y, 1)` of `4x^2 - 6xy + 10y^2`. -/
theorem coeff_monomials_witness :
    poly_quadratic.well_formed ∧ poly_quadratic.context.lp_variable 1 = some 1
      ∧ ∃ q, poly_quadratic.coeff 1 1 = some q
          ∧ q.m_internal
              = (poly_quadratic.m_internal.filter
                  (fun m => decide (({ x := 1, d := 1 } : power_t) ∈ m.p))).map
                  (fun m => { a := m.a, p := m.p.erase { x := 1, d := 1 } })
          ∧ q.m_context = poly_quadratic.m_context
          ∧ q.well_formed :=
  ⟨by decide, by decide, coeff_monomials poly_quadratic 1 1 1 (by decide) (by decide)⟩

/-- C2: `coeff(x, 0)` of `x + 5` is the zero polynomial, not the part `5` that
is free of `x`: a monomial without `x` carries no power of `x` at all, so the
search for the power `x^0` never succeeds. -/
theorem coeff_exponent_zero :
    poly_x_plus_5.coeff 0 0 = some (LPPolynomial.zero context_xy)
      ∧ poly_x_plus_5.coeff 0 1 = some (LPPolynomial.of_mpz context_xy 1) := by
  decide

end carl

namespace carl

/-! ## Degree queries -/

theorem traverse_push {α : Type} (A : lp_polynomial_t) (g : lp_monomial_t → α) (v : List α) :
    lp_polynomial_traverse A (fun m acc => acc ++ [g m]) v = v ++ A.map g := by
  unfold lp_polynomial_traverse
  induction A generalizing v with
  | nil => simp
  | cons m t ih => rw [List.foldl_cons, ih]; simp

theorem traverse_max (A : lp_polynomial_t) (g : lp_monomial_t → Nat) (v : Nat) :
    lp_polynomial_traverse A (fun m d => max d (g m)) v = max v ((A.map g).foldr max 0) := by
  unfold lp_polynomial_traverse
  induction A generalizing v with
  | nil => simp
  | cons m t ih => rw [List.foldl_cons, ih]; simp [max_assoc]

theorem foldr_max_ge (l : List Nat) : ∀ d ∈ l, d ≤ l.foldr max 0 := by
  induction l with
  | nil => simp
  | cons c t ih =>
    intro d hd
    rcases List.mem_cons.1 hd with rfl | hd
    · exact le_max_left _ _
    · exact le_trans (ih d hd) (le_max_right _ _)

theorem foldr_max_mem (l : List Nat) (h : l ≠ []) : l.foldr max 0 ∈ l := by
  induction l with
  | nil => exact absurd rfl h
  | cons c t ih =>
    by_cases ht : t = []
    · subst ht; simp
    · rw [List.foldr_cons]
      rcases max_choice c (t.foldr max 0) with hc | hc
      · rw [hc]; simp
      · rw [hc]; exact List.mem_cons_of_mem _ (ih ht)

theorem foldr_max_le (l : List Nat) (B : Nat) (h : ∀ d ∈ l, d ≤ B) : l.foldr max 0 ≤ B := by
  induction l with
  | nil => simp
  | cons c t ih =>
    rw [List.foldr_cons]
    exact max_le (h c (by simp)) (ih (fun d hd => h d (by simp [hd])))

theorem foldl_add_exponents (p : List power_t) (init : Nat) :
    p.foldl (fun current_degree q => current_degree + q.d) init
      = init + (p.map (fun q => q.d)).sum := by
  induction p generalizing init with
  | nil => simp
  | cons q t ih => rw [List.foldl_cons, ih]; simp [Nat.add_assoc]

theorem current_total_degree_eq (m : lp_monomial_t) :
    LPPolynomial.current_total_degree m = (m.p.map (fun q => q.d)).sum := by
  unfold LPPolynomial.current_total_degree
  rw [foldl_add_exponents]
  simp

theorem monomial_total_degrees_eq (p : LPPolynomial) :
    p.monomial_total_degrees = p.m_internal.map LPPolynomial.current_total_degree := by
  unfold LPPolynomial.monomial_total_degrees LPPolynomial.get_internal
  rw [traverse_push]
  simp

theorem total_degree_eq (p : LPPolynomial) :
    p.total_degree = (p.m_internal.map LPPolynomial.current_total_degree).foldr max 0 := by
  unfold LPPolynomial.total_degree LPPolynomial.get_internal
  rw [traverse_max]
  simp

/-- C11: `monomial_total_degrees(p)` has exactly one entry per monomial of `p`,
in traversal order, each the sum of the exponents of that monomial;
`total_degree(p)` is the maximum of that list (it bounds every entry and, for a
nonzero `p`, is one of them), and 0 when `p` is the zero polynomial. -/
theorem total_degree_max_monomial_total_degrees (p : LPPolynomial) :
    p.monomial_total_degrees
        = p.m_internal.map (fun m => (m.p.map (fun q => q.d)).sum)
      ∧ p.total_degree = p.monomial_total_degrees.foldr max 0
      ∧ (∀ d ∈ p.monomial_total_degrees, d ≤ p.total_degree)
      ∧ (is_zero p = false → p.total_degree ∈ p.monomial_total_degrees)
      ∧ (is_zero p = true → p.total_degree = 0) := by
  have h1 := monomial_total_degrees_eq p
  have h2 := total_degree_eq p
  rw [← h1] at h2
  refine ⟨?_, h2, ?_, ?_, ?_⟩
  · rw [h1]
    apply List.map_congr_left
    intro m _
    exact current_total_degree_eq m
  · rw [h2]
    exact foldr_max_ge _
  · intro hz
    rw [h2]
    apply foldr_max_mem
    rw [h1]
    have := (is_zero_eq_false_iff p).1 hz
    simpa using this
  · intro hz
    obtain ⟨A, c⟩ := p
    cases A with
    | nil => rfl
    | cons m t => simp [is_zero, LPPolynomial.get_internal, lp_polynomial_is_zero] at hz

/-- Witness for C11 at `3 + 2y - x*y`: the degrees are `[0, 1, 2]`, the total
degree is 2. -/
theorem total_degree_max_monomial_total_degrees_witness :
    poly_mixed.monomial_total_degrees = [0, 1, 2] ∧ poly_mixed.total_degree = 2
      ∧ (poly_mixed.monomial_total_degrees
            = poly_mixed.m_internal.map (fun m => (m.p.map (fun q => q.d)).sum)
          ∧ poly_mixed.total_degree = poly_mixed.monomial_total_degrees.foldr max 0
          ∧ (∀ d ∈ poly_mixed.monomial_total_degrees, d ≤ poly_mixed.total_degree)
          ∧ (is_zero poly_mixed = false →
              poly_mixed.total_degree ∈ poly_mixed.monomial_total_degrees)
          ∧ (is_zero poly_mixed = true → poly_mixed.total_degree = 0)) :=
  ⟨by decide, by decide, total_degree_max_monomial_total_degrees poly_mixed⟩

theorem exponent_of_cons (x : Nat) (q : power_t) (t : List power_t) :
    exponent_of x (q :: t) = (if q.x = x then q.d else 0) + exponent_of x t := by
  simp [exponent_of]

theorem exponent_of_eq_zero (x : Nat) (p : List power_t) (h : ∀ q ∈ p, q.x ≠ x) :
    exponent_of x p = 0 := by
  induction p with
  | nil => rfl
  | cons q t ih =>
    rw [exponent_of_cons, if_neg (h q (by simp)), ih (fun r hr => h r (by simp [hr]))]

theorem exponent_of_mem (p : List power_t) (hp : p.Pairwise (fun q r => r.x < q.x))
    (q : power_t) (hq : q ∈ p) : exponent_of q.x p = q.d := by
  induction p with
  | nil => simp at hq
  | cons r t ih =>
    rw [List.pairwise_cons] at hp
    rw [exponent_of_cons]
    rcases List.mem_cons.1 hq with rfl | hq
    · rw [if_pos rfl, exponent_of_eq_zero _ _ (fun s hs => Nat.ne_of_lt (hp.1 s hs))]
      rfl
    · rw [if_neg (Nat.ne_of_gt (hp.1 q hq)), ih hp.2 hq, Nat.zero_add]

theorem current_degree_of_eq (x : Nat) (p : List power_t)
    (hp : p.Pairwise (fun q r => r.x < q.x)) :
    LPPolynomial.current_degree_of x p = exponent_of x p := by
  induction p with
  | nil => rfl
  | cons r t ih =>
    rw [List.pairwise_cons] at hp
    rw [exponent_of_cons]
    unfold LPPolynomial.current_degree_of
    by_cases hr : r.x = x
    · rw [if_pos hr, if_pos hr, exponent_of_eq_zero _ _
        (fun s hs => hr ▸ Nat.ne_of_lt (hp.1 s hs))]
      rfl
    · rw [if_neg hr, if_neg hr, ih hp.2, Nat.zero_add]

theorem monomial_degrees_eq (p : LPPolynomial) (var : Variable) (x : Nat)
    (hv : p.context.lp_variable var = some x) :
    p.monomial_degrees var
      = some (p.m_internal.map (fun m => LPPolynomial.current_degree_of x m.p)) := by
  unfold LPPolynomial.monomial_degrees LPPolynomial.get_internal
  rw [hv]
  simp only
  rw [traverse_push]
  simp

theorem degree_eq (p : LPPolynomial) (var : Variable) (x : Nat)
    (hv : p.context.lp_variable var = some x) :
    p.degree var
      = some ((p.m_internal.map (fun m => LPPolynomial.current_degree_of x m.p)).foldr max 0) := by
  unfold LPPolynomial.degree LPPolynomial.get_internal
  rw [hv]
  simp only
  rw [traverse_max]
  simp

theorem map_current_degree_of_eq (p : LPPolynomial) (x : Nat) (hp : p.well_formed) :
    p.m_internal.map (fun m => LPPolynomial.current_degree_of x m.p)
      = p.m_internal.map (fun m => exponent_of x m.p) := by
  apply List.map_congr_left
  intro m hm
  exact current_degree_of_eq x m.p (hp.1.2 m hm).2.1

/-- C12: for every polynomial `p` and variable of its context (with internal
index `x`), `monomial_degrees` has one entry per monomial, the exponent of the
variable in that monomial (the exponent of its power when the monomial has one,
0 when it has none), and `degree` is the maximum of that list, which is 0 when
the variable occurs in no monomial, the zero polynomial included. -/
theorem degree_max_monomial_degrees (p : LPPolynomial) (var : Variable) (x : Nat)
    (hp : p.well_formed) (hv : p.context.lp_variable var = some x) :
    p.monomial_degrees var = some (p.m_internal.map (fun m => exponent_of x m.p))
      ∧ (∀ m ∈ p.m_internal,
          (∀ q ∈ m.p, q.x = x → exponent_of x m.p = q.d)
            ∧ ((∀ q ∈ m.p, q.x ≠ x) → exponent_of x m.p = 0))
      ∧ p.degree var = some ((p.m_internal.map (fun m => exponent_of x m.p)).foldr max 0)
      ∧ ((∀ m ∈ p.m_internal, ∀ q ∈ m.p, q.x ≠ x) → p.degree var = some 0) := by
  have hmap := map_current_degree_of_eq p x hp
  refine ⟨?_, ?_, ?_, ?_⟩
  · rw [monomial_degrees_eq p var x hv, hmap]
  · intro m hm
    refine ⟨?_, exponent_of_eq_zero x m.p⟩
    intro q hq hqx
    rw [← hqx]
    exact exponent_of_mem m.p (hp.1.2 m hm).2.1 q hq
  · rw [degree_eq p var x hv, hmap]
  · intro habs
    rw [degree_eq p var x hv, hmap]
    congr 1
    apply Nat.le_antisymm _ (Nat.zero_le _)
    apply foldr_max_le
    intro d hd
    rw [List.mem_map] at hd
    obtain ⟨m, hm, rfl⟩ := hd
    rw [exponent_of_eq_zero x m.p (habs m hm)]

/-- Witness for C12 at `3 + 2y - x*y` and the variable `x`. -/
theorem degree_max_monomial_degrees_witness :
    poly_mixed.well_formed ∧ poly_mixed.context.lp_variable 0 = some 0
      ∧ (poly_mixed.monomial_degrees 0
            = some (poly_mixed.m_internal.map (fun m => exponent_of 0 m.p))
          ∧ (∀ m ∈ poly_mixed.m_internal,
              (∀ q ∈ m.p, q.x = 0 → exponent_of 0 m.p = q.d)
                ∧ ((∀ q ∈ m.p, q.x ≠ 0) → exponent_of 0 m.p = 0))
          ∧ poly_mixed.degree 0
              = some ((poly_mixed.m_internal.map (fun m => exponent_of 0 m.p)).foldr max 0)
          ∧ ((∀ m ∈ poly_mixed.m_internal, ∀ q ∈ m.p, q.x ≠ 0) →
              poly_mixed.degree 0 = some 0)) :=
  ⟨by decide, by decide, degree_max_monomial_degrees poly_mixed 0 0 (by decide) (by decide)⟩

end carl

namespace carl

theorem foldl_max_exponent (p : List power_t) (deg : Nat) :
    p.foldl (fun deg q => if deg < q.d then q.d else deg) deg
      = max deg ((p.map (fun q => q.d)).foldr max 0) := by
  induction p generalizing deg with
  | nil => simp
  | cons q t ih =>
    rw [List.foldl_cons, ih, List.map_cons, List.foldr_cons, ← max_assoc]
    congr 1
    by_cases h : deg < q.d
    · rw [if_pos h, max_eq_right (le_of_lt h)]
    · rw [if_neg h, max_eq_left (not_lt.1 h)]

theorem degree_all_variables_eq (p : LPPolynomial) :
    p.degree_all_variables
      = (p.m_internal.map (fun m => (m.p.map (fun q => q.d)).foldr max 0)).foldr max 0 := by
  unfold LPPolynomial.degree_all_variables LPPolynomial.get_internal
  have hv : (fun (m : lp_monomial_t) (degree : Nat) =>
        m.p.foldl (fun deg q => if deg < q.d then q.d else deg) degree)
      = (fun m degree => max degree ((m.p.map (fun q => q.d)).foldr max 0)) := by
    funext m degree
    exact foldl_max_exponent m.p degree
  rw [hv, traverse_max]
  simp

theorem current_degree_of_le (x : Nat) (p : List power_t) :
    LPPolynomial.current_degree_of x p ≤ (p.map (fun q => q.d)).foldr max 0 := by
  induction p with
  | nil => exact Nat.le_refl _
  | cons q t ih =>
    unfold LPPolynomial.current_degree_of
    rw [List.map_cons, List.foldr_cons]
    by_cases h : q.x = x
    · rw [if_pos h]; exact le_max_left _ _
    · rw [if_neg h]; exact le_trans ih (le_max_right _ _)

theorem exponent_le_sum (p : List power_t) : ∀ q ∈ p, q.d ≤ (p.map (fun q => q.d)).sum := by
  induction p with
  | nil => simp
  | cons r t ih =>
    intro q hq
    rw [List.map_cons, List.sum_cons]
    rcases List.mem_cons.1 hq with rfl | hq
    · exact Nat.le_add_right _ _
    · exact le_trans (ih q hq) (Nat.le_add_left _ _)

/-- C13: `degree_all_variables(p)` is the maximum exponent of any single
variable in any monomial of `p` (it bounds every exponent and, unless it is 0,
is the exponent of some power of `p`); hence it is at least `degree(p, v)` for
every variable `v` for which the degree is defined, and at most
`total_degree(p)`. -/
theorem degree_all_variables_bounds (p : LPPolynomial) :
    (∀ m ∈ p.m_internal, ∀ q ∈ m.p, q.d ≤ p.degree_all_variables)
      ∧ (p.degree_all_variables = 0
          ∨ ∃ m ∈ p.m_internal, ∃ q ∈ m.p, q.d = p.degree_all_variables)
      ∧ (∀ (var : Variable) (d : Nat), p.degree var = some d → d ≤ p.degree_all_variables)
      ∧ p.degree_all_variables ≤ p.total_degree := by
  have hdav := degree_all_variables_eq p
  have hbound : ∀ m ∈ p.m_internal, ∀ q ∈ m.p, q.d ≤ p.degree_all_variables := by
    intro m hm q hq
    rw [hdav]
    apply le_trans _ (foldr_max_ge _ _ (List.mem_map_of_mem _ hm))
    exact foldr_max_ge _ _ (List.mem_map_of_mem (fun q => q.d) hq)
  refine ⟨hbound, ?_, ?_, ?_⟩
  · by_cases hA : p.m_internal.map (fun m => (m.p.map (fun q => q.d)).foldr max 0) = []
    · left; rw [hdav, hA]; rfl
    · have hmem := foldr_max_mem _ hA
      rw [← hdav, List.mem_map] at hmem
      obtain ⟨m, hm, hmd⟩ := hmem
      by_cases hp : m.p.map (fun q => q.d) = []
      · left; rw [← hmd, hp]; rfl
      · have hmem2 := foldr_max_mem _ hp
        rw [hmd, List.mem_map] at hmem2
        obtain ⟨q, hq, hqd⟩ := hmem2
        exact Or.inr ⟨m, hm, q, hq, hqd⟩
  · intro var d hd
    cases hv : p.context.lp_variable var with
    | none =>
      unfold LPPolynomial.degree at hd
      rw [hv] at hd
      exact Option.noConfusion hd
    | some x =>
      rw [degree_eq p var x hv] at hd
      rw [← Option.some.inj hd, hdav]
      apply foldr_max_le
      intro e he
      rw [List.mem_map] at he
      obtain ⟨m, hm, rfl⟩ := he
      exact le_trans (current_degree_of_le x m.p)
        (foldr_max_ge _ _ (List.mem_map_of_mem _ hm))
  · rw [hdav, total_degree_eq]
    apply foldr_max_le
    intro e he
    rw [List.mem_map] at he
    obtain ⟨m, hm, rfl⟩ := he
    apply le_trans _ (foldr_max_ge _ _ (List.mem_map_of_mem _ hm))
    rw [current_total_degree_eq]
    apply foldr_max_le
    intro d hd
    rw [List.mem_map] at hd
    obtain ⟨q, hq, rfl⟩ := hd
    exact exponent_le_sum m.p q hq

/-- Witness for C13 at `4x^2 - 6xy + 10y^2`: the value is 2. -/
theorem degree_all_variables_bounds_witness :
    poly_quadratic.degree_all_variables = 2 ∧ poly_quadratic.degree 1 = some 2
      ∧ poly_quadratic.total_degree = 2
      ∧ ((∀ m ∈ poly_quadratic.m_internal, ∀ q ∈ m.p,
            q.d ≤ poly_quadratic.degree_all_variables)
          ∧ (poly_quadratic.degree_all_variables = 0
              ∨ ∃ m ∈ poly_quadratic.m_internal, ∃ q ∈ m.p,
                  q.d = poly_quadratic.degree_all_variables)
          ∧ (∀ (var : Variable) (d : Nat), poly_quadratic.degree var = some d →
              d ≤ poly_quadratic.degree_all_variables)
          ∧ poly_quadratic.degree_all_variables ≤ poly_quadratic.total_degree) :=
  ⟨by decide, by decide, by decide, degree_all_variables_bounds poly_quadratic⟩

end carl

namespace carl

/-! ## The coefficient of a power product -/

theorem coeff_at_nil (k : List power_t) : coeff_at [] k = 0 := rfl

theorem coeff_at_cons (m : lp_monomial_t) (t : lp_polynomial_t) (k : List power_t) :
    coeff_at (m :: t) k = (if m.p = k then m.a else 0) + coeff_at t k := by
  simp [coeff_at]

theorem coeff_at_append (A B : lp_polynomial_t) (k : List power_t) :
    coeff_at (A ++ B) k = coeff_at A k + coeff_at B k := by
  simp [coeff_at]

theorem coeff_at_eq_zero (A : lp_polynomial_t) (k : List power_t) (h : ∀ m ∈ A, m.p ≠ k) :
    coeff_at A k = 0 := by
  induction A with
  | nil => rfl
  | cons m t ih =>
    rw [coeff_at_cons, if_neg (h m (by simp)), ih (fun n hn => h n (by simp [hn]))]
    rfl

theorem power_cmp_ne_of_lt (a b : List power_t) (h : power_cmp a b = Ordering.lt) : a ≠ b := by
  intro hab
  rw [hab, power_cmp_self] at h
  exact Ordering.noConfusion h

theorem coeff_at_of_mem (A : lp_polynomial_t)
    (hA : A.Pairwise (fun m n => power_cmp m.p n.p = Ordering.lt))
    (m : lp_monomial_t) (hm : m ∈ A) : coeff_at A m.p = m.a := by
  induction A with
  | nil => simp at hm
  | cons h t ih =>
    rw [List.pairwise_cons] at hA
    rw [coeff_at_cons]
    rcases List.mem_cons.1 hm with rfl | hm
    · rw [if_pos rfl, coeff_at_eq_zero t _
        (fun n hn => (power_cmp_ne_of_lt _ _ (hA.1 n hn)).symm)]
      simp
    · rw [if_neg (power_cmp_ne_of_lt _ _ (hA.1 m hm)), ih hA.2 hm]
      simp

/-! ## Constant part, variables, comparison with an integer -/

theorem traverse_constant_part (A : lp_polynomial_t) (part : Int) :
    lp_polynomial_traverse A (fun m part => if m.p.length = 0 then part + m.a else part) part
      = part + coeff_at A [] := by
  unfold lp_polynomial_traverse
  induction A generalizing part with
  | nil => simp [coeff_at]
  | cons m t ih =>
    rw [List.foldl_cons, ih, coeff_at_cons]
    by_cases h : m.p = []
    · simp [h, add_assoc]
    · have hl : ¬ m.p.length = 0 := fun hl => h (List.length_eq_zero.1 hl)
      simp [h, hl]

theorem constant_part_eq (p : LPPolynomial) : p.constant_part = coeff_at p.m_internal [] := by
  unfold LPPolynomial.constant_part LPPolynomial.get_internal
  rw [traverse_constant_part]
  simp

theorem coeff_at_eq_sum_filter (A : lp_polynomial_t) (k : List power_t) :
    coeff_at A k = ((A.filter (fun m => decide (m.p = k))).map (fun m => m.a)).sum := by
  induction A with
  | nil => rfl
  | cons m t ih =>
    rw [coeff_at_cons, ih]
    by_cases h : m.p = k
    · simp [List.filter_cons, h]
    · simp [List.filter_cons, h]

/-- C14: `constant_part(p)` is the sum of the coefficients of the monomials of
`p` whose power list is empty (0 if there is none); in a canonical polynomial
it is the coefficient of the constant monomial, which is unique. -/
theorem constant_part_sum (p : LPPolynomial) (hp : p.well_formed) :
    p.constant_part
        = ((p.m_internal.filter (fun m => decide (m.p = []))).map (fun m => m.a)).sum
      ∧ ((∀ m ∈ p.m_internal, m.p ≠ []) → p.constant_part = 0)
      ∧ (∀ m ∈ p.m_internal, m.p = [] →
          p.constant_part = m.a ∧ ∀ n ∈ p.m_internal, n.p = [] → n = m) := by
  refine ⟨?_, ?_, ?_⟩
  · rw [constant_part_eq, coeff_at_eq_sum_filter]
  · intro h
    rw [constant_part_eq]
    exact coeff_at_eq_zero _ _ h
  · intro m hm hmp
    have hc := coeff_at_of_mem p.m_internal hp.1.1 m hm
    rw [hmp] at hc
    refine ⟨by rw [constant_part_eq, hc], ?_⟩
    intro n hn hnp
    have hcn := coeff_at_of_mem p.m_internal hp.1.1 n hn
    rw [hnp, hc] at hcn
    obtain ⟨na, np⟩ := n
    obtain ⟨ma, mp⟩ := m
    simp only at hnp hmp hcn
    rw [hnp, hmp, hcn]

/-- Witness for C14 at `3 + 2y - x*y`, whose constant part is 3. -/
theorem constant_part_sum_witness :
    poly_mixed.well_formed ∧ poly_mixed.constant_part = 3
      ∧ (poly_mixed.constant_part
            = ((poly_mixed.m_internal.filter (fun m => decide (m.p = []))).map
                (fun m => m.a)).sum
          ∧ ((∀ m ∈ poly_mixed.m_internal, m.p ≠ []) → poly_mixed.constant_part = 0)
          ∧ (∀ m ∈ poly_mixed.m_internal, m.p = [] →
              poly_mixed.constant_part = m.a
                ∧ ∀ n ∈ poly_mixed.m_internal, n.p = [] → n = m)) :=
  ⟨by decide, by decide, constant_part_sum poly_mixed (by decide)⟩

theorem mem_get_variables (A : lp_polynomial_t) (x : Nat) :
    x ∈ lp_polynomial_get_variables A ↔ ∃ m ∈ A, ∃ q ∈ m.p, q.x = x := by
  unfold lp_polynomial_get_variables
  induction A with
  | nil => simp
  | cons m t ih =>
    rw [List.foldr_cons, List.mem_append, ih, List.mem_map]
    constructor
    · rintro (⟨q, hq, hx⟩ | ⟨n, hn, q, hq, hx⟩)
      · exact ⟨m, by simp, q, hq, hx⟩
      · exact ⟨n, by simp [hn], q, hq, hx⟩
    · rintro ⟨n, hn, q, hq, hx⟩
      rcases List.mem_cons.1 hn with rfl | hn
      · exact Or.inl ⟨q, hq, hx⟩
      · exact Or.inr ⟨n, hn, q, hq, hx⟩

/-- C15: `has(p, v)` is true iff some monomial of `p` has the variable (its
internal index `x`) in its power list; when the variable is not known to the
context of `p`, `has` returns false, as an ordinary result. -/
theorem has_iff (p : LPPolynomial) (var : Variable) :
    (∀ x, p.context.lp_variable_opt var = some x →
        (p.has var = true ↔ ∃ m ∈ p.m_internal, ∃ q ∈ m.p, q.x = x))
      ∧ (p.context.lp_variable_opt var = none → p.has var = false) := by
  refine ⟨?_, ?_⟩
  · intro x hx
    unfold LPPolynomial.has
    simp only [hx, lp_variable_list_contains, LPPolynomial.get_internal]
    rw [← mem_get_variables p.m_internal x]
    simp
  · intro hx
    unfold LPPolynomial.has
    simp only [hx]

/-- Witness for C15 at `x + 5`: it has `x`, it does not have `y`, and the
unknown variable 7 gives false. -/
theorem has_iff_witness :
    poly_x_plus_5.has 0 = true ∧ poly_x_plus_5.has 1 = false ∧ poly_x_plus_5.has 7 = false
      ∧ poly_x_plus_5.context.lp_variable_opt 7 = none
      ∧ ((∀ x, poly_x_plus_5.context.lp_variable_opt 7 = some x →
            (poly_x_plus_5.has 7 = true
              ↔ ∃ m ∈ poly_x_plus_5.m_internal, ∃ q ∈ m.p, q.x = x))
          ∧ (poly_x_plus_5.context.lp_variable_opt 7 = none → poly_x_plus_5.has 7 = false)) :=
  ⟨by decide, by decide, by decide, by decide, has_iff poly_x_plus_5 7⟩

end carl

namespace carl

theorem is_constant_cases (A : lp_polynomial_t) (hA : lp_polynomial_check_order A)
    (h : lp_polynomial_is_constant A = true) :
    A = [] ∨ ∃ c : Int, c ≠ 0 ∧ A = [{ a := c, p := [] }] := by
  match A, hA, h with
  | [], _, _ => exact Or.inl rfl
  | [m], hA, h =>
    right
    obtain ⟨ma, mp⟩ := m
    simp [lp_polynomial_is_constant] at h
    subst h
    exact ⟨ma, (hA.2 { a := ma, p := [] } (by simp)).1, rfl⟩
  | m :: n :: t, hA, h =>
    exfalso
    simp [lp_polynomial_is_constant] at h
    have hlt := (List.pairwise_cons.1 hA.1).1 n (by simp)
    rw [h.1, h.2.1] at hlt
    exact absurd hlt (by decide)

theorem eq_mpz_iff_constant (p : LPPolynomial) (n : Int) :
    p.eq_mpz n = true ↔ is_constant p = true ∧ p.constant_part = n := by
  unfold LPPolynomial.eq_mpz is_number
  cases h : is_constant p <;> simp

theorem eq_mpz_of_construct (c : LPContext) (n : Int) :
    LPPolynomial.eq_mpz { m_internal := construct_lp_poly n, m_context := c } n = true := by
  rw [eq_mpz_iff_constant, constant_part_eq]
  unfold construct_lp_poly
  by_cases hn : n = 0
  · subst hn
    exact ⟨rfl, rfl⟩
  · rw [if_neg hn]
    refine ⟨rfl, ?_⟩
    simp [coeff_at]

/-- C16: `p == n` is true iff `p` is a constant polynomial whose value is `n`,
that is iff `p` is structurally the constant polynomial `n` of its context; the
polynomial built from the integer 5 equals 5, a non-constant polynomial is
unequal to every integer, and `n == p` gives the result of `p == n`. -/
theorem eq_mpz_iff (p : LPPolynomial) (n : Int) (hp : p.well_formed) :
    (p.eq_mpz n = true ↔ is_constant p = true ∧ p.constant_part = n)
      ∧ (p.eq_mpz n = true ↔ p.eq (LPPolynomial.of_mpz p.context n) = true)
      ∧ (LPPolynomial.of_mpz p.context 5).eq_mpz 5 = true
      ∧ (is_constant p = false → p.eq_mpz n = false)
      ∧ LPPolynomial.mpz_eq n p = p.eq_mpz n := by
  refine ⟨eq_mpz_iff_constant p n, ?_, eq_mpz_of_construct _ 5, ?_, rfl⟩
  · simp only [LPPolynomial.eq, lp_polynomial_eq, LPPolynomial.get_internal,
      LPPolynomial.of_mpz, decide_eq_true_eq]
    constructor
    · intro h
      obtain ⟨hc, hv⟩ := (eq_mpz_iff_constant p n).1 h
      rw [constant_part_eq] at hv
      rcases is_constant_cases p.m_internal hp.1 hc with hA | ⟨c, hc0, hA⟩
      · rw [hA] at hv ⊢
        rw [coeff_at_nil] at hv
        rw [← hv]
        rfl
      · rw [hA] at hv ⊢
        simp [coeff_at] at hv
        rw [← hv]
        simp [construct_lp_poly, hc0]
    · intro h
      obtain ⟨A, c⟩ := p
      simp only at h
      subst h
      exact eq_mpz_of_construct c n
  · intro hc
    unfold LPPolynomial.eq_mpz is_number
    simp [hc]

/-- Witness for C16: `x + 5` is not a constant, so it is unequal to 5. -/
theorem eq_mpz_iff_witness :
    poly_x_plus_5.well_formed ∧ is_constant poly_x_plus_5 = false
      ∧ poly_x_plus_5.eq_mpz 5 = false
      ∧ ((poly_x_plus_5.eq_mpz 5 = true
            ↔ is_constant poly_x_plus_5 = true ∧ poly_x_plus_5.constant_part = 5)
          ∧ (poly_x_plus_5.eq_mpz 5 = true
              ↔ poly_x_plus_5.eq (LPPolynomial.of_mpz poly_x_plus_5.context 5) = true)
          ∧ (LPPolynomial.of_mpz poly_x_plus_5.context 5).eq_mpz 5 = true
          ∧ (is_constant poly_x_plus_5 = false → poly_x_plus_5.eq_mpz 5 = false)
          ∧ LPPolynomial.mpz_eq 5 poly_x_plus_5 = poly_x_plus_5.eq_mpz 5) :=
  ⟨by decide, by decide, by decide, eq_mpz_iff poly_x_plus_5 5 (by decide)⟩

end carl

namespace carl

/-! ## The canonical order is a strict total order -/

theorem power_cmp_eq (a b : List power_t) (h : power_cmp a b = Ordering.eq) : a = b := by
  induction a generalizing b with
  | nil =>
    cases b with
    | nil => rfl
    | cons _ _ => simp [power_cmp] at h
  | cons q qs ih =>
    cases b with
    | nil => simp [power_cmp] at h
    | cons r rs =>
      simp only [power_cmp] at h
      split_ifs at h with h1 h2 h3 h4
      have ht := ih rs h
      obtain ⟨qx, qd⟩ := q
      obtain ⟨rx, rd⟩ := r
      simp only at h1 h2 h3 h4
      have hx : qx = rx := by omega
      have hd : qd = rd := by omega
      rw [hx, hd, ht]

theorem power_cmp_swap_gt (a b : List power_t) (h : power_cmp a b = Ordering.gt) :
    power_cmp b a = Ordering.lt := by
  induction a generalizing b with
  | nil =>
    cases b with
    | nil => simp [power_cmp] at h
    | cons _ _ => simp [power_cmp] at h
  | cons q qs ih =>
    cases b with
    | nil => rfl
    | cons r rs =>
      simp only [power_cmp] at h ⊢
      split_ifs at h ⊢ <;> first | rfl | omega | exact ih _ h

theorem power_cmp_trans (a b c : List power_t) (hab : power_cmp a b = Ordering.lt)
    (hbc : power_cmp b c = Ordering.lt) : power_cmp a c = Ordering.lt := by
  induction a generalizing b c with
  | nil =>
    cases c with
    | nil =>
      cases b with
      | nil => simp [power_cmp] at hab
      | cons _ _ => simp [power_cmp] at hbc
    | cons _ _ => rfl
  | cons q qs ih =>
    cases b with
    | nil => simp [power_cmp] at hab
    | cons r rs =>
      cases c with
      | nil => simp [power_cmp] at hbc
      | cons s ss =>
        simp only [power_cmp] at hab hbc ⊢
        split_ifs at hab hbc ⊢ <;> first | rfl | omega | exact ih _ _ hab hbc

/-! ## Merging a monomial into a canonical list -/

theorem mem_add_ordered (m : lp_monomial_t) (A : lp_polynomial_t) :
    ∀ n ∈ coefficient_add_ordered_monomial m A,
      (n.p = m.p ∨ ∃ k ∈ A, k.p = n.p) ∧ (n.a ≠ 0 ∨ n ∈ A) := by
  induction A with
  | nil =>
    intro n hn
    unfold coefficient_add_ordered_monomial at hn
    by_cases hm : m.a = 0
    · simp [hm] at hn
    · simp only [hm, if_false, List.mem_singleton] at hn
      subst hn
      exact ⟨Or.inl rfl, Or.inl hm⟩
  | cons h t ih =>
    intro n hn
    unfold coefficient_add_ordered_monomial at hn
    cases hc : power_cmp m.p h.p with
    | lt =>
      simp only [hc] at hn
      by_cases hm : m.a = 0
      · simp only [hm, if_true] at hn
        exact ⟨Or.inr ⟨n, hn, rfl⟩, Or.inr hn⟩
      · simp only [hm, if_false] at hn
        rcases List.mem_cons.1 hn with rfl | hn
        · exact ⟨Or.inl rfl, Or.inl hm⟩
        · exact ⟨Or.inr ⟨n, hn, rfl⟩, Or.inr hn⟩
    | eq =>
      simp only [hc] at hn
      by_cases hs : h.a + m.a = 0
      · simp only [hs, if_true] at hn
        exact ⟨Or.inr ⟨n, List.mem_cons_of_mem _ hn, rfl⟩, Or.inr (List.mem_cons_of_mem _ hn)⟩
      · simp only [hs, if_false] at hn
        rcases List.mem_cons.1 hn with rfl | hn
        · exact ⟨Or.inr ⟨h, by simp, rfl⟩, Or.inl hs⟩
        · exact ⟨Or.inr ⟨n, List.mem_cons_of_mem _ hn, rfl⟩,
            Or.inr (List.mem_cons_of_mem _ hn)⟩
    | gt =>
      simp only [hc] at hn
      rcases List.mem_cons.1 hn with rfl | hn
      · exact ⟨Or.inr ⟨n, by simp, rfl⟩, Or.inr (by simp)⟩
      · obtain ⟨h1, h2⟩ := ih n hn
        refine ⟨?_, ?_⟩
        · rcases h1 with h1 | ⟨k, hk, hkp⟩
          · exact Or.inl h1
          · exact Or.inr ⟨k, List.mem_cons_of_mem _ hk, hkp⟩
        · rcases h2 with h2 | h2
          · exact Or.inl h2
          · exact Or.inr (List.mem_cons_of_mem _ h2)

theorem check_order_add_ordered (m : lp_monomial_t) (A : lp_polynomial_t)
    (hA : lp_polynomial_check_order A) (hm : powers_ordered m.p) :
    lp_polynomial_check_order (coefficient_add_ordered_monomial m A) := by
  induction A with
  | nil =>
    unfold coefficient_add_ordered_monomial
    by_cases h0 : m.a = 0
    · simp only [h0, if_true]; exact hA
    · simp only [h0, if_false]
      exact ⟨List.pairwise_singleton _ _, fun n hn => by
        rw [List.mem_singleton] at hn; subst hn; exact ⟨h0, hm⟩⟩
  | cons h t ih =>
    have hpw := List.pairwise_cons.1 hA.1
    have ht : lp_polynomial_check_order t :=
      ⟨hpw.2, fun n hn => hA.2 n (List.mem_cons_of_mem _ hn)⟩
    unfold coefficient_add_ordered_monomial
    cases hc : power_cmp m.p h.p with
    | lt =>
      simp only
      by_cases h0 : m.a = 0
      · simp only [h0, if_true]; exact hA
      · simp only [h0, if_false]
        refine ⟨List.pairwise_cons.2 ⟨?_, hA.1⟩, ?_⟩
        · intro n hn
          rcases List.mem_cons.1 hn with rfl | hn
          · exact hc
          · exact power_cmp_trans _ _ _ hc (hpw.1 n hn)
        · intro n hn
          rcases List.mem_cons.1 hn with rfl | hn
          · exact ⟨h0, hm⟩
          · exact hA.2 n hn
    | eq =>
      simp only
      by_cases hs : h.a + m.a = 0
      · simp only [hs, if_true]; exact ht
      · simp only [hs, if_false]
        refine ⟨List.pairwise_cons.2 ⟨hpw.1, hpw.2⟩, ?_⟩
        intro n hn
        rcases List.mem_cons.1 hn with rfl | hn
        · exact ⟨hs, (hA.2 h (by simp)).2⟩
        · exact hA.2 n (List.mem_cons_of_mem _ hn)
    | gt =>
      simp only
      have hrec := ih ht
      refine ⟨List.pairwise_cons.2 ⟨?_, hrec.1⟩, ?_⟩
      · intro n hn
        rcases (mem_add_ordered m t n hn).1 with h1 | ⟨k, hk, hkp⟩
        · rw [h1]; exact power_cmp_swap_gt _ _ hc
        · rw [← hkp]; exact hpw.1 k hk
      · intro n hn
        rcases List.mem_cons.1 hn with rfl | hn
        · exact hA.2 n (by simp)
        · exact hrec.2 n hn

theorem coeff_at_add_ordered (m : lp_monomial_t) (A : lp_polynomial_t) (k : List power_t) :
    coeff_at (coefficient_add_ordered_monomial m A) k
      = coeff_at A k + (if m.p = k then m.a else 0) := by
  induction A with
  | nil =>
    unfold coefficient_add_ordered_monomial
    by_cases h0 : m.a = 0
    · simp [h0, coeff_at]
    · simp [h0, coeff_at]
  | cons h t ih =>
    unfold coefficient_add_ordered_monomial
    cases hc : power_cmp m.p h.p with
    | lt =>
      simp only
      by_cases h0 : m.a = 0
      · simp [h0]
      · simp only [h0, if_false]
        rw [coeff_at_cons]
        ring
    | eq =>
      have hp := power_cmp_eq _ _ hc
      simp only
      by_cases hs : h.a + m.a = 0
      · simp only [hs, if_true]
        rw [coeff_at_cons, hp]
        by_cases hk : h.p = k
        · simp only [hk, if_true]
          linarith
        · simp [hk]
      · simp only [hs, if_false]
        rw [coeff_at_cons, coeff_at_cons, hp]
        by_cases hk : h.p = k
        · simp only [hk, if_true]
          ring
        · simp [hk]
    | gt =>
      simp only
      rw [coeff_at_cons, coeff_at_cons, ih]
      ring

end carl

namespace carl

/-! ## Canonical lists are determined by their coefficients -/

theorem check_order_tail (m : lp_monomial_t) (t : lp_polynomial_t)
    (h : lp_polynomial_check_order (m :: t)) : lp_polynomial_check_order t :=
  ⟨(List.pairwise_cons.1 h.1).2, fun n hn => h.2 n (List.mem_cons_of_mem _ hn)⟩

theorem coeff_at_head (m : lp_monomial_t) (t : lp_polynomial_t)
    (h : lp_polynomial_check_order (m :: t)) : coeff_at (m :: t) m.p = m.a :=
  coeff_at_of_mem (m :: t) h.1 m (by simp)

theorem coeff_at_below_head (k : List power_t) (m : lp_monomial_t) (t : lp_polynomial_t)
    (h : lp_polynomial_check_order (m :: t)) (hk : power_cmp k m.p = Ordering.lt) :
    coeff_at (m :: t) k = 0 := by
  apply coeff_at_eq_zero
  intro n hn
  rcases List.mem_cons.1 hn with rfl | hn
  · exact (power_cmp_ne_of_lt _ _ hk).symm
  · exact (power_cmp_ne_of_lt _ _
      (power_cmp_trans _ _ _ hk ((List.pairwise_cons.1 h.1).1 n hn))).symm

theorem check_order_ext (A B : lp_polynomial_t) (hA : lp_polynomial_check_order A)
    (hB : lp_polynomial_check_order B) (h : ∀ k, coeff_at A k = coeff_at B k) : A = B := by
  induction A generalizing B with
  | nil =>
    cases B with
    | nil => rfl
    | cons b t =>
      have := h b.p
      rw [coeff_at_head b t hB, coeff_at_nil] at this
      exact absurd this.symm (hB.2 b (by simp)).1
  | cons a s ih =>
    cases B with
    | nil =>
      have := h a.p
      rw [coeff_at_head a s hA, coeff_at_nil] at this
      exact absurd this (hA.2 a (by simp)).1
    | cons b t =>
      cases hc : power_cmp a.p b.p with
      | lt =>
        have := h a.p
        rw [coeff_at_head a s hA, coeff_at_below_head a.p b t hB hc] at this
        exact absurd this (hA.2 a (by simp)).1
      | gt =>
        have := h b.p
        rw [coeff_at_head b t hB,
          coeff_at_below_head b.p a s hA (power_cmp_swap_gt _ _ hc)] at this
        exact absurd this.symm (hB.2 b (by simp)).1
      | eq =>
        have hp := power_cmp_eq _ _ hc
        have ha := h a.p
        rw [coeff_at_head a s hA, hp, coeff_at_head b t hB] at ha
        have hab : a = b := by
          obtain ⟨aa, ap⟩ := a
          obtain ⟨ba, bp⟩ := b
          simp only at hp ha
          rw [hp, ha]
        subst hab
        have htail : ∀ k, coeff_at s k = coeff_at t k := by
          intro k
          have := h k
          rw [coeff_at_cons, coeff_at_cons] at this
          exact add_left_cancel this
        rw [ih t (check_order_tail a s hA) (check_order_tail a t hB) htail]

/-! ## Sums and differences -/

theorem add_monomial_eq (A : lp_polynomial_t) (m : lp_monomial_t)
    (hm : powers_ordered m.p) :
    lp_polynomial_add_monomial A m = coefficient_add_ordered_monomial m A := by
  unfold lp_polynomial_add_monomial
  rw [lp_monomial_order_of_ordered m.p hm.1]

theorem check_order_foldl (L A : lp_polynomial_t) (hA : lp_polynomial_check_order A)
    (hL : ∀ m ∈ L, powers_ordered m.p) :
    lp_polynomial_check_order (L.foldl lp_polynomial_add_monomial A) := by
  induction L generalizing A with
  | nil => exact hA
  | cons m t ih =>
    rw [List.foldl_cons]
    apply ih _ _ (fun n hn => hL n (List.mem_cons_of_mem _ hn))
    rw [add_monomial_eq A m (hL m (by simp))]
    exact check_order_add_ordered m A hA (hL m (by simp))

theorem coeff_at_foldl (L A : lp_polynomial_t) (k : List power_t)
    (hL : ∀ m ∈ L, powers_ordered m.p) :
    coeff_at (L.foldl lp_polynomial_add_monomial A) k = coeff_at A k + coeff_at L k := by
  induction L generalizing A with
  | nil => simp [coeff_at]
  | cons m t ih =>
    rw [List.foldl_cons, ih _ (fun n hn => hL n (List.mem_cons_of_mem _ hn)),
      add_monomial_eq A m (hL m (by simp)), coeff_at_add_ordered, coeff_at_cons]
    ring

theorem check_order_add (A B : lp_polynomial_t) (hA : lp_polynomial_check_order A)
    (hB : lp_polynomial_check_order B) : lp_polynomial_check_order (lp_polynomial_add A B) :=
  check_order_foldl B A hA (fun m hm => (hB.2 m hm).2)

theorem coeff_at_add (A B : lp_polynomial_t) (k : List power_t)
    (hB : lp_polynomial_check_order B) :
    coeff_at (lp_polynomial_add A B) k = coeff_at A k + coeff_at B k :=
  coeff_at_foldl B A k (fun m hm => (hB.2 m hm).2)

theorem lp_polynomial_sub_eq (A B : lp_polynomial_t) :
    lp_polynomial_sub A B
      = (B.map (fun m => { a := -m.a, p := m.p })).foldl lp_polynomial_add_monomial A := by
  unfold lp_polynomial_sub
  rw [List.foldl_map]

theorem coeff_at_map_neg (B : lp_polynomial_t) (k : List power_t) :
    coeff_at (B.map (fun m => { a := -m.a, p := m.p })) k = - coeff_at B k := by
  induction B with
  | nil => simp [coeff_at]
  | cons m t ih =>
    rw [List.map_cons, coeff_at_cons, coeff_at_cons, ih]
    by_cases h : m.p = k
    · simp only [h, if_true]; ring
    · simp [h]

theorem check_order_sub (A B : lp_polynomial_t) (hA : lp_polynomial_check_order A)
    (hB : lp_polynomial_check_order B) : lp_polynomial_check_order (lp_polynomial_sub A B) := by
  rw [lp_polynomial_sub_eq]
  apply check_order_foldl _ A hA
  intro m hm
  rw [List.mem_map] at hm
  obtain ⟨n, hn, rfl⟩ := hm
  exact (hB.2 n hn).2

theorem coeff_at_sub (A B : lp_polynomial_t) (k : List power_t)
    (hB : lp_polynomial_check_order B) :
    coeff_at (lp_polynomial_sub A B) k = coeff_at A k - coeff_at B k := by
  rw [lp_polynomial_sub_eq, coeff_at_foldl, coeff_at_map_neg]
  · ring
  · intro m hm
    rw [List.mem_map] at hm
    obtain ⟨n, hn, rfl⟩ := hm
    exact (hB.2 n hn).2

theorem lp_polynomial_add_comm (A B : lp_polynomial_t) (hA : lp_polynomial_check_order A)
    (hB : lp_polynomial_check_order B) : lp_polynomial_add A B = lp_polynomial_add B A := by
  apply check_order_ext _ _ (check_order_add A B hA hB) (check_order_add B A hB hA)
  intro k
  rw [coeff_at_add A B k hB, coeff_at_add B A k hA, add_comm]

theorem lp_polynomial_add_assoc (A B C : lp_polynomial_t) (hA : lp_polynomial_check_order A)
    (hB : lp_polynomial_check_order B) (hC : lp_polynomial_check_order C) :
    lp_polynomial_add (lp_polynomial_add A B) C
      = lp_polynomial_add A (lp_polynomial_add B C) := by
  have hBC := check_order_add B C hB hC
  apply check_order_ext _ _ (check_order_add _ C (check_order_add A B hA hB) hC)
    (check_order_add A _ hA hBC)
  intro k
  rw [coeff_at_add _ C k hC, coeff_at_add A B k hB, coeff_at_add A _ k hBC,
    coeff_at_add B C k hC, add_assoc]

/-- C17: polynomial addition is commutative and associative: for polynomials
`a`, `b`, `c` sharing one context, `a + b` and `b + a` are defined and
structurally equal, and so are `(a + b) + c` and `a + (b + c)`. -/
theorem add_comm_assoc (a b c : LPPolynomial) (ha : a.well_formed) (hb : b.well_formed)
    (hc : c.well_formed) (hab : a.context = b.context) (hbc : b.context = c.context) :
    (∃ r s, a.add b = some r ∧ b.add a = some s ∧ r.eq s = true)
      ∧ (∃ ab l bc r, a.add b = some ab ∧ ab.add c = some l
          ∧ b.add c = some bc ∧ a.add bc = some r ∧ l.eq r = true) := by
  have hac : a.context = c.context := hab.trans hbc
  refine ⟨⟨_, _, if_pos hab.symm, if_pos hab, ?_⟩,
    ⟨_, _, _, _, if_pos hab.symm, if_pos hac.symm, if_pos hbc.symm, if_pos hab.symm, ?_⟩⟩
  · simp only [LPPolynomial.eq, lp_polynomial_eq, LPPolynomial.get_internal, decide_eq_true_eq]
    exact lp_polynomial_add_comm _ _ ha.1 hb.1
  · simp only [LPPolynomial.eq, lp_polynomial_eq, LPPolynomial.get_internal, decide_eq_true_eq]
    exact lp_polynomial_add_assoc _ _ _ ha.1 hb.1 hc.1

/-- Witness for C17 at `x + 5`, `3 + 2y - x*y` and `4x^2 - 6xy + 10y^2`. -/
theorem add_comm_assoc_witness :
    poly_x_plus_5.well_formed ∧ poly_mixed.well_formed ∧ poly_quadratic.well_formed
      ∧ poly_x_plus_5.context = poly_mixed.context
      ∧ poly_mixed.context = poly_quadratic.context
      ∧ ((∃ r s, poly_x_plus_5.add poly_mixed = some r ∧ poly_mixed.add poly_x_plus_5 = some s
            ∧ r.eq s = true)
          ∧ (∃ ab l bc r, poly_x_plus_5.add poly_mixed = some ab
              ∧ ab.add poly_quadratic = some l
              ∧ poly_mixed.add poly_quadratic = some bc
              ∧ poly_x_plus_5.add bc = some r ∧ l.eq r = true)) :=
  ⟨by decide, by decide, by decide, by decide, by decide,
    add_comm_assoc poly_x_plus_5 poly_mixed poly_quadratic
      (by decide) (by decide) (by decide) (by decide) (by decide)⟩

end carl

namespace carl

/-! ## Products of monomials -/

theorem lp_monomial_mul_p (m1 m2 : lp_monomial_t) :
    (lp_monomial_mul m1 m2).p = m2.p.foldl merge_power m1.p := rfl

theorem mem_power_insert (pw r : power_t) (acc : List power_t) :
    r ∈ power_insert pw acc ↔ r = pw ∨ r ∈ acc := by
  induction acc with
  | nil => simp [power_insert]
  | cons q t ih =>
    unfold power_insert
    by_cases h : q.x < pw.x
    · rw [if_pos h]; simp
    · rw [if_neg h, List.mem_cons, ih, List.mem_cons]
      tauto

theorem exponent_of_power_insert (x : Nat) (pw : power_t) (acc : List power_t) :
    exponent_of x (power_insert pw acc)
      = exponent_of x acc + (if pw.x = x then pw.d else 0) := by
  induction acc with
  | nil => simp [power_insert, exponent_of]
  | cons q t ih =>
    unfold power_insert
    by_cases h : q.x < pw.x
    · rw [if_pos h, exponent_of_cons, Nat.add_comm]
    · rw [if_neg h, exponent_of_cons, exponent_of_cons, ih, Nat.add_assoc]

theorem pairwise_power_insert (pw : power_t) (acc : List power_t)
    (hacc : acc.Pairwise (fun q r => r.x < q.x)) (hne : ∀ q ∈ acc, q.x ≠ pw.x) :
    (power_insert pw acc).Pairwise (fun q r => r.x < q.x) := by
  induction acc with
  | nil => simp [power_insert]
  | cons q t ih =>
    rw [List.pairwise_cons] at hacc
    unfold power_insert
    by_cases h : q.x < pw.x
    · rw [if_pos h]
      refine List.pairwise_cons.2 ⟨?_, List.pairwise_cons.2 hacc⟩
      intro r hr
      rcases List.mem_cons.1 hr with rfl | hr
      · exact h
      · exact Nat.lt_trans (hacc.1 r hr) h
    · rw [if_neg h]
      refine List.pairwise_cons.2 ⟨?_, ih hacc.2 (fun r hr => hne r (by simp [hr]))⟩
      intro r hr
      rcases (mem_power_insert pw r t).1 hr with rfl | hr
      · have := hne q (by simp)
        omega
      · exact hacc.1 r hr

theorem map_bump_of_absent (pw : power_t) (t : List power_t) (h : ∀ q ∈ t, q.x ≠ pw.x) :
    t.map (fun q => if q.x = pw.x then ({ x := q.x, d := q.d + pw.d } : power_t) else q) = t := by
  conv_rhs => rw [← List.map_id t]
  apply List.map_congr_left
  intro q hq
  rw [if_neg (h q hq)]
  rfl

theorem exponent_of_map_bump (x : Nat) (pw : power_t) (acc : List power_t)
    (hacc : acc.Pairwise (fun q r => r.x < q.x)) (hex : ∃ q ∈ acc, q.x = pw.x) :
    exponent_of x
        (acc.map (fun q => if q.x = pw.x then ({ x := q.x, d := q.d + pw.d } : power_t) else q))
      = exponent_of x acc + (if pw.x = x then pw.d else 0) := by
  induction acc with
  | nil =>
    obtain ⟨q, hq, _⟩ := hex
    simp at hq
  | cons q t ih =>
    rw [List.pairwise_cons] at hacc
    rw [List.map_cons]
    by_cases hq : q.x = pw.x
    · rw [if_pos hq, map_bump_of_absent pw t
        (fun r hr => by have := hacc.1 r hr; omega),
        exponent_of_cons, exponent_of_cons]
      simp only
      by_cases hx : q.x = x
      · rw [if_pos hx, if_pos hx, if_pos (hq ▸ hx)]
        omega
      · rw [if_neg hx, if_neg hx, if_neg (hq ▸ hx)]
        rfl
    · rw [if_neg hq, exponent_of_cons, exponent_of_cons, ih hacc.2, Nat.add_assoc]
      obtain ⟨r, hr, hrx⟩ := hex
      rcases List.mem_cons.1 hr with rfl | hr
      · exact absurd hrx hq
      · exact ⟨r, hr, hrx⟩

theorem any_eq_true_iff_exists (acc : List power_t) (pw : power_t) :
    acc.any (fun q => q.x == pw.x) = true ↔ ∃ q ∈ acc, q.x = pw.x := by
  rw [List.any_eq_true]
  constructor
  · rintro ⟨q, hq, h⟩
    exact ⟨q, hq, by simpa using h⟩
  · rintro ⟨q, hq, h⟩
    exact ⟨q, hq, by simpa using h⟩

theorem exponent_of_merge_power (x : Nat) (acc : List power_t) (pw : power_t)
    (hacc : acc.Pairwise (fun q r => r.x < q.x)) :
    exponent_of x (merge_power acc pw)
      = exponent_of x acc + (if pw.x = x then pw.d else 0) := by
  unfold merge_power
  by_cases h : acc.any (fun q => q.x == pw.x) = true
  · rw [if_pos h]
    exact exponent_of_map_bump x pw acc hacc ((any_eq_true_iff_exists acc pw).1 h)
  · rw [if_neg h]
    exact exponent_of_power_insert x pw acc

theorem powers_ordered_merge_power (acc : List power_t) (pw : power_t)
    (hacc : powers_ordered acc) (hpw : 0 < pw.d) : powers_ordered (merge_power acc pw) := by
  unfold merge_power
  by_cases h : acc.any (fun q => q.x == pw.x) = true
  · rw [if_pos h]
    refine ⟨?_, ?_⟩
    · rw [List.pairwise_map]
      apply List.Pairwise.imp _ hacc.1
      intro a b hab
      by_cases ha : a.x = pw.x <;> by_cases hb : b.x = pw.x <;> simp [ha, hb] <;> omega
    · intro q hq
      rw [List.mem_map] at hq
      obtain ⟨r, hr, rfl⟩ := hq
      have := hacc.2 r hr
      by_cases hrx : r.x = pw.x
      · rw [if_pos hrx]; simp only; omega
      · rw [if_neg hrx]; exact this
  · rw [if_neg h]
    have hne : ∀ q ∈ acc, q.x ≠ pw.x := by
      intro q hq hqx
      exact h ((any_eq_true_iff_exists acc pw).2 ⟨q, hq, hqx⟩)
    refine ⟨pairwise_power_insert pw acc hacc.1 hne, ?_⟩
    intro q hq
    rcases (mem_power_insert pw q acc).1 hq with rfl | hq
    · exact hpw
    · exact hacc.2 q hq

theorem powers_ordered_foldl_merge (p2 p1 : List power_t) (h1 : powers_ordered p1)
    (h2 : ∀ q ∈ p2, 0 < q.d) : powers_ordered (p2.foldl merge_power p1) := by
  induction p2 generalizing p1 with
  | nil => exact h1
  | cons q t ih =>
    rw [List.foldl_cons]
    exact ih _ (powers_ordered_merge_power p1 q h1 (h2 q (by simp)))
      (fun r hr => h2 r (by simp [hr]))

theorem exponent_of_foldl_merge (x : Nat) (p2 p1 : List power_t) (h1 : powers_ordered p1)
    (h2 : ∀ q ∈ p2, 0 < q.d) :
    exponent_of x (p2.foldl merge_power p1) = exponent_of x p1 + exponent_of x p2 := by
  induction p2 generalizing p1 with
  | nil => simp [exponent_of]
  | cons q t ih =>
    rw [List.foldl_cons, ih _ (powers_ordered_merge_power p1 q h1 (h2 q (by simp)))
      (fun r hr => h2 r (by simp [hr])), exponent_of_merge_power x p1 q h1.1,
      exponent_of_cons, Nat.add_assoc]

theorem powers_ordered_mul (m1 m2 : lp_monomial_t) (h1 : powers_ordered m1.p)
    (h2 : powers_ordered m2.p) : powers_ordered (lp_monomial_mul m1 m2).p := by
  rw [lp_monomial_mul_p]
  exact powers_ordered_foldl_merge m2.p m1.p h1 h2.2

theorem exponent_of_mul (x : Nat) (m1 m2 : lp_monomial_t) (h1 : powers_ordered m1.p)
    (h2 : powers_ordered m2.p) :
    exponent_of x (lp_monomial_mul m1 m2).p = exponent_of x m1.p + exponent_of x m2.p := by
  rw [lp_monomial_mul_p]
  exact exponent_of_foldl_merge x m2.p m1.p h1 h2.2

theorem powers_ordered_tail (q : power_t) (t : List power_t) (h : powers_ordered (q :: t)) :
    powers_ordered t :=
  ⟨(List.pairwise_cons.1 h.1).2, fun r hr => h.2 r (List.mem_cons_of_mem _ hr)⟩

theorem exponent_of_above_head (x : Nat) (q : power_t) (t : List power_t)
    (h : powers_ordered (q :: t)) (hx : q.x < x) : exponent_of x (q :: t) = 0 := by
  apply exponent_of_eq_zero
  intro r hr
  rcases List.mem_cons.1 hr with rfl | hr
  · omega
  · have := (List.pairwise_cons.1 h.1).1 r hr
    omega

theorem powers_ordered_ext (p q : List power_t) (hp : powers_ordered p) (hq : powers_ordered q)
    (h : ∀ x, exponent_of x p = exponent_of x q) : p = q := by
  induction p generalizing q with
  | nil =>
    cases q with
    | nil => rfl
    | cons b t =>
      have := h b.x
      rw [exponent_of_mem (b :: t) hq.1 b (by simp)] at this
      have hb := hq.2 b (by simp)
      simp [exponent_of] at this
      omega
  | cons a s ih =>
    have ha := hp.2 a (by simp)
    have hae := exponent_of_mem (a :: s) hp.1 a (by simp)
    cases q with
    | nil =>
      have := h a.x
      rw [hae] at this
      simp [exponent_of] at this
      omega
    | cons b t =>
      have hb := hq.2 b (by simp)
      have hbe := exponent_of_mem (b :: t) hq.1 b (by simp)
      rcases Nat.lt_trichotomy a.x b.x with hlt | heq | hgt
      · have := h b.x
        rw [hbe, exponent_of_above_head b.x a s hp hlt] at this
        omega
      · have hd := h a.x
        rw [hae, heq, hbe] at hd
        have hab : a = b := by
          obtain ⟨ax, ad⟩ := a
          obtain ⟨bx, bd⟩ := b
          simp only at heq hd
          rw [heq, hd]
        subst hab
        have htail : ∀ x, exponent_of x s = exponent_of x t := by
          intro x
          have := h x
          rw [exponent_of_cons, exponent_of_cons] at this
          omega
        rw [ih t (powers_ordered_tail a s hp) (powers_ordered_tail a t hq) htail]
      · have := h a.x
        rw [hae, exponent_of_above_head a.x b t hq hgt] at this
        omega

theorem lp_monomial_mul_comm (m1 m2 : lp_monomial_t) (h1 : powers_ordered m1.p)
    (h2 : powers_ordered m2.p) : lp_monomial_mul m1 m2 = lp_monomial_mul m2 m1 := by
  have hp : (lp_monomial_mul m1 m2).p = (lp_monomial_mul m2 m1).p := by
    apply powers_ordered_ext _ _ (powers_ordered_mul m1 m2 h1 h2) (powers_ordered_mul m2 m1 h2 h1)
    intro x
    rw [exponent_of_mul x m1 m2 h1 h2, exponent_of_mul x m2 m1 h2 h1, Nat.add_comm]
  have ha : (lp_monomial_mul m1 m2).a = (lp_monomial_mul m2 m1).a := mul_comm m1.a m2.a
  cases hm : lp_monomial_mul m1 m2 with
  | mk a1 p1 =>
    cases hn : lp_monomial_mul m2 m1 with
    | mk a2 p2 =>
      rw [hm, hn] at hp ha
      simp only at hp ha
      rw [hp, ha]

end carl

namespace carl

/-! ## Products of polynomials -/

theorem foldl_flatMap_add {α : Type} (A : List α) (g : α → lp_polynomial_t)
    (acc : lp_polynomial_t) :
    A.foldl (fun acc2 a => (g a).foldl lp_polynomial_add_monomial acc2) acc
      = (A.flatMap g).foldl lp_polynomial_add_monomial acc := by
  induction A generalizing acc with
  | nil => rfl
  | cons a t ih => rw [List.foldl_cons, ih, List.flatMap_cons, List.foldl_append]

theorem lp_polynomial_mul_eq (A B : lp_polynomial_t) :
    lp_polynomial_mul A B = (monomial_products A B).foldl lp_polynomial_add_monomial [] := by
  unfold lp_polynomial_mul monomial_products
  rw [← foldl_flatMap_add]
  congr 1
  funext acc m1
  rw [List.foldl_map]

theorem mem_monomial_products (A B : lp_polynomial_t) (m : lp_monomial_t) :
    m ∈ monomial_products A B ↔ ∃ m1 ∈ A, ∃ m2 ∈ B, lp_monomial_mul m1 m2 = m := by
  unfold monomial_products
  rw [List.mem_flatMap]
  constructor
  · rintro ⟨m1, h1, hm⟩
    rw [List.mem_map] at hm
    obtain ⟨m2, h2, rfl⟩ := hm
    exact ⟨m1, h1, m2, h2, rfl⟩
  · rintro ⟨m1, h1, m2, h2, rfl⟩
    exact ⟨m1, h1, List.mem_map_of_mem _ h2⟩

theorem powers_ordered_products (A B : lp_polynomial_t) (hA : lp_polynomial_check_order A)
    (hB : lp_polynomial_check_order B) :
    ∀ m ∈ monomial_products A B, powers_ordered m.p := by
  intro m hm
  obtain ⟨m1, h1, m2, h2, rfl⟩ := (mem_monomial_products A B m).1 hm
  exact powers_ordered_mul m1 m2 (hA.2 m1 h1).2 (hB.2 m2 h2).2

theorem check_order_nil : lp_polynomial_check_order [] :=
  ⟨List.Pairwise.nil, fun _ h => absurd h (List.not_mem_nil _)⟩

theorem check_order_mul (A B : lp_polynomial_t) (hA : lp_polynomial_check_order A)
    (hB : lp_polynomial_check_order B) : lp_polynomial_check_order (lp_polynomial_mul A B) := by
  rw [lp_polynomial_mul_eq]
  exact check_order_foldl _ [] check_order_nil (powers_ordered_products A B hA hB)

theorem coeff_at_mul (A B : lp_polynomial_t) (k : List power_t)
    (hA : lp_polynomial_check_order A) (hB : lp_polynomial_check_order B) :
    coeff_at (lp_polynomial_mul A B) k = coeff_at (monomial_products A B) k := by
  rw [lp_polynomial_mul_eq, coeff_at_foldl _ [] k (powers_ordered_products A B hA hB),
    coeff_at_nil, zero_add]

theorem coeff_at_products (A B : lp_polynomial_t) (k : List power_t) :
    coeff_at (monomial_products A B) k
      = (A.map (fun m1 => (B.map (fun m2 =>
          if (lp_monomial_mul m1 m2).p = k then (lp_monomial_mul m1 m2).a else 0)).sum)).sum := by
  unfold monomial_products
  induction A with
  | nil => rfl
  | cons a t ih =>
    rw [List.flatMap_cons, coeff_at_append, ih, List.map_cons, List.sum_cons]
    congr 1
    simp [coeff_at, List.map_map, Function.comp_def]

theorem sum_map_sum_comm {α β : Type} (A : List α) (B : List β) (F : α → β → Int) :
    (A.map (fun a => (B.map (fun b => F a b)).sum)).sum
      = (B.map (fun b => (A.map (fun a => F a b)).sum)).sum := by
  induction A with
  | nil => simp
  | cons a t ih =>
    simp only [List.map_cons, List.sum_cons]
    rw [ih, ← List.sum_map_add]

theorem coeff_at_products_comm (A B : lp_polynomial_t) (k : List power_t)
    (hA : lp_polynomial_check_order A) (hB : lp_polynomial_check_order B) :
    coeff_at (monomial_products A B) k = coeff_at (monomial_products B A) k := by
  rw [coeff_at_products, coeff_at_products, sum_map_sum_comm]
  congr 1
  apply List.map_congr_left
  intro m2 h2
  congr 1
  apply List.map_congr_left
  intro m1 h1
  rw [lp_monomial_mul_comm m1 m2 (hA.2 m1 h1).2 (hB.2 m2 h2).2]

theorem lp_polynomial_mul_comm (A B : lp_polynomial_t) (hA : lp_polynomial_check_order A)
    (hB : lp_polynomial_check_order B) : lp_polynomial_mul A B = lp_polynomial_mul B A := by
  apply check_order_ext _ _ (check_order_mul A B hA hB) (check_order_mul B A hB hA)
  intro k
  rw [coeff_at_mul A B k hA hB, coeff_at_mul B A k hB hA, coeff_at_products_comm A B k hA hB]

/-- C18: polynomial multiplication is commutative: for polynomials `a`, `b`
sharing one context, `a * b` and `b * a` are defined and structurally equal. -/
theorem mul_comm_poly (a b : LPPolynomial) (ha : a.well_formed) (hb : b.well_formed)
    (hab : a.context = b.context) :
    ∃ r s, a.mul b = some r ∧ b.mul a = some s ∧ r.eq s = true := by
  refine ⟨_, _, if_pos hab, if_pos hab.symm, ?_⟩
  simp only [LPPolynomial.eq, lp_polynomial_eq, LPPolynomial.get_internal, decide_eq_true_eq]
  exact lp_polynomial_mul_comm _ _ ha.1 hb.1

/-- Witness for C18 at `3 + 2y - x*y` and `4x^2 - 6xy + 10y^2`. -/
theorem mul_comm_poly_witness :
    poly_mixed.well_formed ∧ poly_quadratic.well_formed
      ∧ poly_mixed.context = poly_quadratic.context
      ∧ ∃ r s, poly_mixed.mul poly_quadratic = some r ∧ poly_quadratic.mul poly_mixed = some s
          ∧ r.eq s = true :=
  ⟨by decide, by decide, by decide,
    mul_comm_poly poly_mixed poly_quadratic (by decide) (by decide) (by decide)⟩

end carl

namespace carl

/-! ## Results of the arithmetic operators are well-formed -/

theorem mem_foldl_add_monomial (L A : lp_polynomial_t) (hL : ∀ m ∈ L, powers_ordered m.p) :
    ∀ n ∈ L.foldl lp_polynomial_add_monomial A, ∃ m ∈ A ++ L, m.p = n.p := by
  induction L generalizing A with
  | nil =>
    intro n hn
    exact ⟨n, by simpa using hn, rfl⟩
  | cons m t ih =>
    intro n hn
    rw [List.foldl_cons] at hn
    obtain ⟨k, hk, hkp⟩ := ih _ (fun r hr => hL r (List.mem_cons_of_mem _ hr)) n hn
    rcases List.mem_append.1 hk with hk | hk
    · rw [add_monomial_eq A m (hL m (by simp))] at hk
      rcases (mem_add_ordered m A k hk).1 with h1 | ⟨j, hj, hjp⟩
      · exact ⟨m, by simp, by rw [← h1, hkp]⟩
      · exact ⟨j, by simp [hj], by rw [hjp, hkp]⟩
    · exact ⟨k, by simp [hk], hkp⟩

theorem exists_power_of_exponent_pos (x : Nat) (p : List power_t) (h : 0 < exponent_of x p) :
    ∃ r ∈ p, r.x = x := by
  by_contra hne
  have := exponent_of_eq_zero x p (fun q hq hqx => hne ⟨q, hq, hqx⟩)
  omega

theorem variable_of_mul (m1 m2 : lp_monomial_t) (h1 : powers_ordered m1.p)
    (h2 : powers_ordered m2.p) :
    ∀ q ∈ (lp_monomial_mul m1 m2).p, (∃ r ∈ m1.p, r.x = q.x) ∨ (∃ r ∈ m2.p, r.x = q.x) := by
  intro q hq
  have hord := powers_ordered_mul m1 m2 h1 h2
  have he := exponent_of_mem _ hord.1 q hq
  rw [exponent_of_mul q.x m1 m2 h1 h2] at he
  have hpos := hord.2 q hq
  by_cases hz : 0 < exponent_of q.x m1.p
  · exact Or.inl (exists_power_of_exponent_pos _ _ hz)
  · exact Or.inr (exists_power_of_exponent_pos _ _ (by omega))

theorem well_formed_foldl (c : LPContext) (L A : lp_polynomial_t)
    (hA : LPPolynomial.well_formed { m_internal := A, m_context := c })
    (hL : ∀ m ∈ L, powers_ordered m.p)
    (hLb : ∀ m ∈ L, ∀ q ∈ m.p, q.x < c.variable_ordering.length) :
    LPPolynomial.well_formed
      { m_internal := L.foldl lp_polynomial_add_monomial A, m_context := c } := by
  refine ⟨check_order_foldl L A hA.1 hL, ?_⟩
  intro n hn q hq
  obtain ⟨m, hm, hmp⟩ := mem_foldl_add_monomial L A hL n hn
  rw [← hmp] at hq
  rcases List.mem_append.1 hm with hm | hm
  · exact hA.2 m hm q hq
  · exact hLb m hm q hq

theorem well_formed_add (a b : LPPolynomial) (ha : a.well_formed) (hb : b.well_formed)
    (hab : a.context = b.context) :
    LPPolynomial.well_formed
      { m_internal := lp_polynomial_add a.m_internal b.m_internal, m_context := a.m_context } := by
  apply well_formed_foldl a.m_context b.m_internal a.m_internal ha
    (fun m hm => (hb.1.2 m hm).2)
  intro m hm q hq
  have := hb.2 m hm q hq
  have hc : a.m_context = b.m_context := hab
  rw [hc]
  exact this

theorem well_formed_sub (a b : LPPolynomial) (ha : a.well_formed) (hb : b.well_formed)
    (hab : a.context = b.context) :
    LPPolynomial.well_formed
      { m_internal := lp_polynomial_sub a.m_internal b.m_internal, m_context := a.m_context } := by
  have hc : a.m_context = b.m_context := hab
  rw [lp_polynomial_sub_eq]
  apply well_formed_foldl a.m_context _ a.m_internal ha
  · intro m hm
    rw [List.mem_map] at hm
    obtain ⟨n, hn, rfl⟩ := hm
    exact (hb.1.2 n hn).2
  · intro m hm q hq
    rw [List.mem_map] at hm
    obtain ⟨n, hn, rfl⟩ := hm
    rw [hc]
    exact hb.2 n hn q hq

theorem well_formed_nil (c : LPContext) :
    LPPolynomial.well_formed { m_internal := [], m_context := c } :=
  ⟨check_order_nil, fun _ h => absurd h (List.not_mem_nil _)⟩

theorem well_formed_mul (a b : LPPolynomial) (ha : a.well_formed) (hb : b.well_formed)
    (hab : a.context = b.context) :
    LPPolynomial.well_formed
      { m_internal := lp_polynomial_mul a.m_internal b.m_internal, m_context := a.m_context } := by
  have hc : a.m_context = b.m_context := hab
  rw [lp_polynomial_mul_eq]
  apply well_formed_foldl a.m_context _ [] (well_formed_nil _)
    (powers_ordered_products _ _ ha.1 hb.1)
  intro m hm q hq
  obtain ⟨m1, h1, m2, h2, rfl⟩ := (mem_monomial_products _ _ m).1 hm
  rcases variable_of_mul m1 m2 (ha.1.2 m1 h1).2 (hb.1.2 m2 h2).2 q hq with ⟨r, hr, hrx⟩ | ⟨r, hr, hrx⟩
  · rw [← hrx]; exact ha.2 m1 h1 r hr
  · rw [← hrx, hc]; exact hb.2 m2 h2 r hr

theorem nodup_of_check_order (A : lp_polynomial_t) (hA : lp_polynomial_check_order A) :
    (A.map (fun m => m.p)).Nodup := by
  unfold List.Nodup
  rw [List.pairwise_map]
  exact List.Pairwise.imp (fun h => power_cmp_ne_of_lt _ _ h) hA.1

theorem lp_polynomial_sub_self (A : lp_polynomial_t) (hA : lp_polynomial_check_order A) :
    lp_polynomial_sub A A = [] := by
  apply check_order_ext _ _ (check_order_sub A A hA hA) check_order_nil
  intro k
  rw [coeff_at_sub A A k hA, coeff_at_nil, sub_self]

theorem lp_polynomial_mul_nil (A : lp_polynomial_t) : lp_polynomial_mul A [] = [] := by
  unfold lp_polynomial_mul
  induction A with
  | nil => rfl
  | cons m t ih => rw [List.foldl_cons]; exact ih

/-- C19: for polynomials `a`, `b` with equal contexts, the results of `+`, `-`,
`*` and of `+=`, `-=`, `*=` are defined and in canonical form: the monomials
are strictly increasing in the canonical order, so no power product occurs
twice, no coefficient is zero and every monomial is well-formed over the
context; a difference or product that cancels completely, such as `a - a` and
`a * 0`, is the zero polynomial with no monomial. -/
theorem arithmetic_canonical (a b : LPPolynomial) (ha : a.well_formed) (hb : b.well_formed)
    (hab : a.context = b.context) :
    ∃ s d m, a.add b = some s ∧ a.sub b = some d ∧ a.mul b = some m
      ∧ a.add_assign b = some s ∧ a.sub_assign b = some d ∧ a.mul_assign b = some m
      ∧ s.well_formed ∧ d.well_formed ∧ m.well_formed
      ∧ lp_polynomial_check_order s.m_internal
      ∧ lp_polynomial_check_order d.m_internal
      ∧ lp_polynomial_check_order m.m_internal
      ∧ (s.m_internal.map (fun k => k.p)).Nodup
      ∧ (d.m_internal.map (fun k => k.p)).Nodup
      ∧ (m.m_internal.map (fun k => k.p)).Nodup
      ∧ a.sub a = some (LPPolynomial.zero a.context)
      ∧ a.mul (LPPolynomial.zero a.context) = some (LPPolynomial.zero a.context) := by
  have hs := well_formed_add a b ha hb hab
  have hd := well_formed_sub a b ha hb hab
  have hm := well_formed_mul a b ha hb hab
  refine ⟨_, _, _, if_pos hab.symm, if_pos hab.symm, if_pos hab, if_pos hab.symm,
    if_pos hab.symm, if_pos hab.symm, hs, hd, hm, hs.1, hd.1, hm.1,
    nodup_of_check_order _ hs.1, nodup_of_check_order _ hd.1, nodup_of_check_order _ hm.1,
    ?_, ?_⟩
  · unfold LPPolynomial.sub
    rw [if_pos rfl]
    simp only [LPPolynomial.get_internal, lp_polynomial_sub_self a.m_internal ha.1]
    rfl
  · unfold LPPolynomial.mul
    have hz : (LPPolynomial.zero a.context).context = a.context := rfl
    rw [hz, if_pos rfl]
    simp only [LPPolynomial.get_internal, LPPolynomial.zero, lp_polynomial_new,
      lp_polynomial_mul_nil]

/-- Witness for C19 at `3 + 2y - x*y` and `x + 5`. -/
theorem arithmetic_canonical_witness :
    poly_mixed.well_formed ∧ poly_x_plus_5.well_formed
      ∧ poly_mixed.context = poly_x_plus_5.context
      ∧ ∃ s d m, poly_mixed.add poly_x_plus_5 = some s ∧ poly_mixed.sub poly_x_plus_5 = some d
          ∧ poly_mixed.mul poly_x_plus_5 = some m
          ∧ poly_mixed.add_assign poly_x_plus_5 = some s
          ∧ poly_mixed.sub_assign poly_x_plus_5 = some d
          ∧ poly_mixed.mul_assign poly_x_plus_5 = some m
          ∧ s.well_formed ∧ d.well_formed ∧ m.well_formed
          ∧ lp_polynomial_check_order s.m_internal
          ∧ lp_polynomial_check_order d.m_internal
          ∧ lp_polynomial_check_order m.m_internal
          ∧ (s.m_internal.map (fun k => k.p)).Nodup
          ∧ (d.m_internal.map (fun k => k.p)).Nodup
          ∧ (m.m_internal.map (fun k => k.p)).Nodup
          ∧ poly_mixed.sub poly_mixed = some (LPPolynomial.zero poly_mixed.context)
          ∧ poly_mixed.mul (LPPolynomial.zero poly_mixed.context)
              = some (LPPolynomial.zero poly_mixed.context) :=
  ⟨by decide, by decide, by decide,
    arithmetic_canonical poly_mixed poly_x_plus_5 (by decide) (by decide) (by decide)⟩

/-! ## Mixed arithmetic with an integer -/

theorem check_order_construct (n : Int) : lp_polynomial_check_order (construct_lp_poly n) := by
  unfold construct_lp_poly
  by_cases hn : n = 0
  · rw [if_pos hn]; exact check_order_nil
  · rw [if_neg hn]
    refine ⟨List.pairwise_singleton _ _, ?_⟩
    intro m hm
    rw [List.mem_singleton] at hm
    subst hm
    exact ⟨hn, List.Pairwise.nil, fun _ h => absurd h (List.not_mem_nil _)⟩

/-- C20: mixed arithmetic of a polynomial `p` and an integer `n` is arithmetic
with the constant polynomial `n` of the context of `p`, on either side, and the
in-place forms `p += n`, `p -= n`, `p *= n` leave `p` equal to `p + n`, `p - n`,
`p * n`; every one of these results is defined. -/
theorem mixed_arithmetic_lift (p : LPPolynomial) (n : Int) (hp : p.well_formed) :
    p.add_mpz n = p.add (LPPolynomial.of_mpz p.context n)
      ∧ LPPolynomial.mpz_add n p = (LPPolynomial.of_mpz p.context n).add p
      ∧ p.sub_mpz n = p.sub (LPPolynomial.of_mpz p.context n)
      ∧ LPPolynomial.mpz_sub n p = (LPPolynomial.of_mpz p.context n).sub p
      ∧ p.mul_mpz n = p.mul (LPPolynomial.of_mpz p.context n)
      ∧ LPPolynomial.mpz_mul n p = (LPPolynomial.of_mpz p.context n).mul p
      ∧ p.add_mpz n = some (p.add_assign_mpz n)
      ∧ p.sub_mpz n = some (p.sub_assign_mpz n)
      ∧ p.mul_mpz n = some (p.mul_assign_mpz n)
      ∧ (∃ r, LPPolynomial.mpz_add n p = some r) ∧ (∃ r, LPPolynomial.mpz_sub n p = some r)
      ∧ (∃ r, LPPolynomial.mpz_mul n p = some r) := by
  have hc := check_order_construct n
  have hadd : LPPolynomial.mpz_add n p = (LPPolynomial.of_mpz p.context n).add p := by
    unfold LPPolynomial.mpz_add LPPolynomial.add_mpz LPPolynomial.add
    simp only [LPPolynomial.of_mpz, LPPolynomial.context, LPPolynomial.get_internal, if_true]
    rw [lp_polynomial_add_comm _ _ hp.1 hc]
  have hmul : LPPolynomial.mpz_mul n p = (LPPolynomial.of_mpz p.context n).mul p := by
    unfold LPPolynomial.mpz_mul LPPolynomial.mul_mpz LPPolynomial.mul
    simp only [LPPolynomial.of_mpz, LPPolynomial.context, LPPolynomial.get_internal, if_true]
    rw [lp_polynomial_mul_comm _ _ hp.1 hc]
  refine ⟨rfl, hadd, rfl, rfl, rfl, hmul, if_pos rfl, if_pos rfl, if_pos rfl,
    ⟨_, if_pos rfl⟩, ⟨_, if_pos rfl⟩, ⟨_, if_pos rfl⟩⟩

/-- Witness for C20 at `3 + 2y - x*y` and the integer 4. -/
theorem mixed_arithmetic_lift_witness :
    poly_mixed.well_formed
      ∧ LPPolynomial.mpz_sub 4 poly_mixed
          = some { m_internal := [{ a := 1, p := [] }, { a := -2, p := [{ x := 1, d := 1 }] },
                                  { a := 1, p := [{ x := 1, d := 1 }, { x := 0, d := 1 }] }],
                   m_context := context_xy }
      ∧ (poly_mixed.add_mpz 4 = poly_mixed.add (LPPolynomial.of_mpz poly_mixed.context 4)
          ∧ LPPolynomial.mpz_add 4 poly_mixed
              = (LPPolynomial.of_mpz poly_mixed.context 4).add poly_mixed
          ∧ poly_mixed.sub_mpz 4 = poly_mixed.sub (LPPolynomial.of_mpz poly_mixed.context 4)
          ∧ LPPolynomial.mpz_sub 4 poly_mixed
              = (LPPolynomial.of_mpz poly_mixed.context 4).sub poly_mixed
          ∧ poly_mixed.mul_mpz 4 = poly_mixed.mul (LPPolynomial.of_mpz poly_mixed.context 4)
          ∧ LPPolynomial.mpz_mul 4 poly_mixed
              = (LPPolynomial.of_mpz poly_mixed.context 4).mul poly_mixed
          ∧ poly_mixed.add_mpz 4 = some (poly_mixed.add_assign_mpz 4)
          ∧ poly_mixed.sub_mpz 4 = some (poly_mixed.sub_assign_mpz 4)
          ∧ poly_mixed.mul_mpz 4 = some (poly_mixed.mul_assign_mpz 4)
          ∧ (∃ r, LPPolynomial.mpz_add 4 poly_mixed = some r)
          ∧ (∃ r, LPPolynomial.mpz_sub 4 poly_mixed = some r)
          ∧ (∃ r, LPPolynomial.mpz_mul 4 poly_mixed = some r)) :=
  ⟨by decide, by decide, mixed_arithmetic_lift poly_mixed 4 (by decide)⟩

end carl

namespace carl

/-! ## Contexts of results -/

/-- C21: for polynomials `a`, `b` with equal contexts, `a + b`, `a - b` and
`a * b` are defined and carry that shared context; `a += b`, `a -= b` and
`a *= b` leave the context of `a` as it was and leave `b` as it was. -/
theorem arithmetic_context (a b : LPPolynomial) (hab : a.context = b.context) :
    (∃ s d m, a.add b = some s ∧ a.sub b = some d ∧ a.mul b = some m
        ∧ s.context = a.context ∧ s.context = b.context
        ∧ d.context = a.context ∧ d.context = b.context
        ∧ m.context = a.context ∧ m.context = b.context)
      ∧ (∃ s d m : Operands,
          Operands.add_assign { lhs := a, rhs := b } = some s
            ∧ Operands.sub_assign { lhs := a, rhs := b } = some d
            ∧ Operands.mul_assign { lhs := a, rhs := b } = some m
            ∧ s.lhs.context = a.context ∧ s.rhs = b
            ∧ d.lhs.context = a.context ∧ d.rhs = b
            ∧ m.lhs.context = a.context ∧ m.rhs = b) := by
  refine ⟨⟨_, _, _, if_pos hab.symm, if_pos hab.symm, if_pos hab, rfl, hab, rfl, hab, rfl, hab⟩,
    ?_⟩
  have h1 : a.add_assign b = some
      { m_internal := lp_polynomial_add a.get_internal b.get_internal,
        m_context := a.m_context } := if_pos hab.symm
  have h2 : a.sub_assign b = some
      { m_internal := lp_polynomial_sub a.get_internal b.get_internal,
        m_context := a.m_context } := if_pos hab.symm
  have h3 : a.mul_assign b = some
      { m_internal := lp_polynomial_mul a.get_internal b.get_internal,
        m_context := a.m_context } := if_pos hab.symm
  refine ⟨Operands.mk (LPPolynomial.mk (lp_polynomial_add a.get_internal b.get_internal)
      a.m_context) b,
    Operands.mk (LPPolynomial.mk (lp_polynomial_sub a.get_internal b.get_internal)
      a.m_context) b,
    Operands.mk (LPPolynomial.mk (lp_polynomial_mul a.get_internal b.get_internal)
      a.m_context) b, ?_, ?_, ?_, rfl, rfl, rfl, rfl, rfl, rfl⟩
  · simp only [Operands.add_assign, h1, Option.map_some']
  · simp only [Operands.sub_assign, h2, Option.map_some']
  · simp only [Operands.mul_assign, h3, Option.map_some']

/-- Witness for C21 at `3 + 2y - x*y` and `x + 5`. -/
theorem arithmetic_context_witness :
    poly_mixed.context = poly_x_plus_5.context
      ∧ (∃ s d m, poly_mixed.add poly_x_plus_5 = some s ∧ poly_mixed.sub poly_x_plus_5 = some d
          ∧ poly_mixed.mul poly_x_plus_5 = some m
          ∧ s.context = poly_mixed.context ∧ s.context = poly_x_plus_5.context
          ∧ d.context = poly_mixed.context ∧ d.context = poly_x_plus_5.context
          ∧ m.context = poly_mixed.context ∧ m.context = poly_x_plus_5.context)
      ∧ (∃ s d m : Operands,
          Operands.add_assign { lhs := poly_mixed, rhs := poly_x_plus_5 } = some s
            ∧ Operands.sub_assign { lhs := poly_mixed, rhs := poly_x_plus_5 } = some d
            ∧ Operands.mul_assign { lhs := poly_mixed, rhs := poly_x_plus_5 } = some m
            ∧ s.lhs.context = poly_mixed.context ∧ s.rhs = poly_x_plus_5
            ∧ d.lhs.context = poly_mixed.context ∧ d.rhs = poly_x_plus_5
            ∧ m.lhs.context = poly_mixed.context ∧ m.rhs = poly_x_plus_5) :=
  ⟨by decide, arithmetic_context poly_mixed poly_x_plus_5 (by decide)⟩

/-! ## The example `6x^2y - 9xy^2` -/

theorem check_order_poly_example (c : LPContext) (i j : Nat) (hji : j < i) :
    lp_polynomial_check_order (poly_example c i j).m_internal := by
  refine ⟨?_, ?_⟩
  · simp [poly_example, power_cmp]
  · intro m hm
    simp only [poly_example, List.mem_cons, List.mem_singleton, List.not_mem_nil,
      or_false] at hm
    rcases hm with rfl | rfl
    · refine ⟨by simp, ?_, ?_⟩
      · simp [hji]
      · simp
    · refine ⟨by simp, ?_, ?_⟩
      · simp [hji]
      · simp

/-- C28, as stated, fails over the context `[x, y]`, in which `y` is the main
variable: the leading monomial of `2x^2y - 3xy^2` is then `-3xy^2`, its unit
part is `-1`, and `normalized` returns `-2x^2y + 3xy^2`. -/
theorem normalized_example_main_variable_y :
    poly_example_xy.well_formed
      ∧ poly_example_xy.coprime_factor = 3
      ∧ poly_example_xy.coprime_coefficients
          = some { m_internal := [{ a := 2, p := [{ x := 1, d := 1 }, { x := 0, d := 2 }] },
                                  { a := -3, p := [{ x := 1, d := 2 }, { x := 0, d := 1 }] }],
                   m_context := context_xy }
      ∧ LPPolynomial.unit_part
          { m_internal := [{ a := 2, p := [{ x := 1, d := 1 }, { x := 0, d := 2 }] },
                           { a := -3, p := [{ x := 1, d := 2 }, { x := 0, d := 1 }] }],
            m_context := context_xy } = -1
      ∧ poly_example_xy.normalized
          = some { m_internal := [{ a := -2, p := [{ x := 1, d := 1 }, { x := 0, d := 2 }] },
                                  { a := 3, p := [{ x := 1, d := 2 }, { x := 0, d := 1 }] }],
                   m_context := context_xy } := by
  decide

/-- C28, amended: for `p = 6x^2y - 9xy^2` over a context in which `x` is the
main variable (the index `i` of `x` is above the index `j` of `y`),
`coprime_factor(p) = 3`, `coprime_coefficients(p) = 2x^2y - 3xy^2`, the unit
part of that result is `+1`, and `normalized(p)` returns that same
polynomial. -/
theorem normalized_example (c : LPContext) (i j : Nat) (hji : j < i) :
    (poly_example c i j).coprime_factor = 3
      ∧ (poly_example c i j).coprime_coefficients = some (poly_example_coprime c i j)
      ∧ (poly_example_coprime c i j).unit_part = 1
      ∧ (poly_example c i j).normalized = some (poly_example_coprime c i j) := by
  have hco := check_order_poly_example c i j hji
  have hz : is_zero (poly_example c i j) = false := rfl
  have hg : (poly_example c i j).coprime_factor = 3 := by
    unfold poly_example
    rw [coprime_factor_many]
    simp only [coefficients, List.map_cons, List.map_nil, content, List.foldr_cons,
      List.foldr_nil]
    decide
  have hl : leading_coefficient (poly_example c i j).m_internal = 6 := rfl
  refine ⟨hg, ?_, rfl, ?_⟩
  · rw [coprime_coefficients_eq _ hco hz, hg]
    rfl
  · rw [normalized_eq _ hco hz, hg, hl]
    rfl

/-- Witness for C28 (amended) at the context `[y, x]`. -/
theorem normalized_example_witness :
    (0 : Nat) < 1 ∧ poly_example context_yx 1 0 = poly_example_yx
      ∧ ((poly_example context_yx 1 0).coprime_factor = 3
          ∧ (poly_example context_yx 1 0).coprime_coefficients
              = some (poly_example_coprime context_yx 1 0)
          ∧ (poly_example_coprime context_yx 1 0).unit_part = 1
          ∧ (poly_example context_yx 1 0).normalized
              = some (poly_example_coprime context_yx 1 0)) :=
  ⟨by decide, by decide, normalized_example context_yx 1 0 (by decide)⟩

/-! ## `truncate` and `is_normal` -/

/-- C29: `truncate` of `x^2 + 3` (main variable `x`, degree 2, leading
coefficient 1) is `x^2 + 2`: the leading coefficient is subtracted, not the
leading term `1 * x^2`, and the degree in `x` is still 2. -/
theorem truncate_keeps_leading_term :
    poly_x2_plus_3.well_formed
      ∧ poly_x2_plus_3.degree_top = 2
      ∧ poly_x2_plus_3.lcoeff = LPPolynomial.of_mpz context_xy 1
      ∧ poly_x2_plus_3.truncate
          = { m_internal := [{ a := 2, p := [] }, { a := 1, p := [{ x := 0, d := 2 }] }],
              m_context := context_xy }
      ∧ poly_x2_plus_3.truncate.degree 0 = some 2 := by
  decide

/-- C30, as stated, fails in both directions: `2x` has the leading coefficient
2, which is neither 1 nor -1, and is normal; `-x` has the leading coefficient
-1 and is not normal. -/
theorem is_normal_not_unit_leading_coefficient :
    poly_2x.well_formed ∧ poly_2x.is_normal = true
      ∧ leading_coefficient poly_2x.m_internal = 2
      ∧ poly_neg_x.well_formed ∧ poly_neg_x.is_normal = false
      ∧ leading_coefficient poly_neg_x.m_internal = -1 := by
  decide

/-- C30, amended: `is_normal(p)` holds for a nonzero polynomial `p` iff its
leading coefficient is positive, that is iff its unit part is `+1`. -/
theorem is_normal_iff_leading_coefficient_pos (p : LPPolynomial) (hz : is_zero p = false) :
    (p.is_normal = true ↔ 0 < leading_coefficient p.m_internal)
      ∧ (p.is_normal = true ↔ p.unit_part = 1) := by
  have hne := (is_zero_eq_false_iff p).1 hz
  have hu := unit_part_of_ne_nil p hne
  have h2 : p.is_normal = true ↔ p.unit_part = 1 := by
    simp [LPPolynomial.is_normal]
  refine ⟨?_, h2⟩
  rw [h2, hu]
  exact Int.sign_eq_one_iff_pos

/-- Witness for C30 (amended) at `2x`. -/
theorem is_normal_iff_leading_coefficient_pos_witness :
    is_zero poly_2x = false
      ∧ ((poly_2x.is_normal = true ↔ 0 < leading_coefficient poly_2x.m_internal)
          ∧ (poly_2x.is_normal = true ↔ poly_2x.unit_part = 1)) :=
  ⟨by decide, is_normal_iff_leading_coefficient_pos poly_2x (by decide)⟩

end carl

namespace carl

/-! ## The order on polynomials -/

theorem lex_cmp_self {α : Type} (c : α → α → Ordering) (hrefl : ∀ a, c a a = Ordering.eq)
    (l : List α) : lex_cmp c l l = Ordering.eq := by
  induction l with
  | nil => rfl
  | cons a t ih => simp only [lex_cmp, hrefl a]; exact ih

theorem lex_cmp_eq {α : Type} (c : α → α → Ordering)
    (heq : ∀ a b, c a b = Ordering.eq → a = b) (l1 l2 : List α)
    (h : lex_cmp c l1 l2 = Ordering.eq) : l1 = l2 := by
  induction l1 generalizing l2 with
  | nil =>
    cases l2 with
    | nil => rfl
    | cons _ _ => simp [lex_cmp] at h
  | cons a t ih =>
    cases l2 with
    | nil => simp [lex_cmp] at h
    | cons b s =>
      simp only [lex_cmp] at h
      cases hc : c a b with
      | lt => rw [hc] at h; simp at h
      | gt => rw [hc] at h; simp at h
      | eq =>
        rw [hc] at h
        rw [heq a b hc, ih s h]

theorem lex_cmp_swap {α : Type} (c : α → α → Ordering)
    (hrefl : ∀ a, c a a = Ordering.eq) (heq : ∀ a b, c a b = Ordering.eq → a = b)
    (hswap : ∀ a b, c a b = Ordering.lt → c b a = Ordering.gt) (l1 l2 : List α)
    (h : lex_cmp c l1 l2 = Ordering.lt) : lex_cmp c l2 l1 = Ordering.gt := by
  induction l1 generalizing l2 with
  | nil =>
    cases l2 with
    | nil => simp [lex_cmp] at h
    | cons _ _ => rfl
  | cons a t ih =>
    cases l2 with
    | nil => simp [lex_cmp] at h
    | cons b s =>
      simp only [lex_cmp] at h ⊢
      cases hc : c a b with
      | lt => rw [hswap a b hc]
      | gt => rw [hc] at h; simp at h
      | eq =>
        rw [hc] at h
        have hab := heq a b hc
        subst hab
        rw [hrefl a]
        exact ih s h

theorem lex_cmp_swap_gt {α : Type} (c : α → α → Ordering)
    (hrefl : ∀ a, c a a = Ordering.eq) (heq : ∀ a b, c a b = Ordering.eq → a = b)
    (hswap : ∀ a b, c a b = Ordering.gt → c b a = Ordering.lt) (l1 l2 : List α)
    (h : lex_cmp c l1 l2 = Ordering.gt) : lex_cmp c l2 l1 = Ordering.lt := by
  induction l1 generalizing l2 with
  | nil =>
    cases l2 with
    | nil => simp [lex_cmp] at h
    | cons _ _ => simp [lex_cmp] at h
  | cons a t ih =>
    cases l2 with
    | nil => rfl
    | cons b s =>
      simp only [lex_cmp] at h ⊢
      cases hc : c a b with
      | lt => rw [hc] at h; simp at h
      | gt => rw [hswap a b hc]
      | eq =>
        rw [hc] at h
        have hab := heq a b hc
        subst hab
        rw [hrefl a]
        exact ih s h

theorem lex_cmp_trans {α : Type} (c : α → α → Ordering)
    (heq : ∀ a b, c a b = Ordering.eq → a = b)
    (htrans : ∀ a b d, c a b = Ordering.lt → c b d = Ordering.lt → c a d = Ordering.lt)
    (l1 l2 l3 : List α) (h12 : lex_cmp c l1 l2 = Ordering.lt)
    (h23 : lex_cmp c l2 l3 = Ordering.lt) : lex_cmp c l1 l3 = Ordering.lt := by
  induction l1 generalizing l2 l3 with
  | nil =>
    cases l3 with
    | nil =>
      cases l2 with
      | nil => simp [lex_cmp] at h12
      | cons _ _ => simp [lex_cmp] at h23
    | cons _ _ => rfl
  | cons a t ih =>
    cases l2 with
    | nil => simp [lex_cmp] at h12
    | cons b s =>
      cases l3 with
      | nil => simp [lex_cmp] at h23
      | cons d r =>
        simp only [lex_cmp] at h12 h23 ⊢
        cases hab : c a b with
        | gt => rw [hab] at h12; simp at h12
        | lt =>
          cases hbd : c b d with
          | gt => rw [hbd] at h23; simp at h23
          | lt => rw [htrans a b d hab hbd]
          | eq =>
            have := heq b d hbd
            subst this
            rw [hab]
        | eq =>
          have := heq a b hab
          subst this
          rw [hab] at h12
          cases had : c a d with
          | gt => rw [had] at h23; simp at h23
          | lt => rfl
          | eq =>
            rw [had] at h23
            exact ih s r h12 h23

theorem monomial_cmp_self (m : lp_monomial_t) : monomial_cmp m m = Ordering.eq := by
  simp [monomial_cmp, power_cmp_self]

theorem monomial_cmp_eq (m n : lp_monomial_t) (h : monomial_cmp m n = Ordering.eq) : m = n := by
  unfold monomial_cmp at h
  cases hc : power_cmp m.p n.p with
  | lt => rw [hc] at h; simp at h
  | gt => rw [hc] at h; simp at h
  | eq =>
    rw [hc] at h
    simp only at h
    have hp := power_cmp_eq _ _ hc
    split_ifs at h with h1 h2
    obtain ⟨ma, mp⟩ := m
    obtain ⟨na, np⟩ := n
    simp only at hp h1 h2
    have ha : ma = na := by omega
    rw [hp, ha]

theorem monomial_cmp_swap (m n : lp_monomial_t) (h : monomial_cmp m n = Ordering.lt) :
    monomial_cmp n m = Ordering.gt := by
  unfold monomial_cmp at h ⊢
  cases hc : power_cmp m.p n.p with
  | lt => rw [power_cmp_swap _ _ hc]
  | gt => rw [hc] at h; simp at h
  | eq =>
    rw [hc] at h
    simp only at h
    rw [← power_cmp_eq _ _ hc, power_cmp_self]
    simp only
    split_ifs at h ⊢ <;> first | rfl | omega

theorem monomial_cmp_swap_gt (m n : lp_monomial_t) (h : monomial_cmp m n = Ordering.gt) :
    monomial_cmp n m = Ordering.lt := by
  unfold monomial_cmp at h ⊢
  cases hc : power_cmp m.p n.p with
  | lt => rw [hc] at h; simp at h
  | gt => rw [power_cmp_swap_gt _ _ hc]
  | eq =>
    rw [hc] at h
    simp only at h
    rw [← power_cmp_eq _ _ hc, power_cmp_self]
    simp only
    split_ifs at h ⊢
    rfl

theorem monomial_cmp_trans (m n k : lp_monomial_t) (h1 : monomial_cmp m n = Ordering.lt)
    (h2 : monomial_cmp n k = Ordering.lt) : monomial_cmp m k = Ordering.lt := by
  unfold monomial_cmp at h1 h2 ⊢
  cases hmn : power_cmp m.p n.p with
  | gt => rw [hmn] at h1; simp at h1
  | lt =>
    cases hnk : power_cmp n.p k.p with
    | gt => rw [hnk] at h2; simp at h2
    | lt => rw [power_cmp_trans _ _ _ hmn hnk]
    | eq => rw [← power_cmp_eq _ _ hnk, hmn]
  | eq =>
    rw [hmn] at h1
    rw [power_cmp_eq _ _ hmn]
    cases hnk : power_cmp n.p k.p with
    | gt => rw [hnk] at h2; simp at h2
    | lt => rfl
    | eq =>
      rw [hnk] at h2
      simp only at h1 h2 ⊢
      split_ifs at h1 h2 ⊢ <;> first | rfl | omega

theorem lp_polynomial_cmp_self (A : lp_polynomial_t) : lp_polynomial_cmp A A = 0 := by
  unfold lp_polynomial_cmp
  rw [lex_cmp_self monomial_cmp monomial_cmp_self]

theorem lp_polynomial_cmp_eq_zero (A B : lp_polynomial_t) :
    lp_polynomial_cmp A B = 0 ↔ A = B := by
  constructor
  · intro h
    unfold lp_polynomial_cmp at h
    cases hc : lex_cmp monomial_cmp A.reverse B.reverse with
    | lt => rw [hc] at h; simp at h
    | gt => rw [hc] at h; simp at h
    | eq => exact List.reverse_injective (lex_cmp_eq monomial_cmp monomial_cmp_eq _ _ hc)
  · intro h
    rw [h]
    exact lp_polynomial_cmp_self B

theorem lp_polynomial_cmp_neg_iff (A B : lp_polynomial_t) :
    lp_polynomial_cmp A B < 0 ↔ lex_cmp monomial_cmp A.reverse B.reverse = Ordering.lt := by
  unfold lp_polynomial_cmp
  cases lex_cmp monomial_cmp A.reverse B.reverse <;> simp

theorem lp_polynomial_cmp_pos_iff (A B : lp_polynomial_t) :
    0 < lp_polynomial_cmp A B ↔ lex_cmp monomial_cmp A.reverse B.reverse = Ordering.gt := by
  unfold lp_polynomial_cmp
  cases lex_cmp monomial_cmp A.reverse B.reverse <;> simp

theorem lp_polynomial_cmp_antisymm (A B : lp_polynomial_t) :
    lp_polynomial_cmp A B < 0 ↔ 0 < lp_polynomial_cmp B A := by
  rw [lp_polynomial_cmp_neg_iff, lp_polynomial_cmp_pos_iff]
  constructor
  · exact lex_cmp_swap monomial_cmp monomial_cmp_self monomial_cmp_eq monomial_cmp_swap _ _
  · exact lex_cmp_swap_gt monomial_cmp monomial_cmp_self monomial_cmp_eq monomial_cmp_swap_gt _ _

theorem lp_polynomial_cmp_trans (A B C : lp_polynomial_t) (h1 : lp_polynomial_cmp A B < 0)
    (h2 : lp_polynomial_cmp B C < 0) : lp_polynomial_cmp A C < 0 := by
  rw [lp_polynomial_cmp_neg_iff] at h1 h2 ⊢
  exact lex_cmp_trans monomial_cmp monomial_cmp_eq monomial_cmp_trans _ _ _ h1 h2

theorem lp_polynomial_cmp_nonpos_iff (A B : lp_polynomial_t) :
    lp_polynomial_cmp A B ≤ 0 ↔ 0 ≤ lp_polynomial_cmp B A := by
  have h1 := lp_polynomial_cmp_antisymm A B
  have h2 := lp_polynomial_cmp_antisymm B A
  constructor
  · intro h
    by_contra hneg
    have := h2.1 (by omega)
    omega
  · intro h
    by_contra hneg
    have := h1.2 (by omega)
    omega

/-- C22: the comparison operators form a deterministic total order consistent
with `==`: `a == a`; exactly one of `a < b`, `a == b`, `a > b` holds;
`a <= b` iff not `a > b`; `a >= b` iff not `a < b`; `a < b` iff `b > a`; and
`<` is transitive. -/
theorem comparison_total_order (a b c : LPPolynomial) :
    a.eq a = true
      ∧ (a.lt b = true ∨ a.eq b = true ∨ a.gt b = true)
      ∧ ¬ (a.lt b = true ∧ a.eq b = true)
      ∧ ¬ (a.lt b = true ∧ a.gt b = true)
      ∧ ¬ (a.eq b = true ∧ a.gt b = true)
      ∧ (a.le b = true ↔ ¬ a.gt b = true)
      ∧ (a.ge b = true ↔ ¬ a.lt b = true)
      ∧ (a.lt b = true ↔ b.gt a = true)
      ∧ (a.lt b = true → b.lt c = true → a.lt c = true) := by
  have heq : a.eq b = true ↔ lp_polynomial_cmp a.get_internal b.get_internal = 0 := by
    rw [lp_polynomial_cmp_eq_zero]
    simp [LPPolynomial.eq, lp_polynomial_eq]
  simp only [LPPolynomial.lt, LPPolynomial.gt, LPPolynomial.le, LPPolynomial.ge,
    decide_eq_true_eq, heq]
  refine ⟨?_, ?_, ?_, ?_, ?_, ?_, ?_, ?_, ?_⟩
  · simp [LPPolynomial.eq, lp_polynomial_eq]
  · omega
  · omega
  · omega
  · omega
  · omega
  · omega
  · exact lp_polynomial_cmp_antisymm _ _
  · exact lp_polynomial_cmp_trans _ _ _

/-- Witness for C22 at `x + 5`, `3 + 2y - x*y` and `4x^2 - 6xy + 10y^2`. -/
theorem comparison_total_order_witness :
    poly_x_plus_5.lt poly_mixed = true ∧ poly_mixed.lt poly_quadratic = true
      ∧ poly_x_plus_5.lt poly_quadratic = true
      ∧ (poly_x_plus_5.eq poly_x_plus_5 = true
          ∧ (poly_x_plus_5.lt poly_mixed = true ∨ poly_x_plus_5.eq poly_mixed = true
              ∨ poly_x_plus_5.gt poly_mixed = true)
          ∧ ¬ (poly_x_plus_5.lt poly_mixed = true ∧ poly_x_plus_5.eq poly_mixed = true)
          ∧ ¬ (poly_x_plus_5.lt poly_mixed = true ∧ poly_x_plus_5.gt poly_mixed = true)
          ∧ ¬ (poly_x_plus_5.eq poly_mixed = true ∧ poly_x_plus_5.gt poly_mixed = true)
          ∧ (poly_x_plus_5.le poly_mixed = true ↔ ¬ poly_x_plus_5.gt poly_mixed = true)
          ∧ (poly_x_plus_5.ge poly_mixed = true ↔ ¬ poly_x_plus_5.lt poly_mixed = true)
          ∧ (poly_x_plus_5.lt poly_mixed = true ↔ poly_mixed.gt poly_x_plus_5 = true)
          ∧ (poly_x_plus_5.lt poly_mixed = true → poly_mixed.lt poly_quadratic = true →
              poly_x_plus_5.lt poly_quadratic = true)) :=
  ⟨by decide, by decide, by decide,
    comparison_total_order poly_x_plus_5 poly_mixed poly_quadratic⟩

/-- C23: every ordering comparison of a polynomial `p` with a bare integer `n`,
on either side, equals the polynomial comparison with the constant polynomial
`n` of the context of `p`. -/
theorem comparison_mpz_lift (p : LPPolynomial) (n : Int) :
    p.lt_mpz n = p.lt (LPPolynomial.of_mpz p.context n)
      ∧ p.le_mpz n = p.le (LPPolynomial.of_mpz p.context n)
      ∧ p.gt_mpz n = p.gt (LPPolynomial.of_mpz p.context n)
      ∧ p.ge_mpz n = p.ge (LPPolynomial.of_mpz p.context n)
      ∧ LPPolynomial.mpz_lt n p = (LPPolynomial.of_mpz p.context n).lt p
      ∧ LPPolynomial.mpz_le n p = (LPPolynomial.of_mpz p.context n).le p
      ∧ LPPolynomial.mpz_gt n p = (LPPolynomial.of_mpz p.context n).gt p
      ∧ LPPolynomial.mpz_ge n p = (LPPolynomial.of_mpz p.context n).ge p := by
  refine ⟨rfl, rfl, rfl, rfl, ?_, ?_, ?_, ?_⟩
  · simp only [LPPolynomial.mpz_lt, LPPolynomial.lt, cmp_util, LPPolynomial.of_mpz,
      LPPolynomial.get_internal, gt_iff_lt, decide_eq_decide]
    exact (lp_polynomial_cmp_antisymm _ _).symm
  · simp only [LPPolynomial.mpz_le, LPPolynomial.le, cmp_util, LPPolynomial.of_mpz,
      LPPolynomial.get_internal, ge_iff_le, decide_eq_decide]
    exact (lp_polynomial_cmp_nonpos_iff _ _).symm
  · simp only [LPPolynomial.mpz_gt, LPPolynomial.gt, cmp_util, LPPolynomial.of_mpz,
      LPPolynomial.get_internal, gt_iff_lt, decide_eq_decide]
    exact lp_polynomial_cmp_antisymm _ _
  · simp only [LPPolynomial.mpz_ge, LPPolynomial.ge, cmp_util, LPPolynomial.of_mpz,
      LPPolynomial.get_internal, ge_iff_le, decide_eq_decide]
    exact lp_polynomial_cmp_nonpos_iff _ _

end carl

namespace carl

/-! ## Construction from coefficient lists -/

theorem ordering_index_lt (l : List Variable) (v : Variable) (i : Nat)
    (h : ordering_index l v = some i) : i < l.length := by
  induction l generalizing i with
  | nil => simp [ordering_index] at h
  | cons w ws ih =>
    unfold ordering_index at h
    by_cases hw : w = v
    · rw [if_pos hw] at h
      rw [← Option.some.inj h]
      simp
    · rw [if_neg hw] at h
      cases hj : ordering_index ws v with
      | none => rw [hj] at h; simp at h
      | some j =>
        rw [hj] at h
        simp only [Option.map_some', Option.some.injEq] at h
        have := ih j hj
        simp only [List.length_cons]
        omega

theorem to_unsigned_int_of_lt (n : Nat) (h : n < unsigned_int_range) : to_unsigned_int n = n :=
  Nat.mod_eq_of_lt h

theorem power_cmp_variable_power (x k l : Nat) (h : k < l) :
    power_cmp (variable_power x k) (variable_power x l) = Ordering.lt := by
  unfold variable_power
  have hl : l ≠ 0 := by omega
  by_cases hk : k = 0
  · rw [if_pos hk, if_neg hl]
    rfl
  · rw [if_neg hk, if_neg hl]
    simp [power_cmp, h]

theorem powers_ordered_variable_power (x k : Nat) : powers_ordered (variable_power x k) := by
  unfold variable_power
  by_cases hk : k = 0
  · rw [if_pos hk]
    exact ⟨List.Pairwise.nil, fun _ h => absurd h (List.not_mem_nil _)⟩
  · rw [if_neg hk]
    refine ⟨List.pairwise_singleton _ _, ?_⟩
    intro q hq
    rw [List.mem_singleton] at hq
    rw [hq]
    exact Nat.pos_of_ne_zero hk

theorem add_monomial_front (m : lp_monomial_t) (A : lp_polynomial_t) (hm0 : m.a ≠ 0)
    (hmp : powers_ordered m.p) (h : ∀ n ∈ A, power_cmp m.p n.p = Ordering.lt) :
    lp_polynomial_add_monomial A m = m :: A := by
  rw [add_monomial_eq A m hmp]
  cases A with
  | nil => simp [coefficient_add_ordered_monomial, hm0]
  | cons n t => simp [coefficient_add_ordered_monomial, h n (by simp), hm0]

theorem dense_power_eq (x n : Nat) (hn : n < unsigned_int_range) :
    (if n > 0 then [({ x := x, d := to_unsigned_int n } : power_t)] else [])
      = variable_power x n := by
  unfold variable_power
  rw [to_unsigned_int_of_lt n hn]
  by_cases h : n = 0
  · simp [h]
  · have : n > 0 := Nat.pos_of_ne_zero h
    simp [h, this]

theorem dense_loop_eq (x : Nat) (cs : List Int) (acc : lp_polynomial_t)
    (hlen : cs.length ≤ unsigned_int_range)
    (hacc : ∀ n ∈ acc, ∀ k, k < cs.length → power_cmp (variable_power x k) n.p = Ordering.lt) :
    dense_loop x cs acc = dense_terms x cs ++ acc := by
  induction cs generalizing acc with
  | nil => rfl
  | cons c rest ih =>
    have hrest : rest.length < unsigned_int_range := by
      simp only [List.length_cons] at hlen; omega
    unfold dense_loop dense_terms
    by_cases hc : c = 0
    · rw [if_pos hc, if_pos hc, List.append_nil]
      exact ih acc (by omega)
        (fun n hn k hk => hacc n hn k (by simp only [List.length_cons]; omega))
    · rw [if_neg hc, if_neg hc, dense_power_eq x rest.length hrest]
      rw [add_monomial_front _ acc hc (powers_ordered_variable_power x rest.length)
        (fun n hn => hacc n hn rest.length (by simp))]
      rw [ih _ (by omega)]
      · simp
      · intro n hn k hk
        rcases List.mem_cons.1 hn with rfl | hn
        · exact power_cmp_variable_power x k rest.length hk
        · exact hacc n hn k (by simp only [List.length_cons]; omega)

theorem mem_dense_terms (x : Nat) (cs : List Int) :
    ∀ n ∈ dense_terms x cs, n.a ≠ 0 ∧ ∃ k, k < cs.length ∧ n.p = variable_power x k := by
  induction cs with
  | nil => intro n hn; simp [dense_terms] at hn
  | cons c rest ih =>
    intro n hn
    unfold dense_terms at hn
    rcases List.mem_append.1 hn with hn | hn
    · obtain ⟨h1, k, hk, hp⟩ := ih n hn
      exact ⟨h1, k, by simp only [List.length_cons]; omega, hp⟩
    · by_cases hc : c = 0
      · simp [hc] at hn
      · simp only [hc, if_false, List.mem_singleton] at hn
        subst hn
        exact ⟨hc, rest.length, by simp, rfl⟩

theorem check_order_dense_terms (x : Nat) (cs : List Int) :
    lp_polynomial_check_order (dense_terms x cs) := by
  refine ⟨?_, ?_⟩
  · induction cs with
    | nil => exact List.Pairwise.nil
    | cons c rest ih =>
      unfold dense_terms
      rw [List.pairwise_append]
      refine ⟨ih, ?_, ?_⟩
      · by_cases hc : c = 0
        · simp [hc]
        · simp [hc]
      · intro n hn m hm
        by_cases hc : c = 0
        · simp [hc] at hm
        · simp only [hc, if_false, List.mem_singleton] at hm
          obtain ⟨_, k, hk, hp⟩ := mem_dense_terms x rest n hn
          rw [hm, hp]
          exact power_cmp_variable_power x k rest.length hk
  · intro n hn
    obtain ⟨h1, k, _, hp⟩ := mem_dense_terms x cs n hn
    exact ⟨h1, hp ▸ powers_ordered_variable_power x k⟩

theorem variable_power_injective (x k l : Nat) (h : variable_power x k = variable_power x l) :
    k = l := by
  unfold variable_power at h
  by_cases hk : k = 0 <;> by_cases hl : l = 0 <;> simp [hk, hl] at h ⊢
  exact h

theorem coefficient_of_power_cons (c : Int) (rest : List Int) (k : Nat) :
    coefficient_of_power (c :: rest) k
      = if k < rest.length then coefficient_of_power rest k
        else if k = rest.length then c else 0 := by
  unfold coefficient_of_power
  simp only [List.length_cons]
  rcases Nat.lt_trichotomy k rest.length with hlt | heq | hgt
  · have h1 : rest.length + 1 - 1 - k = (rest.length - 1 - k) + 1 := by omega
    have h2 : k < rest.length + 1 := by omega
    rw [if_pos h2, if_pos hlt, if_pos hlt, h1, List.getD_cons_succ]
  · subst heq
    have h1 : rest.length + 1 - 1 - rest.length = 0 := by omega
    have h2 : rest.length < rest.length + 1 := by omega
    rw [if_pos h2, if_neg (Nat.lt_irrefl _), if_pos rfl, h1, List.getD_cons_zero]
  · have h2 : ¬ k < rest.length + 1 := by omega
    have h3 : ¬ k < rest.length := by omega
    have h4 : ¬ k = rest.length := by omega
    rw [if_neg h2, if_neg h3, if_neg h4]

theorem coeff_at_dense_term (x n k : Nat) (c : Int) :
    coeff_at (if c = 0 then [] else [({ a := c, p := variable_power x n } : lp_monomial_t)])
        (variable_power x k)
      = if k = n then c else 0 := by
  by_cases hc : c = 0
  · simp [hc, coeff_at]
  · by_cases hk : k = n
    · subst hk
      simp [hc, coeff_at]
    · have hne : variable_power x n ≠ variable_power x k :=
        fun h => hk (variable_power_injective x _ _ h).symm
      simp [hc, coeff_at, hne, hk]

theorem coeff_at_dense_terms (x : Nat) (cs : List Int) (k : Nat) :
    coeff_at (dense_terms x cs) (variable_power x k) = coefficient_of_power cs k := by
  induction cs with
  | nil => simp [dense_terms, coeff_at, coefficient_of_power]
  | cons c rest ih =>
    unfold dense_terms
    rw [coeff_at_append, ih, coeff_at_dense_term, coefficient_of_power_cons]
    rcases Nat.lt_trichotomy k rest.length with hlt | heq | hgt
    · have h4 : ¬ k = rest.length := by omega
      rw [if_pos hlt, if_neg h4, add_zero]
    · subst heq
      rw [if_neg (Nat.lt_irrefl _), if_pos rfl]
      unfold coefficient_of_power
      rw [if_neg (Nat.lt_irrefl _), zero_add]
    · have h3 : ¬ k < rest.length := by omega
      have h4 : ¬ k = rest.length := by omega
      rw [if_neg h3, if_neg h4]
      unfold coefficient_of_power
      rw [if_neg h3, add_zero]

theorem dense_terms_of_zeros (x : Nat) (cs : List Int) (h : ∀ c ∈ cs, c = 0) :
    dense_terms x cs = [] := by
  induction cs with
  | nil => rfl
  | cons c rest ih =>
    unfold dense_terms
    rw [ih (fun d hd => h d (by simp [hd])), if_pos (h c (by simp))]
    rfl

theorem well_formed_dense_terms (c : LPContext) (x : Nat) (cs : List Int)
    (hx : x < c.variable_ordering.length) :
    LPPolynomial.well_formed { m_internal := dense_terms x cs, m_context := c } := by
  refine ⟨check_order_dense_terms x cs, ?_⟩
  intro n hn q hq
  obtain ⟨_, k, _, hp⟩ := mem_dense_terms x cs n hn
  rw [hp] at hq
  unfold variable_power at hq
  by_cases hk : k = 0
  · simp [hk] at hq
  · simp only [hk, if_false, List.mem_singleton] at hq
    rw [hq]
    exact hx

theorem dense_loop_zeros (x n : Nat) (acc : lp_polynomial_t) :
    dense_loop x (List.replicate n 0) acc = acc := by
  induction n with
  | zero => rfl
  | succ n ih =>
    rw [List.replicate_succ]
    unfold dense_loop
    rw [if_pos rfl]
    exact ih

/-- C26, as stated, fails for a coefficient list with more than `2^32`
entries: the power is cast to `unsigned int` and wraps.  For the list with the
leading coefficient 1 followed by `2^32 + 1` zeros the constructor yields `x`,
not `x^(2^32 + 1)`. -/
theorem dense_constructor_wraps :
    LPPolynomial.mk_vector context_xy 0 (1 :: List.replicate (2 ^ 32 + 1) 0)
        = some { m_internal := [{ a := 1, p := [{ x := 0, d := 1 }] }],
                 m_context := context_xy }
      ∧ dense_terms 0 (1 :: List.replicate (2 ^ 32 + 1) 0)
          = [{ a := 1, p := [{ x := 0, d := 2 ^ 32 + 1 }] }] := by
  constructor
  · have hv : context_xy.lp_variable 0 = some 0 := rfl
    unfold LPPolynomial.mk_vector
    rw [hv]
    simp only
    unfold dense_loop
    rw [if_neg (by decide), dense_loop_zeros, List.length_replicate]
    have h1 : to_unsigned_int (2 ^ 32 + 1) = 1 := by decide
    rw [if_pos (by decide), h1]
    rfl
  · unfold dense_terms
    rw [dense_terms_of_zeros 0 _ (fun c hc => (List.mem_replicate.1 hc).2),
      List.length_replicate]
    rfl

/-- C26, amended: for every variable of a context (with internal index `i`) and
every coefficient list `cs`, highest power first, of at most `2^32` entries,
the dense constructors yield the canonical polynomial that is the sum of
`c_k * x^k`: zero coefficients give no monomial, the power 0 gives a monomial
with empty power list, and an empty or all-zero list gives the zero
polynomial.  For `cs = [1, 0, -1, 5]` the result is `x^3 - x + 5`, with
`total_degree` 3, `constant_part` 5 and `coeff(x, 1)` the constant `-1`. -/
theorem dense_constructor (context : LPContext) (mainVar : Variable) (i : Nat) (cs : List Int)
    (hv : context.lp_variable mainVar = some i) (hlen : cs.length ≤ unsigned_int_range) :
    (∃ p, LPPolynomial.mk_vector context mainVar cs = some p
        ∧ LPPolynomial.mk_initializer_list context mainVar cs = some p
        ∧ p.m_internal = dense_terms i cs
        ∧ p.m_context = context
        ∧ p.well_formed
        ∧ (∀ k, coeff_at p.m_internal (variable_power i k) = coefficient_of_power cs k)
        ∧ ((∀ c ∈ cs, c = 0) → is_zero p = true))
      ∧ (∃ q, LPPolynomial.mk_vector context_xy 0 [1, 0, -1, 5] = some q
          ∧ q.m_internal = [{ a := 5, p := [] }, { a := -1, p := [{ x := 0, d := 1 }] },
                            { a := 1, p := [{ x := 0, d := 3 }] }]
          ∧ q.total_degree = 3 ∧ q.constant_part = 5
          ∧ q.coeff 0 1 = some (LPPolynomial.of_mpz context_xy (-1))) := by
  have hloop : dense_loop i cs lp_polynomial_new = dense_terms i cs := by
    have h := dense_loop_eq i cs [] hlen (fun n hn => absurd hn (List.not_mem_nil _))
    rw [List.append_nil] at h
    exact h
  have hi : i < context.variable_ordering.length := ordering_index_lt _ _ _ hv
  refine ⟨⟨LPPolynomial.mk (dense_terms i cs) context, ?_, ?_, rfl, rfl,
    well_formed_dense_terms context i cs hi, coeff_at_dense_terms i cs, ?_⟩, ?_⟩
  · unfold LPPolynomial.mk_vector
    rw [hv]
    simp only [hloop]
  · unfold LPPolynomial.mk_initializer_list
    rw [hv]
    simp only [hloop]
  · intro hz
    simp only [is_zero, LPPolynomial.get_internal, dense_terms_of_zeros i cs hz]
    rfl
  · exact ⟨_, rfl, rfl, by decide, by decide, by decide⟩

/-- Witness for C26 (amended) at the list `[2, 0, 7]` and the variable `y`. -/
theorem dense_constructor_witness :
    context_xy.lp_variable 1 = some 1 ∧ [2, 0, (7 : Int)].length ≤ unsigned_int_range
      ∧ ((∃ p, LPPolynomial.mk_vector context_xy 1 [2, 0, 7] = some p
            ∧ LPPolynomial.mk_initializer_list context_xy 1 [2, 0, 7] = some p
            ∧ p.m_internal = dense_terms 1 [2, 0, 7]
            ∧ p.m_context = context_xy
            ∧ p.well_formed
            ∧ (∀ k, coeff_at p.m_internal (variable_power 1 k)
                = coefficient_of_power [2, 0, 7] k)
            ∧ ((∀ c ∈ [2, 0, (7 : Int)], c = 0) → is_zero p = true))
          ∧ (∃ q, LPPolynomial.mk_vector context_xy 0 [1, 0, -1, 5] = some q
              ∧ q.m_internal = [{ a := 5, p := [] }, { a := -1, p := [{ x := 0, d := 1 }] },
                                { a := 1, p := [{ x := 0, d := 3 }] }]
              ∧ q.total_degree = 3 ∧ q.constant_part = 5
              ∧ q.coeff 0 1 = some (LPPolynomial.of_mpz context_xy (-1)))) :=
  ⟨by decide, by decide, dense_constructor context_xy 1 1 [2, 0, 7] (by decide) (by decide)⟩

end carl

namespace carl

/-! ## Agreement of the dense and the sparse constructors -/

theorem sparse_loop_eq_foldl (x : Nat) (E : List (Nat × Int)) (acc : lp_polynomial_t) :
    sparse_loop x E acc
      = ((E.filter (fun e => decide (e.2 ≠ 0))).map (sparse_monomial x)).foldl
          lp_polynomial_add_monomial acc := by
  induction E generalizing acc with
  | nil => rfl
  | cons e rest ih =>
    unfold sparse_loop
    by_cases he : e.2 = 0
    · rw [if_pos he, ih]
      simp [he]
    · rw [if_neg he, ih]
      simp [he, sparse_monomial]

theorem mem_dense_entries (cs : List Int) : ∀ e ∈ dense_entries cs, e.1 < cs.length := by
  induction cs with
  | nil => intro e he; simp [dense_entries] at he
  | cons c rest ih =>
    intro e he
    unfold dense_entries at he
    rcases List.mem_append.1 he with he | he
    · have := ih e he
      simp only [List.length_cons]
      omega
    · rw [List.mem_singleton] at he
      subst he
      simp

theorem map_entries_valid_dense_entries (cs : List Int) (hlen : cs.length ≤ unsigned_int_range) :
    map_entries_valid (dense_entries cs) := by
  refine ⟨?_, fun e he => lt_of_lt_of_le (mem_dense_entries cs e he) hlen⟩
  clear hlen
  induction cs with
  | nil => exact List.Pairwise.nil
  | cons c rest ih =>
    unfold dense_entries
    rw [List.pairwise_append]
    refine ⟨ih, List.pairwise_singleton _ _, ?_⟩
    intro e he f hf
    rw [List.mem_singleton] at hf
    subst hf
    exact mem_dense_entries rest e he

theorem sparse_monomial_eq (x n : Nat) (c : Int) (hn : n < unsigned_int_range) :
    sparse_monomial x (n, c) = { a := c, p := variable_power x n } := by
  unfold sparse_monomial
  simp only
  rw [dense_power_eq x n hn]

theorem sparse_terms_dense (x : Nat) (cs : List Int) (hlen : cs.length ≤ unsigned_int_range) :
    ((dense_entries cs).filter (fun e => decide (e.2 ≠ 0))).map (sparse_monomial x)
      = dense_terms x cs := by
  induction cs with
  | nil => rfl
  | cons c rest ih =>
    have hrest : rest.length < unsigned_int_range := by
      simp only [List.length_cons] at hlen; omega
    unfold dense_entries dense_terms
    rw [List.filter_append, List.map_append, ih (by omega)]
    by_cases hc : c = 0
    · simp [hc]
    · simp [hc, sparse_monomial_eq x rest.length c hrest]

theorem sparse_loop_dense (x : Nat) (cs : List Int) (E : List (Nat × Int))
    (hlen : cs.length ≤ unsigned_int_range)
    (hE : E.filter (fun e => decide (e.2 ≠ 0))
        = (dense_entries cs).filter (fun e => decide (e.2 ≠ 0))) :
    sparse_loop x E lp_polynomial_new = dense_terms x cs := by
  rw [sparse_loop_eq_foldl, hE, sparse_terms_dense x cs hlen]
  have h := foldl_add_monomial_of_check_order (dense_terms x cs) []
    (by rw [List.nil_append]; exact check_order_dense_terms x cs)
  rw [List.nil_append] at h
  exact h

/-- C27: for every variable of the context and every coefficient list `cs` of
length `n` (at most `2^32`, the exponents being `unsigned int` keys of the
map), the three dense constructors (initializer list, vector by reference,
moved vector) return the same polynomial, and the sparse-map constructor
returns that polynomial too on the map sending the exponent `n - 1 - i` to
`cs[i]` and on every map that differs from it only in zero entries. -/
theorem constructors_agree (context : LPContext) (mainVar : Variable) (i : Nat) (cs : List Int)
    (hv : context.lp_variable mainVar = some i) (hlen : cs.length ≤ unsigned_int_range) :
    ∃ p, LPPolynomial.mk_initializer_list context mainVar cs = some p
      ∧ LPPolynomial.mk_vector context mainVar cs = some p
      ∧ LPPolynomial.mk_vector_moved context mainVar cs = some p
      ∧ map_entries_valid (dense_entries cs)
      ∧ LPPolynomial.mk_map context mainVar (dense_entries cs) = some p
      ∧ LPPolynomial.mk_map context mainVar
          ((dense_entries cs).filter (fun e => decide (e.2 ≠ 0))) = some p
      ∧ ∀ E : List (Nat × Int),
          E.filter (fun e => decide (e.2 ≠ 0))
            = (dense_entries cs).filter (fun e => decide (e.2 ≠ 0)) →
          LPPolynomial.mk_map context mainVar E = some p := by
  have hall : ∀ E : List (Nat × Int),
      E.filter (fun e => decide (e.2 ≠ 0))
        = (dense_entries cs).filter (fun e => decide (e.2 ≠ 0)) →
      LPPolynomial.mk_map context mainVar E
        = some (LPPolynomial.mk (dense_loop i cs lp_polynomial_new) context) := by
    intro E hE
    have hd : dense_loop i cs lp_polynomial_new = dense_terms i cs := by
      have h := dense_loop_eq i cs [] hlen (fun n hn => absurd hn (List.not_mem_nil _))
      rw [List.append_nil] at h
      exact h
    unfold LPPolynomial.mk_map
    rw [hv]
    simp only [sparse_loop_dense i cs E hlen hE, hd]
  refine ⟨LPPolynomial.mk (dense_loop i cs lp_polynomial_new) context, ?_, ?_, ?_,
    map_entries_valid_dense_entries cs hlen, hall _ rfl, hall _ ?_, hall⟩
  · unfold LPPolynomial.mk_initializer_list
    rw [hv]
  · unfold LPPolynomial.mk_vector
    rw [hv]
  · unfold LPPolynomial.mk_vector_moved
    rw [hv]
  · rw [List.filter_filter]
    simp

/-- Witness for C27 at the coefficient list `[1, 0, -1, 5]` of `x` over the
context `[x, y]`. -/
theorem constructors_agree_witness :
    context_xy.lp_variable 0 = some 0 ∧ [1, 0, -1, (5 : Int)].length ≤ unsigned_int_range
      ∧ ∃ p, LPPolynomial.mk_initializer_list context_xy 0 [1, 0, -1, 5] = some p
          ∧ LPPolynomial.mk_vector context_xy 0 [1, 0, -1, 5] = some p
          ∧ LPPolynomial.mk_vector_moved context_xy 0 [1, 0, -1, 5] = some p
          ∧ map_entries_valid (dense_entries [1, 0, -1, 5])
          ∧ LPPolynomial.mk_map context_xy 0 (dense_entries [1, 0, -1, 5]) = some p
          ∧ LPPolynomial.mk_map context_xy 0
              ((dense_entries [1, 0, -1, 5]).filter (fun e => decide (e.2 ≠ 0))) = some p
          ∧ ∀ E : List (Nat × Int),
              E.filter (fun e => decide (e.2 ≠ 0))
                = (dense_entries [1, 0, -1, 5]).filter (fun e => decide (e.2 ≠ 0)) →
              LPPolynomial.mk_map context_xy 0 E = some p :=
  ⟨by decide, by decide, constructors_agree context_xy 0 0 [1, 0, -1, 5] (by decide) (by decide)⟩

end carl

namespace carl

/-! ## Contexts: the mapping between variables and indices -/

theorem variable_at_ordering_index (l : List Variable) (v : Variable) (i : Nat)
    (h : ordering_index l v = some i) : variable_at l i = some v := by
  induction l generalizing i with
  | nil => simp [ordering_index] at h
  | cons w ws ih =>
    unfold ordering_index at h
    by_cases hw : w = v
    · rw [if_pos hw] at h
      rw [← Option.some.inj h, hw]
      rfl
    · rw [if_neg hw] at h
      cases hj : ordering_index ws v with
      | none => rw [hj] at h; simp at h
      | some j =>
        rw [hj] at h
        simp only [Option.map_some', Option.some.injEq] at h
        rw [← h]
        exact ih j hj

theorem variable_at_mem (l : List Variable) (i : Nat) (v : Variable)
    (h : variable_at l i = some v) : v ∈ l := by
  induction l generalizing i with
  | nil => simp [variable_at] at h
  | cons w ws ih =>
    cases i with
    | zero =>
      simp only [variable_at, Option.some.injEq] at h
      simp [h]
    | succ i =>
      simp only [variable_at] at h
      exact List.mem_cons_of_mem _ (ih i h)

theorem variable_at_some_lt (l : List Variable) (i : Nat) (v : Variable)
    (h : variable_at l i = some v) : i < l.length := by
  induction l generalizing i with
  | nil => simp [variable_at] at h
  | cons w ws ih =>
    cases i with
    | zero => simp
    | succ i =>
      simp only [variable_at] at h
      have := ih i h
      simp only [List.length_cons]
      omega

theorem variable_at_of_lt (l : List Variable) (i : Nat) (h : i < l.length) :
    ∃ v, variable_at l i = some v := by
  induction l generalizing i with
  | nil => simp at h
  | cons w ws ih =>
    cases i with
    | zero => exact ⟨w, rfl⟩
    | succ i =>
      simp only [List.length_cons] at h
      exact ih i (by omega)

theorem ordering_index_variable_at (l : List Variable) (hn : l.Nodup) (i : Nat) (v : Variable)
    (h : variable_at l i = some v) : ordering_index l v = some i := by
  induction l generalizing i with
  | nil => simp [variable_at] at h
  | cons w ws ih =>
    rw [List.nodup_cons] at hn
    unfold ordering_index
    cases i with
    | zero =>
      simp only [variable_at, Option.some.injEq] at h
      rw [if_pos h]
    | succ i =>
      simp only [variable_at] at h
      have hv : v ∈ ws := variable_at_mem ws i v h
      have hw : ¬ w = v := fun e => hn.1 (e ▸ hv)
      rw [if_neg hw, ih hn.2 i h]
      rfl

theorem ordering_index_of_mem (l : List Variable) (v : Variable) (h : v ∈ l) :
    ∃ i, ordering_index l v = some i := by
  induction l with
  | nil => simp at h
  | cons w ws ih =>
    unfold ordering_index
    by_cases hw : w = v
    · exact ⟨0, by rw [if_pos hw]⟩
    · rcases List.mem_cons.1 h with e | hv
      · exact absurd e.symm hw
      · obtain ⟨i, hi⟩ := ih hv
        exact ⟨i + 1, by rw [if_neg hw, hi]; rfl⟩

theorem mem_of_ordering_index (l : List Variable) (v : Variable) (i : Nat)
    (h : ordering_index l v = some i) : v ∈ l :=
  variable_at_mem l i v (variable_at_ordering_index l v i h)

theorem context_has_eq_true (c : LPContext) (v : Variable) :
    c.has v = true ↔ v ∈ c.variable_ordering := by
  unfold LPContext.has LPContext.lp_variable_opt
  constructor
  · intro h
    cases hi : ordering_index c.variable_ordering v with
    | none => rw [hi] at h; simp at h
    | some i => exact mem_of_ordering_index _ _ _ hi
  · intro h
    obtain ⟨i, hi⟩ := ordering_index_of_mem _ _ h
    rw [hi]
    rfl

/-- Along a sublist the indices of two variables keep their order. -/
theorem ordering_index_sublist_lt (S L : List Variable) (h : S.Sublist L) (hn : L.Nodup)
    (a b : Variable) (i j i2 j2 : Nat)
    (ha : ordering_index S a = some i) (hb : ordering_index S b = some j)
    (ha2 : ordering_index L a = some i2) (hb2 : ordering_index L b = some j2)
    (hij : i < j) : i2 < j2 := by
  induction h generalizing i j i2 j2 with
  | slnil => simp [ordering_index] at ha
  | @cons S1 L1 w hsub ih =>
    rw [List.nodup_cons] at hn
    have hwa : ¬ w = a := fun e => hn.1 (e ▸ hsub.subset (mem_of_ordering_index _ _ _ ha))
    have hwb : ¬ w = b := fun e => hn.1 (e ▸ hsub.subset (mem_of_ordering_index _ _ _ hb))
    unfold ordering_index at ha2 hb2
    rw [if_neg hwa] at ha2
    rw [if_neg hwb] at hb2
    cases h1 : ordering_index L1 a with
    | none => rw [h1] at ha2; simp at ha2
    | some i3 =>
      cases h2 : ordering_index L1 b with
      | none => rw [h2] at hb2; simp at hb2
      | some j3 =>
        rw [h1] at ha2
        rw [h2] at hb2
        simp only [Option.map_some', Option.some.injEq] at ha2 hb2
        have := ih hn.2 i j i3 j3 ha hb h1 h2 hij
        omega
  | @cons₂ S1 L1 w hsub ih =>
    rw [List.nodup_cons] at hn
    unfold ordering_index at ha hb ha2 hb2
    by_cases hwb : w = b
    · rw [if_pos hwb] at hb
      simp only [Option.some.injEq] at hb
      omega
    · rw [if_neg hwb] at hb hb2
      cases h2 : ordering_index L1 b with
      | none => rw [h2] at hb2; simp at hb2
      | some j3 =>
        rw [h2] at hb2
        simp only [Option.map_some', Option.some.injEq] at hb2
        by_cases hwa : w = a
        · rw [if_pos hwa] at ha2
          simp only [Option.some.injEq] at ha2
          omega
        · rw [if_neg hwa] at ha ha2
          cases h1 : ordering_index L1 a with
          | none => rw [h1] at ha2; simp at ha2
          | some i3 =>
            cases h3 : ordering_index S1 a with
            | none => rw [h3] at ha; simp at ha
            | some i4 =>
              cases h4 : ordering_index S1 b with
              | none => rw [h4] at hb; simp at hb
              | some j4 =>
                rw [h1] at ha2
                rw [h3] at ha
                rw [h4] at hb
                simp only [Option.map_some', Option.some.injEq] at ha2 ha hb
                have := ih hn.2 i4 j4 i3 j3 h3 h4 h1 h2 (by omega)
                omega

theorem ordering_index_injective (l : List Variable) (a b : Variable) (i : Nat)
    (ha : ordering_index l a = some i) (hb : ordering_index l b = some i) : a = b := by
  have h1 := variable_at_ordering_index l a i ha
  have h2 := variable_at_ordering_index l b i hb
  rw [h1] at h2
  exact Option.some.inj h2

/-- Along a sublist the indices of two variables are in the same order. -/
theorem ordering_index_sublist_iff (S L : List Variable) (h : S.Sublist L) (hn : L.Nodup)
    (a b : Variable) (i j i2 j2 : Nat)
    (ha : ordering_index S a = some i) (hb : ordering_index S b = some j)
    (ha2 : ordering_index L a = some i2) (hb2 : ordering_index L b = some j2) :
    i < j ↔ i2 < j2 := by
  constructor
  · exact ordering_index_sublist_lt S L h hn a b i j i2 j2 ha hb ha2 hb2
  · intro h2
    rcases Nat.lt_trichotomy i j with hlt | heq | hgt
    · exact hlt
    · subst heq
      have hab : a = b := ordering_index_injective S a b i ha hb
      subst hab
      rw [ha2] at hb2
      have := Option.some.inj hb2
      omega
    · have := ordering_index_sublist_lt S L h hn b a j i j2 i2 hb ha hb2 ha2 hgt
      omega

theorem relabel_index_eq (old new : LPContext) (x y : Nat) (v : Variable)
    (hx : old.carl_variable x = some v) (hy : new.lp_variable_opt v = some y) :
    relabel_index old new x = y := by
  unfold relabel_index
  rw [hx]
  simp only [hy]

theorem index_known_iff (old new : LPContext) (x : Nat) :
    index_known old new x = true
      ↔ ∃ v y, old.carl_variable x = some v ∧ new.lp_variable_opt v = some y := by
  unfold index_known
  constructor
  · intro h
    cases hv : old.carl_variable x with
    | none => rw [hv] at h; simp at h
    | some v =>
      rw [hv] at h
      simp only at h
      obtain ⟨y, hy⟩ := ordering_index_of_mem _ _ ((context_has_eq_true new v).1 h)
      exact ⟨v, y, rfl, hy⟩
  · rintro ⟨v, y, hv, hy⟩
    rw [hv]
    exact (context_has_eq_true new v).2 (mem_of_ordering_index _ _ _ hy)

theorem relabel_index_injective (old new : LPContext) (hold : old.valid) (x1 x2 : Nat)
    (h1 : index_known old new x1 = true) (h2 : index_known old new x2 = true)
    (h : relabel_index old new x1 = relabel_index old new x2) : x1 = x2 := by
  obtain ⟨a, y1, ha, hy1⟩ := (index_known_iff old new x1).1 h1
  obtain ⟨b, y2, hb, hy2⟩ := (index_known_iff old new x2).1 h2
  rw [relabel_index_eq old new x1 y1 a ha hy1, relabel_index_eq old new x2 y2 b hb hy2] at h
  subst h
  have hab : a = b := ordering_index_injective _ a b y1 hy1 hy2
  subst hab
  have e1 := ordering_index_variable_at _ hold x1 a ha
  have e2 := ordering_index_variable_at _ hold x2 a hb
  rw [e1] at e2
  exact Option.some.inj e2

theorem relabel_index_lt (old new : LPContext) (hold : old.valid) (hnew : new.valid)
    (hext : new.is_extension_of old = true ∨ old.is_extension_of new = true) (x1 x2 : Nat)
    (h1 : index_known old new x1 = true) (h2 : index_known old new x2 = true)
    (h : x1 < x2) : relabel_index old new x1 < relabel_index old new x2 := by
  obtain ⟨a, y1, ha, hy1⟩ := (index_known_iff old new x1).1 h1
  obtain ⟨b, y2, hb, hy2⟩ := (index_known_iff old new x2).1 h2
  rw [relabel_index_eq old new x1 y1 a ha hy1, relabel_index_eq old new x2 y2 b hb hy2]
  have e1 := ordering_index_variable_at _ hold x1 a ha
  have e2 := ordering_index_variable_at _ hold x2 b hb
  rcases hext with hext | hext
  · have hsub : old.variable_ordering.Sublist new.variable_ordering := by
      unfold LPContext.is_extension_of at hext
      exact List.isSublist_iff_sublist.1 hext
    exact (ordering_index_sublist_iff _ _ hsub hnew a b x1 x2 y1 y2 e1 e2 hy1 hy2).1 h
  · have hsub : new.variable_ordering.Sublist old.variable_ordering := by
      unfold LPContext.is_extension_of at hext
      exact List.isSublist_iff_sublist.1 hext
    exact (ordering_index_sublist_iff _ _ hsub hold a b y1 y2 x1 x2 hy1 hy2 e1 e2).2 h

theorem relabel_index_bound (old new : LPContext) (x : Nat)
    (h : index_known old new x = true) :
    relabel_index old new x < new.variable_ordering.length := by
  obtain ⟨a, y, ha, hy⟩ := (index_known_iff old new x).1 h
  rw [relabel_index_eq old new x y a ha hy]
  exact ordering_index_lt _ _ _ hy

end carl

namespace carl

/-! ## Relabeling and reordering of monomials -/

theorem set_context_eq_map (A : lp_polynomial_t) (old new : LPContext) :
    lp_polynomial_set_context A old new
      = A.map (fun m => { a := m.a, p := map_indices (relabel_index old new) m.p }) := rfl

theorem mem_map_indices (f : Nat → Nat) (p : List power_t) (r : power_t)
    (h : r ∈ map_indices f p) : ∃ q ∈ p, r = { x := f q.x, d := q.d } := by
  unfold map_indices at h
  obtain ⟨q, hq, e⟩ := List.mem_map.1 h
  exact ⟨q, hq, e.symm⟩

theorem powers_ordered_map_indices (f : Nat → Nat) (S : Nat → Prop) (p : List power_t)
    (hS : ∀ q ∈ p, S q.x) (hf : ∀ a b, S a → S b → a < b → f a < f b)
    (hp : powers_ordered p) : powers_ordered (map_indices f p) := by
  refine ⟨?_, ?_⟩
  · unfold map_indices
    rw [List.pairwise_map]
    exact hp.1.imp_of_mem (fun {q r} hq hr h => hf r.x q.x (hS r hr) (hS q hq) h)
  · intro r hr
    obtain ⟨q, hq, e⟩ := mem_map_indices f p r hr
    rw [e]
    exact hp.2 q hq

theorem power_cmp_map_indices (f : Nat → Nat) (S : Nat → Prop) (p1 p2 : List power_t)
    (hS1 : ∀ q ∈ p1, S q.x) (hS2 : ∀ q ∈ p2, S q.x)
    (hf : ∀ a b, S a → S b → a < b → f a < f b) :
    power_cmp (map_indices f p1) (map_indices f p2) = power_cmp p1 p2 := by
  induction p1 generalizing p2 with
  | nil =>
    cases p2 with
    | nil => rfl
    | cons b t => rfl
  | cons a s ih =>
    cases p2 with
    | nil => rfl
    | cons b t =>
      have ha : S a.x := hS1 a (by simp)
      have hb : S b.x := hS2 b (by simp)
      have ih2 := ih t (fun q hq => hS1 q (by simp [hq])) (fun q hq => hS2 q (by simp [hq]))
      unfold map_indices at ih2 ⊢
      simp only [List.map_cons, power_cmp]
      rcases Nat.lt_trichotomy a.x b.x with h | h | h
      · have h2 := hf _ _ ha hb h
        rw [if_pos h, if_pos h2]
      · have h1 : ¬ a.x < b.x := by omega
        have h3 : ¬ b.x < a.x := by omega
        have h4 : ¬ f a.x < f b.x := by rw [h]; omega
        have h5 : ¬ f b.x < f a.x := by rw [h]; omega
        rw [if_neg h1, if_neg h3, if_neg h4, if_neg h5, ih2]
      · have h2 := hf _ _ hb ha h
        have h1 : ¬ a.x < b.x := by omega
        have h4 : ¬ f a.x < f b.x := by omega
        rw [if_neg h1, if_pos h, if_neg h4, if_pos h2]

theorem check_order_map_indices (f : Nat → Nat) (S : Nat → Prop) (A : lp_polynomial_t)
    (hS : ∀ m ∈ A, ∀ q ∈ m.p, S q.x) (hf : ∀ a b, S a → S b → a < b → f a < f b)
    (hA : lp_polynomial_check_order A) :
    lp_polynomial_check_order
      (A.map (fun m => ({ a := m.a, p := map_indices f m.p } : lp_monomial_t))) := by
  refine ⟨?_, ?_⟩
  · rw [List.pairwise_map]
    refine hA.1.imp_of_mem (fun {m n} hm hn h => ?_)
    show power_cmp (map_indices f m.p) (map_indices f n.p) = Ordering.lt
    rw [power_cmp_map_indices f S m.p n.p (hS m hm) (hS n hn) hf]
    exact h
  · intro n hn
    obtain ⟨m, hm, e⟩ := List.mem_map.1 hn
    rw [← e]
    exact ⟨(hA.2 m hm).1, powers_ordered_map_indices f S m.p (hS m hm) hf (hA.2 m hm).2⟩

theorem exponent_of_map_indices (f : Nat → Nat) (x : Nat) (p : List power_t)
    (hinj : ∀ q ∈ p, f q.x = f x → q.x = x) :
    exponent_of (f x) (map_indices f p) = exponent_of x p := by
  induction p with
  | nil => rfl
  | cons q t ih =>
    have ih2 := ih (fun r hr => hinj r (by simp [hr]))
    unfold map_indices at ih2 ⊢
    rw [List.map_cons, exponent_of_cons, exponent_of_cons, ih2]
    by_cases h : q.x = x
    · rw [if_pos h, if_pos (by rw [h])]
    · have h2 : ¬ f q.x = f x := fun e => h (hinj q (by simp) e)
      rw [if_neg h, if_neg h2]

theorem exponent_of_map_indices_zero (f : Nat → Nat) (y : Nat) (p : List power_t)
    (h : ∀ q ∈ p, f q.x ≠ y) : exponent_of y (map_indices f p) = 0 := by
  apply exponent_of_eq_zero
  intro r hr
  obtain ⟨q, hq, e⟩ := mem_map_indices f p r hr
  rw [e]
  exact h q hq

theorem mem_monomial_order (p : List power_t) (r : power_t) :
    r ∈ lp_monomial_order p ↔ r ∈ p := by
  induction p with
  | nil => rfl
  | cons q t ih =>
    show r ∈ power_insert q (lp_monomial_order t) ↔ r ∈ q :: t
    rw [mem_power_insert, ih, List.mem_cons]

theorem exponent_of_monomial_order (x : Nat) (p : List power_t) :
    exponent_of x (lp_monomial_order p) = exponent_of x p := by
  induction p with
  | nil => rfl
  | cons q t ih =>
    show exponent_of x (power_insert q (lp_monomial_order t)) = exponent_of x (q :: t)
    rw [exponent_of_power_insert, ih, exponent_of_cons, Nat.add_comm]

theorem powers_ordered_monomial_order (p : List power_t) (hd : ∀ q ∈ p, 0 < q.d)
    (hne : p.Pairwise (fun q r => q.x ≠ r.x)) : powers_ordered (lp_monomial_order p) := by
  refine ⟨?_, fun r hr => hd r ((mem_monomial_order p r).1 hr)⟩
  induction p with
  | nil => exact List.Pairwise.nil
  | cons q t ih =>
    rw [List.pairwise_cons] at hne
    show (power_insert q (lp_monomial_order t)).Pairwise (fun q r => r.x < q.x)
    apply pairwise_power_insert q _ (ih (fun r hr => hd r (by simp [hr])) hne.2)
    intro r hr
    exact fun e => hne.1 r ((mem_monomial_order t r).1 hr) e.symm

theorem perm_add_ordered (m : lp_monomial_t) (A : lp_polynomial_t) (hm : m.a ≠ 0)
    (h : ∀ n ∈ A, n.p ≠ m.p) : (coefficient_add_ordered_monomial m A).Perm (m :: A) := by
  induction A with
  | nil => simp [coefficient_add_ordered_monomial, hm]
  | cons n t ih =>
    unfold coefficient_add_ordered_monomial
    cases hc : power_cmp m.p n.p with
    | lt => simp [hm]
    | eq => exact absurd (power_cmp_eq _ _ hc).symm (h n (by simp))
    | gt =>
      simp only
      exact ((ih (fun k hk => h k (by simp [hk]))).cons n).trans (List.Perm.swap m n t)

theorem add_monomial_ordered (A : lp_polynomial_t) (m : lp_monomial_t) :
    lp_polynomial_add_monomial A m = coefficient_add_ordered_monomial (ordered_monomial m) A :=
  rfl

theorem perm_foldl_add_monomial (R acc : lp_polynomial_t) (h0 : ∀ m ∈ R, m.a ≠ 0)
    (hne : (acc ++ R.map ordered_monomial).Pairwise (fun m n => m.p ≠ n.p)) :
    (R.foldl lp_polynomial_add_monomial acc).Perm (acc ++ R.map ordered_monomial) := by
  induction R generalizing acc with
  | nil => simp
  | cons m t ih =>
    rw [List.foldl_cons, add_monomial_ordered]
    have hsym : ∀ {a b : lp_monomial_t}, a.p ≠ b.p → b.p ≠ a.p := fun h e => h e.symm
    have hperm : (coefficient_add_ordered_monomial (ordered_monomial m) acc).Perm
        (ordered_monomial m :: acc) := by
      refine perm_add_ordered (ordered_monomial m) acc (h0 m (by simp)) ?_
      intro n hn
      rw [List.map_cons, List.pairwise_append] at hne
      exact hne.2.2 n hn (ordered_monomial m) (by simp)
    have hperm2 : (coefficient_add_ordered_monomial (ordered_monomial m) acc
          ++ t.map ordered_monomial).Perm (acc ++ (m :: t).map ordered_monomial) := by
      rw [List.map_cons]
      exact (hperm.append_right _).trans (List.perm_middle.symm)
    refine (ih _ (fun n hn => h0 n (by simp [hn])) ?_).trans hperm2
    exact (hperm2.pairwise_iff (fun {a b} h => hsym h)).2 hne

end carl

namespace carl

/-! ## `set_context` -/

theorem collect_powers (c : LPContext) (qs : List power_t) (l : List Variable)
    (h : ∀ q ∈ qs, ∃ v, c.carl_variable q.x = some v) :
    ∃ l2, qs.foldl
        (fun vars q =>
          match vars, c.carl_variable q.x with
          | some l, some v => some (l ++ [v])
          | _, _ => none) (some l) = some (l ++ l2)
      ∧ ∀ v, v ∈ l2 ↔ ∃ q ∈ qs, c.carl_variable q.x = some v := by
  induction qs generalizing l with
  | nil => exact ⟨[], by simp, by simp⟩
  | cons q t ih =>
    obtain ⟨v, hv⟩ := h q (by simp)
    obtain ⟨l2, h1, h2⟩ := ih (l ++ [v]) (fun r hr => h r (by simp [hr]))
    refine ⟨v :: l2, ?_, ?_⟩
    · rw [List.foldl_cons, hv]
      simp only
      rw [h1]
      simp
    · intro w
      rw [List.mem_cons, h2]
      constructor
      · rintro (e | ⟨r, hr, hw⟩)
        · exact ⟨q, by simp, by rw [e]; exact hv⟩
        · exact ⟨r, by simp [hr], hw⟩
      · rintro ⟨r, hr, hw⟩
        rcases List.mem_cons.1 hr with e | hr
        · left
          rw [e, hv] at hw
          exact (Option.some.inj hw).symm
        · exact Or.inr ⟨r, hr, hw⟩

theorem collect_monomials (c : LPContext) (A : lp_polynomial_t) (l : List Variable)
    (h : ∀ m ∈ A, ∀ q ∈ m.p, ∃ v, c.carl_variable q.x = some v) :
    ∃ l2, A.foldl
        (fun acc (m : lp_monomial_t) => m.p.foldl
          (fun vars q =>
            match vars, c.carl_variable q.x with
            | some l, some v => some (l ++ [v])
            | _, _ => none) acc) (some l) = some (l ++ l2)
      ∧ ∀ v, v ∈ l2 ↔ ∃ m ∈ A, ∃ q ∈ m.p, c.carl_variable q.x = some v := by
  induction A generalizing l with
  | nil => exact ⟨[], by simp, by simp⟩
  | cons m t ih =>
    obtain ⟨l1, h1, h2⟩ := collect_powers c m.p l (h m (by simp))
    obtain ⟨l2, h3, h4⟩ := ih (l ++ l1) (fun n hn => h n (by simp [hn]))
    refine ⟨l1 ++ l2, ?_, ?_⟩
    · rw [List.foldl_cons, h1, h3, List.append_assoc]
    · intro w
      rw [List.mem_append, h2, h4]
      constructor
      · rintro (⟨q, hq, hw⟩ | ⟨n, hn, q, hq, hw⟩)
        · exact ⟨m, by simp, q, hq, hw⟩
        · exact ⟨n, by simp [hn], q, hq, hw⟩
      · rintro ⟨n, hn, q, hq, hw⟩
        rcases List.mem_cons.1 hn with e | hn
        · subst e
          exact Or.inl ⟨q, hq, hw⟩
        · exact Or.inr ⟨n, hn, q, hq, hw⟩

theorem variables_of_known (p : LPPolynomial) (c : LPContext)
    (hknow : ∀ m ∈ p.m_internal, ∀ q ∈ m.p, index_known p.m_context c q.x = true) :
    ∃ vars, variables_of p = some vars ∧ vars.all (fun v => c.has v) = true := by
  obtain ⟨l2, h1, h2⟩ := collect_monomials p.m_context p.m_internal [] (by
    intro m hm q hq
    obtain ⟨v, _, hv, _⟩ := (index_known_iff _ _ _).1 (hknow m hm q hq)
    exact ⟨v, hv⟩)
  refine ⟨l2, ?_, ?_⟩
  · rw [List.nil_append] at h1
    exact h1
  · rw [List.all_eq_true]
    intro v hv
    obtain ⟨m, hm, q, hq, hw⟩ := (h2 v).1 hv
    have hk := hknow m hm q hq
    unfold index_known at hk
    rw [hw] at hk
    exact hk

theorem index_known_of_extension (old new : LPContext)
    (hext : new.is_extension_of old = true) (x : Nat)
    (hx : x < old.variable_ordering.length) : index_known old new x = true := by
  obtain ⟨v, hv⟩ := variable_at_of_lt _ x hx
  unfold index_known LPContext.carl_variable
  rw [hv]
  simp only
  rw [context_has_eq_true]
  unfold LPContext.is_extension_of at hext
  exact (List.isSublist_iff_sublist.1 hext).subset (variable_at_mem _ _ _ hv)

theorem valid_of_extension (old new : LPContext) (hnew : new.valid)
    (hext : new.is_extension_of old = true) : old.valid := by
  unfold LPContext.is_extension_of at hext
  exact (List.isSublist_iff_sublist.1 hext).nodup hnew

theorem relabel_index_self (c : LPContext) (hc : c.valid) (x : Nat)
    (hk : index_known c c x = true) : relabel_index c c x = x := by
  obtain ⟨v, y, hv, _⟩ := (index_known_iff c c x).1 hk
  exact relabel_index_eq c c x x v hv (ordering_index_variable_at _ hc x v hv)

theorem relabel_index_round_trip (c1 c2 : LPContext) (h1 : c1.valid) (x : Nat)
    (hk : index_known c1 c2 x = true) :
    relabel_index c2 c1 (relabel_index c1 c2 x) = x := by
  obtain ⟨v, y, hv, hy⟩ := (index_known_iff c1 c2 x).1 hk
  rw [relabel_index_eq c1 c2 x y v hv hy]
  exact relabel_index_eq c2 c1 y x v (variable_at_ordering_index _ _ _ hy)
    (ordering_index_variable_at _ h1 x v hv)

theorem index_known_relabel (c1 c2 : LPContext) (x : Nat)
    (hk : index_known c1 c2 x = true) : index_known c2 c1 (relabel_index c1 c2 x) = true := by
  obtain ⟨v, y, hv, hy⟩ := (index_known_iff c1 c2 x).1 hk
  rw [relabel_index_eq c1 c2 x y v hv hy, index_known_iff]
  obtain ⟨x2, hx2⟩ := ordering_index_of_mem _ _ (variable_at_mem _ _ _ hv)
  exact ⟨v, x2, variable_at_ordering_index _ _ _ hy, hx2⟩

theorem map_indices_id (f : Nat → Nat) (p : List power_t) (h : ∀ q ∈ p, f q.x = q.x) :
    map_indices f p = p := by
  induction p with
  | nil => rfl
  | cons q t ih =>
    have ih2 := ih (fun r hr => h r (by simp [hr]))
    unfold map_indices at ih2 ⊢
    rw [List.map_cons, ih2, h q (by simp)]

theorem map_indices_comp (f g : Nat → Nat) (p : List power_t) :
    map_indices g (map_indices f p) = map_indices (fun x => g (f x)) p := by
  unfold map_indices
  rw [List.map_map]
  rfl

theorem set_context_self (A : lp_polynomial_t) (c : LPContext) (hc : c.valid)
    (hknow : ∀ m ∈ A, ∀ q ∈ m.p, index_known c c q.x = true) :
    lp_polynomial_set_context A c c = A := by
  rw [set_context_eq_map]
  induction A with
  | nil => rfl
  | cons m t ih =>
    rw [List.map_cons, ih (fun n hn => hknow n (by simp [hn])),
      map_indices_id _ m.p (fun q hq => relabel_index_self c hc q.x (hknow m (by simp) q hq))]

theorem relabel_there_and_back (A : lp_polynomial_t) (c1 c2 : LPContext)
    (h1 : c1.valid) (hknow : ∀ m ∈ A, ∀ q ∈ m.p, index_known c1 c2 q.x = true) :
    lp_polynomial_set_context (lp_polynomial_set_context A c1 c2) c2 c1 = A := by
  rw [set_context_eq_map, set_context_eq_map]
  induction A with
  | nil => rfl
  | cons m t ih =>
    rw [List.map_cons, List.map_cons, ih (fun n hn => hknow n (by simp [hn]))]
    simp only
    rw [map_indices_comp, map_indices_id _ m.p
      (fun q hq => relabel_index_round_trip c1 c2 h1 q.x (hknow m (by simp) q hq))]

/-- The exponent of every variable is kept by the relabeling of a monomial. -/
theorem external_exponent_relabel (old new : LPContext) (hold : old.valid) (m : lp_monomial_t)
    (hknow : ∀ q ∈ m.p, index_known old new q.x = true) (v : Variable) :
    external_exponent new { a := m.a, p := map_indices (relabel_index old new) m.p } v
      = external_exponent old m v := by
  unfold external_exponent
  cases hy : new.lp_variable_opt v with
  | none =>
    cases hx : old.lp_variable_opt v with
    | none => rfl
    | some x =>
      simp only
      symm
      apply exponent_of_eq_zero
      intro q hq e
      obtain ⟨w, y, hw, hwy⟩ := (index_known_iff old new q.x).1 (hknow q hq)
      have hv := variable_at_ordering_index _ _ _ hx
      rw [e] at hw
      unfold LPContext.carl_variable at hw
      rw [hv] at hw
      rw [← Option.some.inj hw, hy] at hwy
      exact Option.noConfusion hwy
  | some y =>
    cases hx : old.lp_variable_opt v with
    | none =>
      simp only
      apply exponent_of_map_indices_zero
      intro q hq e
      obtain ⟨w, y2, hw, hwy⟩ := (index_known_iff old new q.x).1 (hknow q hq)
      rw [relabel_index_eq old new q.x y2 w hw hwy] at e
      rw [e] at hwy
      have hwv : w = v := ordering_index_injective _ w v y hwy hy
      rw [hwv] at hw
      obtain ⟨x2, hx2⟩ := ordering_index_of_mem _ _ (variable_at_mem _ _ _ hw)
      unfold LPContext.lp_variable_opt at hx
      rw [hx] at hx2
      exact Option.noConfusion hx2
    | some x =>
      simp only
      have hv : old.carl_variable x = some v := variable_at_ordering_index _ _ _ hx
      have hkx : index_known old new x = true :=
        (index_known_iff old new x).2 ⟨v, y, hv, hy⟩
      rw [← relabel_index_eq old new x y v hv hy]
      exact exponent_of_map_indices _ x m.p
        (fun q hq e => relabel_index_injective old new hold q.x x (hknow q hq) hkx e)

theorem external_exponent_ordered (c : LPContext) (m : lp_monomial_t) (v : Variable) :
    external_exponent c (ordered_monomial m) v = external_exponent c m v := by
  unfold external_exponent ordered_monomial
  cases c.lp_variable_opt v with
  | none => rfl
  | some x => exact exponent_of_monomial_order x m.p

theorem external_monomials_relabel (A : lp_polynomial_t) (old new : LPContext)
    (hold : old.valid) (hknow : ∀ m ∈ A, ∀ q ∈ m.p, index_known old new q.x = true) :
    external_monomials { m_internal := lp_polynomial_set_context A old new, m_context := new }
      = external_monomials { m_internal := A, m_context := old } := by
  unfold external_monomials
  rw [set_context_eq_map, List.map_map]
  apply List.map_congr_left
  intro m hm
  simp only [Function.comp]
  congr 1
  funext v
  exact external_exponent_relabel old new hold m (hknow m hm) v

theorem check_order_relabel (A : lp_polynomial_t) (old new : LPContext)
    (hold : old.valid) (hnew : new.valid)
    (hext : new.is_extension_of old = true ∨ old.is_extension_of new = true)
    (hknow : ∀ m ∈ A, ∀ q ∈ m.p, index_known old new q.x = true)
    (hA : lp_polynomial_check_order A) :
    lp_polynomial_check_order (lp_polynomial_set_context A old new) := by
  rw [set_context_eq_map]
  exact check_order_map_indices _ (fun x => index_known old new x = true) A hknow
    (fun a b ha hb h => relabel_index_lt old new hold hnew hext a b ha hb h) hA

theorem relabel_bound (A : lp_polynomial_t) (old new : LPContext)
    (hknow : ∀ m ∈ A, ∀ q ∈ m.p, index_known old new q.x = true) :
    ∀ n ∈ lp_polynomial_set_context A old new, ∀ r ∈ n.p,
      r.x < new.variable_ordering.length := by
  intro n hn r hr
  rw [set_context_eq_map] at hn
  obtain ⟨m, hm, e⟩ := List.mem_map.1 hn
  rw [← e] at hr
  obtain ⟨q, hq, e2⟩ := mem_map_indices _ _ r hr
  rw [e2]
  exact relabel_index_bound old new q.x (hknow m hm q hq)

end carl

namespace carl

theorem relabel_keys_ne (old new : LPContext) (hold : old.valid) (p1 p2 : List power_t)
    (hp1 : powers_ordered p1) (hp2 : powers_ordered p2)
    (hk1 : ∀ q ∈ p1, index_known old new q.x = true)
    (hk2 : ∀ q ∈ p2, index_known old new q.x = true)
    (h : lp_monomial_order (map_indices (relabel_index old new) p1)
        = lp_monomial_order (map_indices (relabel_index old new) p2)) : p1 = p2 := by
  apply powers_ordered_ext p1 p2 hp1 hp2
  intro x
  by_cases hx : index_known old new x = true
  · have e1 := exponent_of_map_indices (relabel_index old new) x p1
      (fun q hq e => relabel_index_injective old new hold q.x x (hk1 q hq) hx e)
    have e2 := exponent_of_map_indices (relabel_index old new) x p2
      (fun q hq e => relabel_index_injective old new hold q.x x (hk2 q hq) hx e)
    rw [← e1, ← e2, ← exponent_of_monomial_order, h, exponent_of_monomial_order]
  · rw [exponent_of_eq_zero x p1 (fun q hq e => hx (e ▸ hk1 q hq)),
      exponent_of_eq_zero x p2 (fun q hq e => hx (e ▸ hk2 q hq))]

theorem powers_ordered_relabel_order (old new : LPContext) (hold : old.valid)
    (p : List power_t) (hp : powers_ordered p)
    (hk : ∀ q ∈ p, index_known old new q.x = true) :
    powers_ordered (lp_monomial_order (map_indices (relabel_index old new) p)) := by
  apply powers_ordered_monomial_order
  · intro r hr
    obtain ⟨q, hq, e⟩ := mem_map_indices _ _ r hr
    rw [e]
    exact hp.2 q hq
  · unfold map_indices
    rw [List.pairwise_map]
    refine hp.1.imp_of_mem (fun {q r} hq hr h e => ?_)
    have := relabel_index_injective old new hold q.x r.x (hk q hq) (hk r hr) e
    omega

theorem foldl_add_monomial_ordered (R acc : lp_polynomial_t)
    (hR : ∀ m ∈ R, powers_ordered (ordered_monomial m).p) :
    R.foldl lp_polynomial_add_monomial acc
      = (R.map ordered_monomial).foldl lp_polynomial_add_monomial acc := by
  induction R generalizing acc with
  | nil => rfl
  | cons m t ih =>
    rw [List.map_cons, List.foldl_cons, List.foldl_cons,
      add_monomial_eq acc (ordered_monomial m) (hR m (by simp)), ← add_monomial_ordered]
    exact ih _ (fun n hn => hR n (by simp [hn]))

theorem relabel_ordered (A : lp_polynomial_t) (old new : LPContext) (hold : old.valid)
    (hknow : ∀ m ∈ A, ∀ q ∈ m.p, index_known old new q.x = true)
    (hA : lp_polynomial_check_order A) :
    ∀ m ∈ lp_polynomial_set_context A old new, powers_ordered (ordered_monomial m).p := by
  intro n hn
  rw [set_context_eq_map] at hn
  obtain ⟨m, hm, e⟩ := List.mem_map.1 hn
  rw [← e]
  exact powers_ordered_relabel_order old new hold m.p (hA.2 m hm).2 (hknow m hm)

theorem check_order_reorder (A : lp_polynomial_t) (old new : LPContext) (hold : old.valid)
    (hknow : ∀ m ∈ A, ∀ q ∈ m.p, index_known old new q.x = true)
    (hA : lp_polynomial_check_order A) :
    lp_polynomial_check_order
      (lp_polynomial_ensure_order (lp_polynomial_set_context A old new)) := by
  have hR := relabel_ordered A old new hold hknow hA
  unfold lp_polynomial_ensure_order
  rw [foldl_add_monomial_ordered _ _ hR]
  apply check_order_foldl _ _ check_order_nil
  intro n hn
  obtain ⟨m, hm, e⟩ := List.mem_map.1 hn
  rw [← e]
  exact hR m hm

theorem reorder_bound (A : lp_polynomial_t) (old new : LPContext) (hold : old.valid)
    (hknow : ∀ m ∈ A, ∀ q ∈ m.p, index_known old new q.x = true)
    (hA : lp_polynomial_check_order A) :
    ∀ n ∈ lp_polynomial_ensure_order (lp_polynomial_set_context A old new), ∀ r ∈ n.p,
      r.x < new.variable_ordering.length := by
  have hR := relabel_ordered A old new hold hknow hA
  intro n hn r hr
  unfold lp_polynomial_ensure_order at hn
  rw [foldl_add_monomial_ordered _ _ hR] at hn
  obtain ⟨k, hk, e⟩ := mem_foldl_add_monomial _ _ (by
    intro n hn
    obtain ⟨m, hm, e⟩ := List.mem_map.1 hn
    rw [← e]
    exact hR m hm) n hn
  have hk2 : k ∈ (lp_polynomial_set_context A old new).map ordered_monomial := by
    simpa [lp_polynomial_new] using hk
  obtain ⟨m, hm, e2⟩ := List.mem_map.1 hk2
  rw [← e, ← e2] at hr
  have hr2 : r ∈ m.p := (mem_monomial_order m.p r).1 hr
  exact relabel_bound A old new hknow m hm r hr2

theorem perm_reorder (A : lp_polynomial_t) (old new : LPContext) (hold : old.valid)
    (hknow : ∀ m ∈ A, ∀ q ∈ m.p, index_known old new q.x = true)
    (hA : lp_polynomial_check_order A) :
    (lp_polynomial_ensure_order (lp_polynomial_set_context A old new)).Perm
      ((lp_polynomial_set_context A old new).map ordered_monomial) := by
  have h := perm_foldl_add_monomial (lp_polynomial_set_context A old new) [] (by
    intro n hn
    rw [set_context_eq_map] at hn
    obtain ⟨m, hm, e⟩ := List.mem_map.1 hn
    rw [← e]
    exact (hA.2 m hm).1) (by
    rw [List.nil_append, set_context_eq_map, List.map_map, List.pairwise_map]
    refine hA.1.imp_of_mem (fun {m n} hm hn h e => ?_)
    exact power_cmp_ne_of_lt _ _ h
      (relabel_keys_ne old new hold m.p n.p (hA.2 m hm).2 (hA.2 n hn).2
        (hknow m hm) (hknow n hn) e))
  rw [List.nil_append] at h
  exact h

theorem external_monomials_reorder (A : lp_polynomial_t) (old new : LPContext)
    (hold : old.valid) (hknow : ∀ m ∈ A, ∀ q ∈ m.p, index_known old new q.x = true)
    (hA : lp_polynomial_check_order A) :
    (external_monomials
        { m_internal := lp_polynomial_ensure_order (lp_polynomial_set_context A old new),
          m_context := new }).Perm
      (external_monomials { m_internal := A, m_context := old }) := by
  have h := (perm_reorder A old new hold hknow hA).map
    (fun m => (m.a, external_exponent new m))
  have e : ((lp_polynomial_set_context A old new).map ordered_monomial).map
        (fun m => (m.a, external_exponent new m))
      = external_monomials { m_internal := A, m_context := old } := by
    rw [← external_monomials_relabel A old new hold hknow]
    unfold external_monomials
    rw [List.map_map]
    apply List.map_congr_left
    intro m _
    simp only [Function.comp]
    congr 1
    funext v
    exact external_exponent_ordered new m v
  rw [e] at h
  exact h

theorem set_context_same (p : LPPolynomial) (c : LPContext)
    (hknow : ∀ m ∈ p.m_internal, ∀ q ∈ m.p, index_known p.m_context c q.x = true)
    (hc : p.m_context = c) : p.set_context c = some p := by
  obtain ⟨vars, h1, h2⟩ := variables_of_known p c hknow
  have hc2 : p.context = c := hc
  unfold LPPolynomial.set_context
  rw [h1]
  simp only
  rw [if_pos h2, if_pos hc2]

theorem set_context_relabel (p : LPPolynomial) (c : LPContext)
    (hold : p.m_context.valid) (hnew : c.valid) (hp : p.well_formed)
    (hknow : ∀ m ∈ p.m_internal, ∀ q ∈ m.p, index_known p.m_context c q.x = true)
    (hc : ¬ p.m_context = c)
    (hext : c.is_extension_of p.m_context = true ∨ p.m_context.is_extension_of c = true) :
    p.set_context c
      = some { m_internal := lp_polynomial_set_context p.m_internal p.m_context c,
               m_context := c } := by
  obtain ⟨vars, h1, h2⟩ := variables_of_known p c hknow
  have hc2 : ¬ p.context = c := hc
  have hr : (!(c.is_extension_of p.context || p.context.is_extension_of c)) = false := by
    show (!(c.is_extension_of p.m_context || p.m_context.is_extension_of c)) = false
    rcases hext with h | h <;> simp [h]
  unfold LPPolynomial.set_context
  rw [h1]
  simp only
  rw [if_pos h2, if_neg hc2, hr]
  simp only [Bool.false_eq_true, if_false]
  have hco := check_order_relabel p.m_internal p.m_context c hold hnew hext hknow hp.1
  exact if_pos hco

theorem set_context_reorder (p : LPPolynomial) (c : LPContext)
    (hold : p.m_context.valid) (hp : p.well_formed)
    (hknow : ∀ m ∈ p.m_internal, ∀ q ∈ m.p, index_known p.m_context c q.x = true)
    (hc : ¬ p.m_context = c)
    (hext : ¬ (c.is_extension_of p.m_context = true ∨ p.m_context.is_extension_of c = true)) :
    p.set_context c
      = some { m_internal := lp_polynomial_ensure_order
                 (lp_polynomial_set_context p.m_internal p.m_context c),
               m_context := c } := by
  obtain ⟨vars, h1, h2⟩ := variables_of_known p c hknow
  have hc2 : ¬ p.context = c := hc
  have hr : (!(c.is_extension_of p.context || p.context.is_extension_of c)) = true := by
    show (!(c.is_extension_of p.m_context || p.m_context.is_extension_of c)) = true
    rw [not_or] at hext
    simp [hext.1, hext.2]
  unfold LPPolynomial.set_context
  rw [h1]
  simp only
  rw [if_pos h2, if_neg hc2, hr]
  simp only [if_true]
  have hco := check_order_reorder p.m_internal p.m_context c hold hknow hp.1
  exact if_pos hco

end carl

namespace carl

/-- C24: for a context `C2` that is an extension of the context `C1` and a
polynomial `p` over `C1`, `set_context(C2)` followed by `set_context(C1)`
succeeds and gives back `p`: the same monomial list (so `==` holds) with the
context `C1`. -/
theorem set_context_round_trip (p : LPPolynomial) (C1 C2 : LPContext)
    (hp : p.well_formed) (hC1 : p.m_context = C1) (hv : C2.valid)
    (hext : C2.is_extension_of C1 = true) :
    ∃ q r, p.set_context C2 = some q ∧ q.m_context = C2
      ∧ q.set_context C1 = some r ∧ r = p ∧ r.m_context = C1
      ∧ LPPolynomial.eq r p = true := by
  subst hC1
  have hv1 : p.m_context.valid := valid_of_extension _ _ hv hext
  have hknow : ∀ m ∈ p.m_internal, ∀ q ∈ m.p, index_known p.m_context C2 q.x = true :=
    fun m hm q hq => index_known_of_extension _ _ hext q.x (hp.2 m hm q hq)
  have heq : LPPolynomial.eq p p = true := by
    simp [LPPolynomial.eq, lp_polynomial_eq]
  by_cases hc : p.m_context = C2
  · have h1 := set_context_same p C2 hknow hc
    subst hc
    exact ⟨p, p, h1, rfl, h1, rfl, rfl, heq⟩
  · have h1 := set_context_relabel p C2 hv1 hv hp hknow hc (Or.inl hext)
    have hq : LPPolynomial.well_formed
        { m_internal := lp_polynomial_set_context p.m_internal p.m_context C2,
          m_context := C2 } :=
      ⟨check_order_relabel _ _ _ hv1 hv (Or.inl hext) hknow hp.1,
        relabel_bound _ _ _ hknow⟩
    have hknow2 : ∀ n ∈ lp_polynomial_set_context p.m_internal p.m_context C2, ∀ r ∈ n.p,
        index_known C2 p.m_context r.x = true := by
      intro n hn r hr
      rw [set_context_eq_map] at hn
      obtain ⟨m, hm, e⟩ := List.mem_map.1 hn
      rw [← e] at hr
      obtain ⟨q, hq, e2⟩ := mem_map_indices _ _ r hr
      rw [e2]
      exact index_known_relabel _ _ q.x (hknow m hm q hq)
    have h2 := set_context_relabel
      { m_internal := lp_polynomial_set_context p.m_internal p.m_context C2, m_context := C2 }
      p.m_context hv hv1 hq hknow2 (fun e => hc e.symm) (Or.inr hext)
    simp only [relabel_there_and_back p.m_internal p.m_context C2 hv1 hknow] at h2
    exact ⟨_, p, h1, rfl, h2, rfl, rfl, heq⟩

/-- Witness for C24 at `3 + 2y - x*y` over the context `[x, y]` and the
extension `[x, z, y]`. -/
theorem set_context_round_trip_witness :
    poly_mixed.well_formed ∧ poly_mixed.m_context = context_xy
      ∧ (LPContext.mk [0, 2, 1]).valid
      ∧ (LPContext.mk [0, 2, 1]).is_extension_of context_xy = true
      ∧ ∃ q r, poly_mixed.set_context (LPContext.mk [0, 2, 1]) = some q
          ∧ q.m_context = LPContext.mk [0, 2, 1]
          ∧ q.set_context context_xy = some r ∧ r = poly_mixed ∧ r.m_context = context_xy
          ∧ LPPolynomial.eq r poly_mixed = true :=
  ⟨by decide, rfl, by decide, by decide,
    set_context_round_trip poly_mixed context_xy (LPContext.mk [0, 2, 1])
      (by decide) rfl (by decide) (by decide)⟩

/-- C25: for a polynomial `p` and a context `c` that knows every variable of
`p`, `set_context(c)` succeeds; the result has the context `c`, satisfies the
order validation and has the same monomials as `p` (the same coefficients with
the same exponent of every variable); it is `p` itself when `c` is the context
of `p`; and when one of the two contexts is an extension of the other, the
relabeled monomial list is already in the canonical order of `c` and is the
result, monomial by monomial. -/
theorem set_context_frame (p : LPPolynomial) (c : LPContext)
    (hp : p.well_formed) (hold : p.m_context.valid) (hnew : c.valid)
    (hknow : ∀ m ∈ p.m_internal, ∀ q ∈ m.p, index_known p.m_context c q.x = true) :
    ∃ r, p.set_context c = some r ∧ r.m_context = c ∧ r.well_formed
      ∧ (external_monomials r).Perm (external_monomials p)
      ∧ (c = p.m_context → r = p)
      ∧ (c.is_extension_of p.m_context = true ∨ p.m_context.is_extension_of c = true →
          lp_polynomial_check_order (lp_polynomial_set_context p.m_internal p.m_context c)
            ∧ r.m_internal = lp_polynomial_set_context p.m_internal p.m_context c
            ∧ external_monomials r = external_monomials p) := by
  by_cases hc : p.m_context = c
  · have h1 := set_context_same p c hknow hc
    subst hc
    have hself := set_context_self p.m_internal p.m_context hold hknow
    refine ⟨p, h1, rfl, hp, List.Perm.refl _, fun _ => rfl, fun _ => ?_⟩
    rw [hself]
    exact ⟨hp.1, rfl, rfl⟩
  · by_cases hext : c.is_extension_of p.m_context = true ∨ p.m_context.is_extension_of c = true
    · have hco := check_order_relabel _ _ _ hold hnew hext hknow hp.1
      have hex := external_monomials_relabel p.m_internal p.m_context c hold hknow
      refine ⟨_, set_context_relabel p c hold hnew hp hknow hc hext, rfl,
        ⟨hco, relabel_bound _ _ _ hknow⟩, ?_, fun e => absurd e.symm hc,
        fun _ => ⟨hco, rfl, hex⟩⟩
      rw [hex]
    · exact ⟨_, set_context_reorder p c hold hp hknow hc hext, rfl,
        ⟨check_order_reorder _ _ _ hold hknow hp.1, reorder_bound _ _ _ hold hknow hp.1⟩,
        external_monomials_reorder p.m_internal p.m_context c hold hknow hp.1,
        fun e => absurd e.symm hc, fun h => absurd h hext⟩

/-- Witness for C25 at `6x^2y - 9xy^2` over the context `[x, y]` and the new
context `[y, x]`, where the monomials have to be reordered. -/
theorem set_context_frame_witness :
    poly_example_xy.well_formed ∧ poly_example_xy.m_context.valid ∧ context_yx.valid
      ∧ (∀ m ∈ poly_example_xy.m_internal, ∀ q ∈ m.p,
          index_known poly_example_xy.m_context context_yx q.x = true)
      ∧ ∃ r, poly_example_xy.set_context context_yx = some r ∧ r.m_context = context_yx
          ∧ r.well_formed
          ∧ (external_monomials r).Perm (external_monomials poly_example_xy)
          ∧ (context_yx = poly_example_xy.m_context → r = poly_example_xy)
          ∧ (context_yx.is_extension_of poly_example_xy.m_context = true
              ∨ poly_example_xy.m_context.is_extension_of context_yx = true →
              lp_polynomial_check_order
                  (lp_polynomial_set_context poly_example_xy.m_internal poly_example_xy.m_context
                    context_yx)
                ∧ r.m_internal
                    = lp_polynomial_set_context poly_example_xy.m_internal poly_example_xy.m_context
                        context_yx
                ∧ external_monomials r = external_monomials poly_example_xy) :=
  ⟨by decide, by decide, by decide, by decide,
    set_context_frame poly_example_xy context_yx (by decide) (by decide) (by decide) (by decide)⟩

end carl

namespace carl

/-! ## Construction from integers and rationals -/

theorem is_zero_construct (c : LPContext) (n : Int) :
    is_zero (LPPolynomial.of_mpz c n) = true ↔ n = 0 := by
  unfold is_zero LPPolynomial.of_mpz LPPolynomial.get_internal construct_lp_poly
    lp_polynomial_is_zero
  by_cases hn : n = 0
  · simp [hn]
  · simp [hn]

theorem well_formed_construct (c : LPContext) (n : Int) :
    (LPPolynomial.of_mpz c n).well_formed := by
  refine ⟨check_order_construct n, ?_⟩
  intro m hm q hq
  unfold LPPolynomial.of_mpz construct_lp_poly at hm
  by_cases hn : n = 0
  · simp [hn] at hm
  · simp only [hn, if_false, List.mem_singleton] at hm
    rw [hm] at hq
    exact absurd hq (List.not_mem_nil _)

/-- C31: the polynomial constructed from a rational `q` is the constant
polynomial of the numerator of `q`, the denominator is dropped (`3/2` gives the
constant 3); and the polynomial constructed from an integer `n` is a
well-formed constant polynomial with `constant_part` `n` that is zero iff
`n = 0`. -/
theorem of_mpq_numerator (C : LPContext) (q : Rat) (n : Int) :
    (LPPolynomial.of_mpq C q).eq (LPPolynomial.of_mpz C q.num) = true
      ∧ LPPolynomial.of_mpq C q = LPPolynomial.of_mpz C q.num
      ∧ is_constant (LPPolynomial.of_mpq C q) = true
      ∧ (LPPolynomial.of_mpq C q).constant_part = q.num
      ∧ (LPPolynomial.of_mpz C n).m_context = C
      ∧ (LPPolynomial.of_mpz C n).well_formed
      ∧ is_constant (LPPolynomial.of_mpz C n) = true
      ∧ (LPPolynomial.of_mpz C n).constant_part = n
      ∧ (is_zero (LPPolynomial.of_mpz C n) = true ↔ n = 0)
      ∧ (LPPolynomial.of_mpq context_xy (3 / 2)).constant_part = 3
      ∧ (LPPolynomial.of_mpq context_xy (-6 / 4)).m_internal = [{ a := -3, p := [] }] := by
  have hconst : ∀ k : Int, is_constant (LPPolynomial.of_mpz C k) = true
      ∧ (LPPolynomial.of_mpz C k).constant_part = k :=
    fun k => (eq_mpz_iff_constant _ k).1 (eq_mpz_of_construct C k)
  have h32 : ((3 : Rat) / 2).num = 3 := by norm_num
  have h64 : ((-6 : Rat) / 4).num = -3 := by
    have e : ((-6 : Rat) / 4) = ((-3 : Int) : Rat) / ((2 : Int) : Rat) := by norm_num
    rw [e]
    exact @Rat.num_div_eq_of_coprime (-3) 2 (by norm_num) (by norm_num)
  refine ⟨?_, rfl, (hconst q.num).1, (hconst q.num).2, rfl, well_formed_construct C n,
    (hconst n).1, (hconst n).2, is_zero_construct C n, ?_, ?_⟩
  · simp [LPPolynomial.eq, lp_polynomial_eq, LPPolynomial.of_mpq, get_num]
  · have h := ((eq_mpz_iff_constant _ (3 : Int)).1 (eq_mpz_of_construct context_xy 3)).2
    unfold LPPolynomial.of_mpq get_num LPPolynomial.of_mpz
    rw [h32]
    exact h
  · unfold LPPolynomial.of_mpq get_num LPPolynomial.of_mpz
    rw [h64]
    rfl

/-! ## Integer division of the CLN adaption -/

theorem abs_tmod_lt (a b : Int) (hb : b ≠ 0) : |a.tmod b| < |b| := by
  have key : ∀ (x y : Int), 0 < y → |x.tmod y| < y := by
    intro x y hy
    rcases le_or_lt 0 x with hx | hx
    · rw [abs_of_nonneg (Int.tmod_nonneg y hx)]
      exact Int.tmod_lt_of_pos x hy
    · have hx2 : 0 ≤ -x := by omega
      have e : x.tmod y = -((-x).tmod y) := by
        rw [Int.tmod_def, Int.tmod_def, Int.neg_tdiv]
        ring
      rw [e, abs_neg, abs_of_nonneg (Int.tmod_nonneg y hx2)]
      exact Int.tmod_lt_of_pos (-x) hy
  rcases lt_or_gt_of_ne hb with h | h
  · have := key a (-b) (by omega)
    rw [Int.tmod_neg] at this
    rw [abs_of_neg h]
    exact this
  · rw [abs_of_pos h]
    exact key a b h

theorem quotient_eq (a b : Int) (hb : b ≠ 0) : quotient a b = some (a.tdiv b) := by
  have h1 : a - a.tmod b = b * a.tdiv b := by
    have := Int.tmod_add_tdiv a b
    omega
  unfold quotient cln.rem cln.exquo
  rw [if_neg hb]
  simp only
  rw [h1, if_pos ⟨hb, Dvd.intro _ rfl⟩, Int.mul_ediv_cancel_left _ hb]

theorem div_eq (a b : Int) (hb : b ≠ 0) (hdvd : b ∣ a) : div a b = some (a.tdiv b) := by
  obtain ⟨k, rfl⟩ := hdvd
  unfold div cln.mod cln.exquo
  rw [if_neg hb]
  simp only [Int.mul_fmod_right, if_true]
  rw [if_pos ⟨hb, Dvd.intro _ rfl⟩, Int.mul_ediv_cancel_left _ hb]
  congr 1
  have h := Int.tmod_add_tdiv (b * k) b
  rw [Int.mul_tmod_right, zero_add] at h
  exact (Int.eq_of_mul_eq_mul_left hb h).symm

/-- C32: for integers `a` and `b` with `b != 0`, `quotient(a, b)` discards the
remainder: `a = quotient(a, b) * b + remainder(a, b)` with
`|remainder(a, b)| < |b|`; `operator/` is `quotient`; and when `b` divides `a`,
`div(a, b)` is `quotient(a, b)` and `div(a, b) * b = a`. -/
theorem quotient_discards_remainder (a b : Int) (hb : b ≠ 0) :
    ∃ q r, quotient a b = some q ∧ remainder a b = some r
      ∧ a = q * b + r ∧ |r| < |b|
      ∧ operator_div a b = some q
      ∧ (b ∣ a → div a b = some q ∧ q * b = a) := by
  refine ⟨a.tdiv b, a.tmod b, quotient_eq a b hb, ?_, ?_, abs_tmod_lt a b hb,
    quotient_eq a b hb, ?_⟩
  · unfold remainder cln.rem
    rw [if_neg hb]
  · have := Int.tmod_add_tdiv a b
    rw [Int.mul_comm] at this
    omega
  · intro hdvd
    refine ⟨div_eq a b hb hdvd, ?_⟩
    have h := Int.tmod_add_tdiv a b
    rw [Int.tmod_eq_zero_of_dvd hdvd, zero_add, Int.mul_comm] at h
    exact h

/-- Witness for C32 at `a = -7`, `b = 2`: the quotient is `-3`, the remainder
`-1`. -/
theorem quotient_discards_remainder_witness :
    (2 : Int) ≠ 0
      ∧ ∃ q r, quotient (-7) 2 = some q ∧ remainder (-7) 2 = some r
          ∧ (-7 : Int) = q * 2 + r ∧ |r| < |(2 : Int)|
          ∧ operator_div (-7) 2 = some q
          ∧ ((2 : Int) ∣ -7 → div (-7) 2 = some q ∧ q * 2 = -7) :=
  ⟨by decide, quotient_discards_remainder (-7) 2 (by decide)⟩

/-! ## Content of the zero polynomial and of a single monomial -/

/-- C34: on the zero polynomial `coprime_factor` is 0, so the shortcut for the
factor 1 is not taken and the polynomial is divided by the constant polynomial
0, which has no result: neither `coprime_coefficients` nor `normalized` has a
result on the zero polynomial. -/
theorem coprime_coefficients_zero_undefined (c : LPContext) :
    (LPPolynomial.zero c).coprime_factor = 0
      ∧ ¬ (LPPolynomial.zero c).coprime_factor = 1
      ∧ lp_polynomial_div (LPPolynomial.zero c).get_internal
          (construct_lp_poly (LPPolynomial.zero c).coprime_factor) = none
      ∧ (LPPolynomial.zero c).coprime_coefficients = none
      ∧ (LPPolynomial.zero c).normalized = none := by
  refine ⟨rfl, ?_, rfl, rfl, rfl⟩
  have h : (LPPolynomial.zero c).coprime_factor = 0 := rfl
  rw [h]
  decide

theorem coprime_coefficients_single (C : LPContext) (c : Int) (m : List power_t) (hc : c ≠ 0) :
    LPPolynomial.coprime_coefficients { m_internal := [{ a := c, p := m }], m_context := C }
      = some { m_internal := [{ a := 1, p := m }], m_context := C } := by
  unfold LPPolynomial.coprime_coefficients
  rw [coprime_factor_single]
  simp only
  by_cases h1 : c = 1
  · rw [if_pos h1, h1]
  · rw [if_neg h1]
    unfold construct_lp_poly lp_polynomial_div LPPolynomial.get_internal
    rw [if_neg hc]
    simp [hc, LPPolynomial.context]

theorem coprime_factor_pos_of_two (p : LPPolynomial) (hp : p.well_formed)
    (h2 : 2 ≤ p.m_internal.length) : 0 < p.coprime_factor := by
  obtain ⟨A, c⟩ := p
  match A, hp, h2 with
  | [], _, h2 => simp at h2
  | [_], _, h2 => simp at h2
  | m :: n :: t, hp, _ =>
    rw [coprime_factor_many]
    have h := content_cons_ne_zero m.a (coefficients (n :: t)) (hp.1.2 m (by simp)).1
    have h3 : 0 < content (coefficients (m :: n :: t)) := Nat.pos_of_ne_zero h
    exact_mod_cast h3

/-- C35: for a polynomial with exactly one monomial `c * m`, `coprime_factor`
is the coefficient `c` itself, with its sign (negative when `c < 0`), and
`coprime_coefficients` returns the monomial `1 * m`; for a polynomial with at
least two monomials `coprime_factor` is strictly positive. -/
theorem coprime_factor_single_signed (C : LPContext) (c : Int) (m : List power_t)
    (p : LPPolynomial) (hc : c ≠ 0) (hp : p.well_formed) (h2 : 2 ≤ p.m_internal.length) :
    LPPolynomial.coprime_factor { m_internal := [{ a := c, p := m }], m_context := C } = c
      ∧ (c < 0 →
          LPPolynomial.coprime_factor { m_internal := [{ a := c, p := m }], m_context := C } < 0)
      ∧ LPPolynomial.coprime_coefficients { m_internal := [{ a := c, p := m }], m_context := C }
          = some { m_internal := [{ a := 1, p := m }], m_context := C }
      ∧ 0 < p.coprime_factor :=
  ⟨coprime_factor_single _ C, fun h => by rw [coprime_factor_single]; exact h,
    coprime_coefficients_single C c m hc, coprime_factor_pos_of_two p hp h2⟩

/-- Witness for C35 at the monomial `-4 * x^2` and the polynomial `x + 5`. -/
theorem coprime_factor_single_signed_witness :
    (-4 : Int) ≠ 0 ∧ poly_x_plus_5.well_formed ∧ 2 ≤ poly_x_plus_5.m_internal.length
      ∧ LPPolynomial.coprime_factor
          { m_internal := [{ a := -4, p := [{ x := 0, d := 2 }] }], m_context := context_xy } = -4
      ∧ ((-4 : Int) < 0 →
          LPPolynomial.coprime_factor
            { m_internal := [{ a := -4, p := [{ x := 0, d := 2 }] }], m_context := context_xy }
              < 0)
      ∧ LPPolynomial.coprime_coefficients
          { m_internal := [{ a := -4, p := [{ x := 0, d := 2 }] }], m_context := context_xy }
          = some { m_internal := [{ a := 1, p := [{ x := 0, d := 2 }] }],
                   m_context := context_xy }
      ∧ 0 < poly_x_plus_5.coprime_factor :=
  ⟨by decide, by decide, by decide,
    coprime_factor_single_signed context_xy (-4) [{ x := 0, d := 2 }] poly_x_plus_5
      (by decide) (by decide) (by decide)⟩

end carl

namespace carl

/-! ## Agreement of the variable queries -/

theorem variables_of_well_formed (p : LPPolynomial) (hp : p.well_formed) :
    ∃ vars, variables_of p = some vars
      ∧ ∀ w, w ∈ vars ↔ ∃ m ∈ p.m_internal, ∃ q ∈ m.p, p.m_context.carl_variable q.x = some w := by
  obtain ⟨l2, h1, h2⟩ := collect_monomials p.m_context p.m_internal []
    (fun m hm q hq => variable_at_of_lt _ q.x (hp.2 m hm q hq))
  refine ⟨l2, ?_, h2⟩
  rw [List.nil_append] at h1
  exact h1

theorem foldr_max_pos (l : List Nat) : 0 < l.foldr max 0 ↔ ∃ d ∈ l, 0 < d := by
  constructor
  · intro h
    by_cases hl : l = []
    · subst hl
      simp at h
    · exact ⟨_, foldr_max_mem l hl, h⟩
  · rintro ⟨d, hd, h⟩
    exact lt_of_lt_of_le h (foldr_max_ge l d hd)

theorem has_eq_true_iff (p : LPPolynomial) (v : Variable) (x : Nat)
    (hv : p.m_context.lp_variable_opt v = some x) :
    p.has v = true ↔ ∃ m ∈ p.m_internal, ∃ q ∈ m.p, q.x = x := by
  have hv2 : p.context.lp_variable_opt v = some x := hv
  unfold LPPolynomial.has
  simp only [hv2, lp_variable_list_contains, LPPolynomial.get_internal]
  rw [← mem_get_variables p.m_internal x]
  simp

theorem degree_pos_iff (p : LPPolynomial) (hp : p.well_formed) (x : Nat) :
    0 < (p.m_internal.map (fun m => LPPolynomial.current_degree_of x m.p)).foldr max 0
      ↔ ∃ m ∈ p.m_internal, ∃ q ∈ m.p, q.x = x := by
  rw [foldr_max_pos]
  constructor
  · rintro ⟨d, hd, hpos⟩
    obtain ⟨m, hm, rfl⟩ := List.mem_map.1 hd
    rw [current_degree_of_eq x m.p (hp.1.2 m hm).2.1] at hpos
    obtain ⟨q, hq, hx⟩ := exists_power_of_exponent_pos x m.p hpos
    exact ⟨m, hm, q, hq, hx⟩
  · rintro ⟨m, hm, q, hq, hx⟩
    refine ⟨_, List.mem_map.2 ⟨m, hm, rfl⟩, ?_⟩
    rw [current_degree_of_eq x m.p (hp.1.2 m hm).2.1, ← hx,
      exponent_of_mem m.p (hp.1.2 m hm).2.1 q hq]
    exact (hp.1.2 m hm).2.2 q hq

theorem sum_exponents_eq_zero_iff (p : List power_t) (hp : powers_ordered p) :
    (p.map (fun q => q.d)).sum = 0 ↔ p = [] := by
  constructor
  · intro h
    cases p with
    | nil => rfl
    | cons q t =>
      have h1 := exponent_le_sum (q :: t) q (by simp)
      have h2 := hp.2 q (by simp)
      omega
  · intro h
    rw [h]
    rfl

theorem total_degree_eq_zero_iff (p : LPPolynomial) (hp : p.well_formed) :
    p.total_degree = 0 ↔ ∀ m ∈ p.m_internal, m.p = [] := by
  rw [total_degree_eq]
  constructor
  · intro h m hm
    have h1 := foldr_max_ge (p.m_internal.map LPPolynomial.current_total_degree)
      (LPPolynomial.current_total_degree m) (List.mem_map.2 ⟨m, hm, rfl⟩)
    rw [h, current_total_degree_eq] at h1
    exact (sum_exponents_eq_zero_iff m.p (hp.1.2 m hm).2).1 (by omega)
  · intro h
    apply Nat.le_antisymm _ (Nat.zero_le _)
    apply foldr_max_le
    intro d hd
    obtain ⟨m, hm, rfl⟩ := List.mem_map.1 hd
    rw [current_total_degree_eq, h m hm]
    exact Nat.le_refl _

/-- C37: for a polynomial `p` and a variable `v` of its context, the three
variable queries agree: `has(p, v)` iff `degree(p, v) > 0` iff `v` is among the
variables collected by `variables(p)`; and `total_degree(p) = 0` iff no
variable is collected. -/
theorem variable_queries_agree (p : LPPolynomial) (v : Variable) (x : Nat)
    (hp : p.well_formed) (hc : p.m_context.valid)
    (hv : p.m_context.lp_variable_opt v = some x) :
    ∃ d vars, p.degree v = some d ∧ variables_of p = some vars
      ∧ (p.has v = true ↔ 0 < d)
      ∧ (0 < d ↔ v ∈ vars)
      ∧ (p.has v = true ↔ v ∈ vars)
      ∧ (p.total_degree = 0 ↔ vars = []) := by
  obtain ⟨vars, hvars, hmem⟩ := variables_of_well_formed p hp
  have hd := degree_pos_iff p hp x
  have hh := has_eq_true_iff p v x hv
  have hvar : v ∈ vars ↔ ∃ m ∈ p.m_internal, ∃ q ∈ m.p, q.x = x := by
    rw [hmem]
    constructor
    · rintro ⟨m, hm, q, hq, hw⟩
      have e := ordering_index_variable_at _ hc q.x v hw
      unfold LPContext.lp_variable_opt at hv
      rw [hv] at e
      exact ⟨m, hm, q, hq, (Option.some.inj e).symm⟩
    · rintro ⟨m, hm, q, hq, hx⟩
      refine ⟨m, hm, q, hq, ?_⟩
      rw [hx]
      exact variable_at_ordering_index _ _ _ hv
  refine ⟨_, vars, degree_eq p v x hv, hvars, hh.trans hd.symm, hd.trans hvar.symm,
    hh.trans hvar.symm, ?_⟩
  rw [total_degree_eq_zero_iff p hp]
  constructor
  · intro h
    apply List.eq_nil_iff_forall_not_mem.2
    intro w hw
    obtain ⟨m, hm, q, hq, _⟩ := (hmem w).1 hw
    rw [h m hm] at hq
    exact absurd hq (List.not_mem_nil _)
  · intro h m hm
    cases hmp : m.p with
    | nil => rfl
    | cons q t =>
      exfalso
      have hq : q ∈ m.p := by rw [hmp]; simp
      obtain ⟨w, hw⟩ := variable_at_of_lt _ q.x (hp.2 m hm q hq)
      have : w ∈ vars := (hmem w).2 ⟨m, hm, q, hq, hw⟩
      rw [h] at this
      exact absurd this (List.not_mem_nil _)

/-- Witness for C37 at `3 + 2y - x*y` and the variable `y` over the context
`[x, y]`. -/
theorem variable_queries_agree_witness :
    poly_mixed.well_formed ∧ poly_mixed.m_context.valid
      ∧ poly_mixed.m_context.lp_variable_opt 1 = some 1
      ∧ ∃ d vars, poly_mixed.degree 1 = some d ∧ variables_of poly_mixed = some vars
          ∧ (poly_mixed.has 1 = true ↔ 0 < d)
          ∧ (0 < d ↔ 1 ∈ vars)
          ∧ (poly_mixed.has 1 = true ↔ 1 ∈ vars)
          ∧ (poly_mixed.total_degree = 0 ↔ vars = []) :=
  ⟨by decide, by decide, by decide,
    variable_queries_agree poly_mixed 1 1 (by decide) (by decide) (by decide)⟩

end carl

namespace carl

/-! ## Rationals from decimal strings -/

theorem split_on_ne_nil (sep : Char) (s : List Char) : split_on sep s ≠ [] := by
  induction s with
  | nil => simp [split_on]
  | cons c cs ih =>
    unfold split_on
    by_cases h : c = sep
    · simp [h]
    · rw [if_neg h]
      cases hs : split_on sep cs with
      | nil => simp
      | cons piece pieces => simp

theorem length_split_on (sep : Char) (s : List Char) :
    (split_on sep s).length = s.count sep + 1 := by
  induction s with
  | nil => rfl
  | cons c cs ih =>
    unfold split_on
    by_cases h : c = sep
    · rw [if_pos h, List.length_cons, ih, h, List.count_cons_self]
    · rw [if_neg h, List.count_cons_of_ne (fun e => h e.symm)]
      cases hs : split_on sep cs with
      | nil => exact absurd hs (split_on_ne_nil sep cs)
      | cons piece pieces =>
        rw [hs] at ih
        simp only [List.length_cons] at ih ⊢
        exact ih

theorem rationalize_string_two_points (a b c : List Char) :
    rationalize_string (a ++ '.' :: (b ++ '.' :: c))
      = Except.error rationalize_error.invalid_argument := by
  have h : (split_on '.' (a ++ '.' :: (b ++ '.' :: c))).length > 2 := by
    rw [length_split_on]
    simp only [List.count_append, List.count_cons_self]
    omega
  unfold rationalize_string
  simp only [h, if_true]

theorem pow_ten_one : pow 10 (to_unsigned_int 1) = 10 := by
  have h1 : to_unsigned_int 1 = 1 := by decide
  have h2 : to_signed_int 1 = 1 := by decide
  unfold pow
  rw [h1, h2, zpow_one]

theorem rationalize_string_of_pieces (s front back : List Char) (i f : Int)
    (hs : split_on '.' s = [front, back]) (hfront : front ≠ [])
    (hi : cl_RA_of_string front = some i) (hf : cl_RA_of_string back = some f) :
    rationalize_string s
      = Except.ok ((0 : Rat) + (i : Rat) + (f : Rat) / pow 10 (to_unsigned_int back.length)) := by
  unfold rationalize_string
  simp [hs, hfront, hi, hf]

/-- C38: `rationalize<cln::cl_RA>` of `"-1.5"` is `-1/2`, not the rational
`-3/2` the string denotes, and `"-0.5"` gives `+1/2`: the sign is read with the
integer part only and the fractional digits are added as a positive number.
Strings without sign give their value (`"1.5"` gives `3/2`), and every string
with more than one point ends with `std::invalid_argument`. -/
theorem rationalize_string_sign_of_fraction :
    rationalize_string ['-', '1', '.', '5'] = Except.ok (-1 / 2)
      ∧ decimal_value true 1 5 1 = -3 / 2
      ∧ rationalize_string ['-', '0', '.', '5'] = Except.ok (1 / 2)
      ∧ decimal_value true 0 5 1 = -1 / 2
      ∧ rationalize_string ['1', '.', '5'] = Except.ok (3 / 2)
      ∧ decimal_value false 1 5 1 = 3 / 2
      ∧ rationalize_string ['1', '.', '2', '.', '3']
          = Except.error rationalize_error.invalid_argument
      ∧ ∀ a b c : List Char,
          rationalize_string (a ++ '.' :: (b ++ '.' :: c))
            = Except.error rationalize_error.invalid_argument := by
  refine ⟨?_, ?_, ?_, ?_, ?_, ?_, ?_, rationalize_string_two_points⟩
  · rw [rationalize_string_of_pieces ['-', '1', '.', '5'] ['-', '1'] ['5'] (-1) 5
      (by decide) (by decide) (by decide) (by decide)]
    have h := pow_ten_one
    simp only [List.length_singleton] at h ⊢
    rw [h]
    norm_num
  · simp only [decimal_value]
    norm_num
  · rw [rationalize_string_of_pieces ['-', '0', '.', '5'] ['-', '0'] ['5'] 0 5
      (by decide) (by decide) (by decide) (by decide)]
    have h := pow_ten_one
    simp only [List.length_singleton] at h ⊢
    rw [h]
    norm_num
  · simp only [decimal_value]
    norm_num
  · rw [rationalize_string_of_pieces ['1', '.', '5'] ['1'] ['5'] 1 5
      (by decide) (by decide) (by decide) (by decide)]
    have h := pow_ten_one
    simp only [List.length_singleton] at h ⊢
    rw [h]
    norm_num
  · simp only [decimal_value]
    norm_num
  · exact rationalize_string_two_points ['1'] ['2'] ['3']

end carl

namespace carl

/-! ## Degrees of a product -/

theorem sum_exponents_power_insert (pw : power_t) (acc : List power_t) :
    ((power_insert pw acc).map (fun q => q.d)).sum = (acc.map (fun q => q.d)).sum + pw.d := by
  induction acc with
  | nil => simp [power_insert]
  | cons q t ih =>
    unfold power_insert
    by_cases h : q.x < pw.x
    · rw [if_pos h]
      simp only [List.map_cons, List.sum_cons]
      omega
    · rw [if_neg h]
      simp only [List.map_cons, List.sum_cons] at ih ⊢
      omega

theorem sum_exponents_map_bump (pw : power_t) (acc : List power_t)
    (hacc : acc.Pairwise (fun q r => r.x < q.x)) (hex : ∃ q ∈ acc, q.x = pw.x) :
    ((acc.map (fun q => if q.x = pw.x then ({ x := q.x, d := q.d + pw.d } : power_t) else q)).map
        (fun q => q.d)).sum
      = (acc.map (fun q => q.d)).sum + pw.d := by
  induction acc with
  | nil =>
    obtain ⟨q, hq, _⟩ := hex
    simp at hq
  | cons q t ih =>
    rw [List.pairwise_cons] at hacc
    rw [List.map_cons]
    by_cases hq : q.x = pw.x
    · rw [if_pos hq, map_bump_of_absent pw t
        (fun r hr => by have := hacc.1 r hr; omega)]
      simp only [List.map_cons, List.sum_cons]
      omega
    · rw [if_neg hq]
      have hex2 : ∃ r ∈ t, r.x = pw.x := by
        obtain ⟨r, hr, hrx⟩ := hex
        rcases List.mem_cons.1 hr with e | hr
        · exact absurd (e ▸ hrx) hq
        · exact ⟨r, hr, hrx⟩
      have := ih hacc.2 hex2
      simp only [List.map_cons, List.sum_cons] at this ⊢
      omega

theorem sum_exponents_merge_power (acc : List power_t) (pw : power_t)
    (hacc : acc.Pairwise (fun q r => r.x < q.x)) :
    ((merge_power acc pw).map (fun q => q.d)).sum = (acc.map (fun q => q.d)).sum + pw.d := by
  unfold merge_power
  by_cases h : acc.any (fun q => q.x == pw.x) = true
  · rw [if_pos h]
    exact sum_exponents_map_bump pw acc hacc ((any_eq_true_iff_exists acc pw).1 h)
  · rw [if_neg h]
    exact sum_exponents_power_insert pw acc

theorem sum_exponents_foldl_merge (p2 p1 : List power_t) (h1 : powers_ordered p1)
    (h2 : ∀ q ∈ p2, 0 < q.d) :
    ((p2.foldl merge_power p1).map (fun q => q.d)).sum
      = (p1.map (fun q => q.d)).sum + (p2.map (fun q => q.d)).sum := by
  induction p2 generalizing p1 with
  | nil => simp
  | cons q t ih =>
    rw [List.foldl_cons, ih _ (powers_ordered_merge_power p1 q h1 (h2 q (by simp)))
      (fun r hr => h2 r (by simp [hr])), sum_exponents_merge_power p1 q h1.1]
    simp only [List.map_cons, List.sum_cons]
    omega

theorem current_total_degree_mul (m1 m2 : lp_monomial_t) (h1 : powers_ordered m1.p)
    (h2 : powers_ordered m2.p) :
    LPPolynomial.current_total_degree (lp_monomial_mul m1 m2)
      = LPPolynomial.current_total_degree m1 + LPPolynomial.current_total_degree m2 := by
  rw [current_total_degree_eq, current_total_degree_eq, current_total_degree_eq,
    lp_monomial_mul_p]
  exact sum_exponents_foldl_merge m2.p m1.p h1 h2.2

theorem current_degree_of_mul (x : Nat) (m1 m2 : lp_monomial_t) (h1 : powers_ordered m1.p)
    (h2 : powers_ordered m2.p) :
    LPPolynomial.current_degree_of x (lp_monomial_mul m1 m2).p
      = LPPolynomial.current_degree_of x m1.p + LPPolynomial.current_degree_of x m2.p := by
  rw [current_degree_of_eq x _ (powers_ordered_mul m1 m2 h1 h2).1,
    current_degree_of_eq x _ h1.1, current_degree_of_eq x _ h2.1]
  exact exponent_of_mul x m1 m2 h1 h2

/-- The canonical order is the lexicographic order of the exponents, read from
the highest variable down: a smaller power product has a smaller exponent at
the highest variable where the two differ. -/
theorem power_cmp_lt_exponent (p q : List power_t) (hp : powers_ordered p)
    (hq : powers_ordered q) (h : power_cmp p q = Ordering.lt) :
    ∃ x, exponent_of x p < exponent_of x q
      ∧ ∀ y, x < y → exponent_of y p = exponent_of y q := by
  induction p generalizing q with
  | nil =>
    cases q with
    | nil => simp [power_cmp] at h
    | cons b t =>
      refine ⟨b.x, ?_, ?_⟩
      · rw [exponent_of_mem (b :: t) hq.1 b (by simp)]
        exact hq.2 b (by simp)
      · intro y hy
        rw [exponent_of_above_head y b t hq hy]
        rfl
  | cons a s ih =>
    cases q with
    | nil => simp [power_cmp] at h
    | cons b t =>
      unfold power_cmp at h
      by_cases h1 : a.x < b.x
      · refine ⟨b.x, ?_, ?_⟩
        · rw [exponent_of_above_head b.x a s hp h1,
            exponent_of_mem (b :: t) hq.1 b (by simp)]
          exact hq.2 b (by simp)
        · intro y hy
          rw [exponent_of_above_head y b t hq hy,
            exponent_of_above_head y a s hp (by omega)]
      · rw [if_neg h1] at h
        by_cases h2 : b.x < a.x
        · rw [if_pos h2] at h
          exact Ordering.noConfusion h
        · rw [if_neg h2] at h
          have hx : a.x = b.x := by omega
          have hs := powers_ordered_tail a s hp
          have ht := powers_ordered_tail b t hq
          have hs0 : ∀ y, a.x ≤ y → exponent_of y s = 0 := by
            intro y hy
            apply exponent_of_eq_zero
            intro r hr e
            have := (List.pairwise_cons.1 hp.1).1 r hr
            omega
          have ht0 : ∀ y, b.x ≤ y → exponent_of y t = 0 := by
            intro y hy
            apply exponent_of_eq_zero
            intro r hr e
            have := (List.pairwise_cons.1 hq.1).1 r hr
            omega
          by_cases h3 : a.d < b.d
          · refine ⟨a.x, ?_, ?_⟩
            · rw [exponent_of_cons, exponent_of_cons, if_pos rfl, if_pos hx.symm,
                hs0 a.x (Nat.le_refl _), ht0 a.x (by omega)]
              omega
            · intro y hy
              rw [exponent_of_above_head y a s hp hy,
                exponent_of_above_head y b t hq (by omega)]
          · rw [if_neg h3] at h
            by_cases h4 : b.d < a.d
            · rw [if_pos h4] at h
              exact Ordering.noConfusion h
            · rw [if_neg h4] at h
              have hd : a.d = b.d := by omega
              obtain ⟨x, hlt, habove⟩ := ih t hs ht h
              have hxlt : x < b.x := by
                by_contra hge
                rw [ht0 x (by omega)] at hlt
                omega
              refine ⟨x, ?_, ?_⟩
              · rw [exponent_of_cons, exponent_of_cons, if_neg (by omega), if_neg (by omega)]
                omega
              · intro y hy
                rw [exponent_of_cons, exponent_of_cons, habove y hy, hx, hd]

end carl

namespace carl

theorem exists_top_monomial (w : List power_t → Nat) (A : lp_polynomial_t)
    (hA : A.Pairwise (fun m n => power_cmp m.p n.p = Ordering.lt)) (hne : A ≠ []) :
    ∃ t ∈ A, (∀ m ∈ A, w m.p ≤ w t.p)
      ∧ ∀ m ∈ A, w m.p = w t.p → m = t ∨ power_cmp m.p t.p = Ordering.lt := by
  induction A with
  | nil => exact absurd rfl hne
  | cons h T ih =>
    rw [List.pairwise_cons] at hA
    by_cases hT : T = []
    · subst hT
      refine ⟨h, by simp, ?_, ?_⟩
      · intro m hm
        rw [List.mem_singleton] at hm
        rw [hm]
      · intro m hm _
        rw [List.mem_singleton] at hm
        exact Or.inl hm
    · obtain ⟨t, ht, hmax, htop⟩ := ih hA.2 hT
      by_cases hw : w t.p < w h.p
      · refine ⟨h, by simp, ?_, ?_⟩
        · intro m hm
          rcases List.mem_cons.1 hm with e | hm
          · rw [e]
          · have := hmax m hm
            omega
        · intro m hm he
          rcases List.mem_cons.1 hm with e | hm
          · exact Or.inl e
          · have := hmax m hm
            omega
      · refine ⟨t, List.mem_cons_of_mem _ ht, ?_, ?_⟩
        · intro m hm
          rcases List.mem_cons.1 hm with e | hm
          · rw [e]
            omega
          · exact hmax m hm
        · intro m hm he
          rcases List.mem_cons.1 hm with e | hm
          · rw [e]
            exact Or.inr (hA.1 t ht)
          · exact htop m hm he

theorem top_product_unique (m1 ma m2 mb : lp_monomial_t)
    (h1o : powers_ordered m1.p) (hao : powers_ordered ma.p)
    (h2o : powers_ordered m2.p) (hbo : powers_ordered mb.p)
    (h1 : m1 = ma ∨ power_cmp m1.p ma.p = Ordering.lt)
    (h2 : m2 = mb ∨ power_cmp m2.p mb.p = Ordering.lt)
    (hK : (lp_monomial_mul m1 m2).p = (lp_monomial_mul ma mb).p) : m1 = ma ∧ m2 = mb := by
  have hsum : ∀ x, exponent_of x m1.p + exponent_of x m2.p
      = exponent_of x ma.p + exponent_of x mb.p := by
    intro x
    rw [← exponent_of_mul x m1 m2 h1o h2o, ← exponent_of_mul x ma mb hao hbo, hK]
  rcases h1 with e1 | l1
  · rcases h2 with e2 | l2
    · exact ⟨e1, e2⟩
    · exfalso
      obtain ⟨x, hx, _⟩ := power_cmp_lt_exponent _ _ h2o hbo l2
      have := hsum x
      rw [e1] at this
      omega
  · rcases h2 with e2 | l2
    · exfalso
      obtain ⟨x, hx, _⟩ := power_cmp_lt_exponent _ _ h1o hao l1
      have := hsum x
      rw [e2] at this
      omega
    · exfalso
      obtain ⟨x, hx, hxa⟩ := power_cmp_lt_exponent _ _ h1o hao l1
      obtain ⟨y, hy, hya⟩ := power_cmp_lt_exponent _ _ h2o hbo l2
      rcases Nat.lt_trichotomy x y with hlt | heq | hgt
      · have := hsum y
        have := hxa y hlt
        omega
      · subst heq
        have := hsum x
        omega
      · have := hsum x
        have := hya x hgt
        omega

theorem sum_map_single {α : Type} (A : List α) (f : α → Int) (t : α) (ht : t ∈ A)
    (hnd : A.Nodup) (h0 : ∀ m ∈ A, m ≠ t → f m = 0) : (A.map f).sum = f t := by
  induction A with
  | nil => simp at ht
  | cons h T ih =>
    rw [List.nodup_cons] at hnd
    rw [List.map_cons, List.sum_cons]
    rcases List.mem_cons.1 ht with e | ht
    · subst e
      have hz : (T.map f).sum = 0 := by
        apply List.sum_eq_zero
        intro y hy
        obtain ⟨m, hm, rfl⟩ := List.mem_map.1 hy
        exact h0 m (List.mem_cons_of_mem _ hm) (fun e => hnd.1 (e ▸ hm))
      rw [hz, add_zero]
    · have hh : f h = 0 := h0 h (by simp) (fun e => hnd.1 (e ▸ ht))
      rw [hh, zero_add]
      exact ih ht hnd.2 (fun m hm => h0 m (List.mem_cons_of_mem _ hm))

theorem nodup_of_pairwise_lt (A : lp_polynomial_t) (hA : lp_polynomial_check_order A) :
    A.Nodup :=
  List.Nodup.of_map _ (nodup_of_check_order A hA)

/-- The product of the top monomials of two polynomials is produced by no
other pair of monomials, so its coefficient in the product is the product of
their coefficients. -/
theorem coeff_at_mul_top (w : List power_t → Nat)
    (hw : ∀ m1 m2 : lp_monomial_t, powers_ordered m1.p → powers_ordered m2.p →
      w (lp_monomial_mul m1 m2).p = w m1.p + w m2.p)
    (A B : lp_polynomial_t) (hA : lp_polynomial_check_order A)
    (hB : lp_polynomial_check_order B) (ta tb : lp_monomial_t) (hta : ta ∈ A) (htb : tb ∈ B)
    (hmaxa : ∀ m ∈ A, w m.p ≤ w ta.p) (hmaxb : ∀ m ∈ B, w m.p ≤ w tb.p)
    (htopa : ∀ m ∈ A, w m.p = w ta.p → m = ta ∨ power_cmp m.p ta.p = Ordering.lt)
    (htopb : ∀ m ∈ B, w m.p = w tb.p → m = tb ∨ power_cmp m.p tb.p = Ordering.lt) :
    coeff_at (lp_polynomial_mul A B) (lp_monomial_mul ta tb).p = ta.a * tb.a := by
  have huniq : ∀ m1 ∈ A, ∀ m2 ∈ B,
      (lp_monomial_mul m1 m2).p = (lp_monomial_mul ta tb).p → m1 = ta ∧ m2 = tb := by
    intro m1 h1 m2 h2 hK
    have e1 := hw m1 m2 (hA.2 m1 h1).2 (hB.2 m2 h2).2
    have e2 := hw ta tb (hA.2 ta hta).2 (hB.2 tb htb).2
    rw [hK, e2] at e1
    have l1 := hmaxa m1 h1
    have l2 := hmaxb m2 h2
    exact top_product_unique m1 ta m2 tb (hA.2 m1 h1).2 (hA.2 ta hta).2 (hB.2 m2 h2).2
      (hB.2 tb htb).2 (htopa m1 h1 (by omega)) (htopb m2 h2 (by omega)) hK
  rw [coeff_at_mul A B _ hA hB, coeff_at_products]
  rw [sum_map_single A _ ta hta (nodup_of_pairwise_lt A hA)]
  · rw [sum_map_single B _ tb htb (nodup_of_pairwise_lt B hB)]
    · rw [if_pos rfl]
      rfl
    · intro m2 h2 hne
      rw [if_neg]
      intro hK
      exact hne (huniq ta hta m2 h2 hK).2
  · intro m1 h1 hne
    apply List.sum_eq_zero
    intro y hy
    obtain ⟨m2, h2, rfl⟩ := List.mem_map.1 hy
    rw [if_neg]
    intro hK
    exact hne (huniq m1 h1 m2 h2 hK).1

theorem max_weight_eq (w : List power_t → Nat) (A : lp_polynomial_t) (t : lp_monomial_t)
    (ht : t ∈ A) (hmax : ∀ m ∈ A, w m.p ≤ w t.p) :
    (A.map (fun m => w m.p)).foldr max 0 = w t.p := by
  apply Nat.le_antisymm
  · apply foldr_max_le
    intro d hd
    obtain ⟨m, hm, rfl⟩ := List.mem_map.1 hd
    exact hmax m hm
  · exact foldr_max_ge (A.map (fun m => w m.p)) (w t.p) (List.mem_map.2 ⟨t, ht, rfl⟩)

/-- For a weight that is additive on products of monomials (the exponent of one
variable, or the sum of all exponents), the largest weight of a monomial of
the product of two nonzero polynomials is the sum of the largest weights of
the factors; in particular the product is not zero. -/
theorem max_weight_mul (w : List power_t → Nat)
    (hw : ∀ m1 m2 : lp_monomial_t, powers_ordered m1.p → powers_ordered m2.p →
      w (lp_monomial_mul m1 m2).p = w m1.p + w m2.p)
    (A B : lp_polynomial_t) (hA : lp_polynomial_check_order A)
    (hB : lp_polynomial_check_order B) (hAne : A ≠ []) (hBne : B ≠ []) :
    lp_polynomial_mul A B ≠ []
      ∧ ((lp_polynomial_mul A B).map (fun m => w m.p)).foldr max 0
          = (A.map (fun m => w m.p)).foldr max 0 + (B.map (fun m => w m.p)).foldr max 0 := by
  obtain ⟨ta, hta, hmaxa, htopa⟩ := exists_top_monomial w A hA.1 hAne
  obtain ⟨tb, htb, hmaxb, htopb⟩ := exists_top_monomial w B hB.1 hBne
  have hcoeff := coeff_at_mul_top w hw A B hA hB ta tb hta htb hmaxa hmaxb htopa htopb
  have hne0 : ta.a * tb.a ≠ 0 := mul_ne_zero (hA.2 ta hta).1 (hB.2 tb htb).1
  have hex : ∃ n ∈ lp_polynomial_mul A B, n.p = (lp_monomial_mul ta tb).p := by
    by_contra hno
    have := coeff_at_eq_zero (lp_polynomial_mul A B) (lp_monomial_mul ta tb).p
      (fun n hn e => hno ⟨n, hn, e⟩)
    rw [this] at hcoeff
    exact hne0 hcoeff.symm
  obtain ⟨n, hn, hnp⟩ := hex
  refine ⟨List.ne_nil_of_mem hn, ?_⟩
  rw [max_weight_eq w A ta hta hmaxa, max_weight_eq w B tb htb hmaxb]
  apply Nat.le_antisymm
  · apply foldr_max_le
    intro d hd
    obtain ⟨k, hk, rfl⟩ := List.mem_map.1 hd
    rw [lp_polynomial_mul_eq] at hk
    obtain ⟨j, hj, hjp⟩ := mem_foldl_add_monomial _ []
      (powers_ordered_products A B hA hB) k hk
    rw [List.nil_append] at hj
    obtain ⟨m1, h1, m2, h2, rfl⟩ := (mem_monomial_products A B j).1 hj
    rw [← hjp, hw m1 m2 (hA.2 m1 h1).2 (hB.2 m2 h2).2]
    exact Nat.add_le_add (hmaxa m1 h1) (hmaxb m2 h2)
  · have := foldr_max_ge ((lp_polynomial_mul A B).map (fun m => w m.p)) (w n.p)
      (List.mem_map.2 ⟨n, hn, rfl⟩)
    rw [hnp, hw ta tb (hA.2 ta hta).2 (hB.2 tb htb).2] at this
    exact this

end carl

namespace carl

theorem total_degree_weight (p : LPPolynomial) :
    p.total_degree
      = (p.m_internal.map (fun m => (m.p.map (fun q => q.d)).sum)).foldr max 0 := by
  rw [total_degree_eq]
  congr 1
  apply List.map_congr_left
  intro m _
  exact current_total_degree_eq m

/-- C36: for nonzero polynomials `a`, `b` over one context the product `a * b`
is nonzero, `total_degree(a * b) = total_degree(a) + total_degree(b)`, and for
every variable `v` of the context
`degree(a * b, v) = degree(a, v) + degree(b, v)`. -/
theorem mul_degree_add (a b : LPPolynomial) (v : Variable) (x : Nat)
    (ha : a.well_formed) (hb : b.well_formed) (hctx : a.m_context = b.m_context)
    (hza : is_zero a = false) (hzb : is_zero b = false)
    (hv : a.m_context.lp_variable v = some x) :
    ∃ ab da db, a.mul b = some ab ∧ is_zero ab = false
      ∧ ab.total_degree = a.total_degree + b.total_degree
      ∧ a.degree v = some da ∧ b.degree v = some db ∧ ab.degree v = some (da + db) := by
  have hane := (is_zero_eq_false_iff a).1 hza
  have hbne := (is_zero_eq_false_iff b).1 hzb
  have hvb : b.m_context.lp_variable v = some x := hctx ▸ hv
  have htot := max_weight_mul (fun p => (p.map (fun q => q.d)).sum)
    (fun m1 m2 h1 h2 => by
      rw [lp_monomial_mul_p]
      exact sum_exponents_foldl_merge m2.p m1.p h1 h2.2)
    a.m_internal b.m_internal ha.1 hb.1 hane hbne
  have hdeg := max_weight_mul (fun p => LPPolynomial.current_degree_of x p)
    (fun m1 m2 h1 h2 => current_degree_of_mul x m1 m2 h1 h2)
    a.m_internal b.m_internal ha.1 hb.1 hane hbne
  have hmul : a.mul b
      = some (LPPolynomial.mk (lp_polynomial_mul a.m_internal b.m_internal) a.m_context) := by
    have hc : a.context = b.context := hctx
    unfold LPPolynomial.mul
    rw [if_pos hc]
    rfl
  refine ⟨_, _, _, hmul, (is_zero_eq_false_iff _).2 htot.1, ?_, degree_eq a v x hv,
    degree_eq b v x hvb, ?_⟩
  · rw [total_degree_weight, total_degree_weight a, total_degree_weight b]
    exact htot.2
  · have h := degree_eq
      (LPPolynomial.mk (lp_polynomial_mul a.m_internal b.m_internal) a.m_context) v x hv
    rw [h]
    exact congrArg some hdeg.2

/-- Witness for C36 at `(x + 5) * (3 + 2y - x*y)` and the variable `x` over the
context `[x, y]`. -/
theorem mul_degree_add_witness :
    poly_x_plus_5.well_formed ∧ poly_mixed.well_formed
      ∧ poly_x_plus_5.m_context = poly_mixed.m_context
      ∧ is_zero poly_x_plus_5 = false ∧ is_zero poly_mixed = false
      ∧ poly_x_plus_5.m_context.lp_variable 0 = some 0
      ∧ ∃ ab da db, poly_x_plus_5.mul poly_mixed = some ab ∧ is_zero ab = false
          ∧ ab.total_degree = poly_x_plus_5.total_degree + poly_mixed.total_degree
          ∧ poly_x_plus_5.degree 0 = some da ∧ poly_mixed.degree 0 = some db
          ∧ ab.degree 0 = some (da + db) :=
  ⟨by decide, by decide, by decide, by decide, by decide, by decide,
    mul_degree_add poly_x_plus_5 poly_mixed 0 0 (by decide) (by decide) (by decide)
      (by decide) (by decide) (by decide)⟩

end carl

namespace carl

theorem split_on_append (sep : Char) (a b : List Char) (ha : sep ∉ a) :
    split_on sep (a ++ sep :: b) = a :: split_on sep b := by
  induction a with
  | nil =>
    show split_on sep (sep :: b) = [] :: split_on sep b
    conv_lhs => rw [split_on]
    rw [if_pos rfl]
  | cons c cs ih =>
    have hc : ¬ c = sep := fun e => ha (by simp [e])
    have hcs : sep ∉ cs := fun h => ha (List.mem_cons_of_mem _ h)
    show split_on sep (c :: (cs ++ sep :: b)) = (c :: cs) :: split_on sep b
    conv_lhs => rw [split_on]
    rw [if_neg hc, ih hcs]

theorem split_on_of_not_mem (sep : Char) (a : List Char) (ha : sep ∉ a) :
    split_on sep a = [a] := by
  induction a with
  | nil => rfl
  | cons c cs ih =>
    have hc : ¬ c = sep := fun e => ha (by simp [e])
    have hcs : sep ∉ cs := fun h => ha (List.mem_cons_of_mem _ h)
    conv_lhs => rw [split_on]
    rw [if_neg hc, ih hcs]

theorem digit_of_read_digits (s : List Char) (acc n : Nat)
    (h : read_digits s acc = some n) : ∀ c ∈ s, c.isDigit = true := by
  induction s generalizing acc with
  | nil => intro c hc; simp at hc
  | cons d ds ih =>
    intro c hc
    unfold read_digits at h
    cases hd : digit_value d with
    | none => rw [hd] at h; exact Option.noConfusion h
    | some k =>
      rw [hd] at h
      rcases List.mem_cons.1 hc with e | hc
      · rw [e]
        unfold digit_value at hd
        by_cases hdig : d.isDigit = true
        · exact hdig
        · rw [if_neg hdig] at hd
          exact Option.noConfusion hd
      · exact ih _ h c hc

theorem digit_of_read_unsigned (s : List Char) (n : Nat) (h : read_unsigned s = some n) :
    s ≠ [] ∧ ∀ c ∈ s, c.isDigit = true := by
  unfold read_unsigned at h
  by_cases hs : s = []
  · rw [if_pos hs] at h
    exact Option.noConfusion h
  · rw [if_neg hs] at h
    exact ⟨hs, digit_of_read_digits s 0 n h⟩

theorem cl_RA_of_string_unsigned (s : List Char) (n : Nat) (h : read_unsigned s = some n) :
    cl_RA_of_string s = some (n : Int) := by
  obtain ⟨hne, hdig⟩ := digit_of_read_unsigned s n h
  cases s with
  | nil => exact absurd rfl hne
  | cons c cs =>
    have hc := hdig c (by simp)
    have h1 : c ≠ '-' := fun e => by rw [e] at hc; exact absurd hc (by decide)
    have h2 : c ≠ '+' := fun e => by rw [e] at hc; exact absurd hc (by decide)
    unfold cl_RA_of_string
    split
    · rename_i rest heq
      exact absurd (List.cons.inj heq).1 h1
    · rename_i rest heq
      exact absurd (List.cons.inj heq).1 h2
    · rw [h]
      rfl

theorem cl_RA_of_string_negative (s : List Char) (n : Nat) (h : read_unsigned s = some n) :
    cl_RA_of_string ('-' :: s) = some (-(n : Int)) := by
  unfold cl_RA_of_string
  simp only [h, Option.map_some']

theorem pow_ten_of_lt (k : Nat) (hk : k < 2 ^ 31) : pow 10 (to_unsigned_int k) = 10 ^ k := by
  have h1 : to_unsigned_int k = k := to_unsigned_int_of_lt k (by unfold unsigned_int_range; omega)
  have h2 : to_signed_int k = (k : Int) := by
    unfold to_signed_int
    have e : k % unsigned_int_range = k := Nat.mod_eq_of_lt (by unfold unsigned_int_range; omega)
    rw [e, if_pos hk]
  unfold pow
  rw [h1, h2, zpow_natCast]

theorem point_not_mem_of_digits (s : List Char) (h : ∀ c ∈ s, c.isDigit = true) : '.' ∉ s := by
  intro hmem
  exact absurd (h '.' hmem) (by decide)

/-- The value `rationalize<cln::cl_RA>` gives to the strings `digits.digits`
and `-digits.digits`, for fewer than `2^31` fractional digits: an unsigned
string gets the value it denotes; a negative string gets the negated integer
part plus the fraction, which is not the value it denotes unless the fraction
is zero. -/
theorem rationalize_string_decimal (ds fs : List Char) (n f : Nat)
    (hn : read_unsigned ds = some n) (hf : read_unsigned fs = some f)
    (hlen : fs.length < 2 ^ 31) :
    rationalize_string (ds ++ '.' :: fs) = Except.ok (decimal_value false n f fs.length)
      ∧ rationalize_string ('-' :: (ds ++ '.' :: fs))
          = Except.ok (-(n : Rat) + (f : Rat) / 10 ^ fs.length)
      ∧ (f ≠ 0 → -(n : Rat) + (f : Rat) / 10 ^ fs.length ≠ decimal_value true n f fs.length) := by
  obtain ⟨hdne, hddig⟩ := digit_of_read_unsigned ds n hn
  obtain ⟨_, hfdig⟩ := digit_of_read_unsigned fs f hf
  have hpd : '.' ∉ ds := point_not_mem_of_digits ds hddig
  have hpf : '.' ∉ fs := point_not_mem_of_digits fs hfdig
  have hpm : '.' ∉ '-' :: ds := by
    intro h
    rcases List.mem_cons.1 h with e | h
    · exact absurd e (by decide)
    · exact hpd h
  have hs1 : split_on '.' (ds ++ '.' :: fs) = [ds, fs] := by
    rw [split_on_append '.' ds fs hpd, split_on_of_not_mem '.' fs hpf]
  have hs2 : split_on '.' ('-' :: (ds ++ '.' :: fs)) = ['-' :: ds, fs] := by
    have e : '-' :: (ds ++ '.' :: fs) = ('-' :: ds) ++ '.' :: fs := rfl
    rw [e, split_on_append '.' ('-' :: ds) fs hpm, split_on_of_not_mem '.' fs hpf]
  refine ⟨?_, ?_, ?_⟩
  · rw [rationalize_string_of_pieces _ ds fs n f hs1 hdne
      (cl_RA_of_string_unsigned ds n hn) (cl_RA_of_string_unsigned fs f hf),
      pow_ten_of_lt fs.length hlen]
    unfold decimal_value
    simp
  · rw [rationalize_string_of_pieces _ ('-' :: ds) fs (-(n : Int)) f hs2 (by simp)
      (cl_RA_of_string_negative ds n hn) (cl_RA_of_string_unsigned fs f hf),
      pow_ten_of_lt fs.length hlen]
    simp
  · intro hf0 heq
    unfold decimal_value at heq
    simp only [if_true, Nat.cast_pow, Nat.cast_ofNat] at heq
    have hpos : (0 : Rat) < (f : Rat) / 10 ^ fs.length := by
      apply div_pos
      · exact_mod_cast Nat.pos_of_ne_zero hf0
      · positivity
    linarith

end carl
